import Mathlib

/-!
# Verification of the exam seat-allocation engine

Shallow embedding of the four allocation strategies of
`src/components/ExamSeatingAllocator.tsx` (Simple Greedy, Greedy with Min
Chunk, Greedy Lookahead, Best-Fit/First-Fit Decreasing with block unlock),
together with proofs of the specified invariants.

Numbers are modelled as `Int` (JavaScript numbers used as integers), strings
as `String`.  The `roomUsage` JavaScript object is modelled as an insertion
ordered association list.
-/

namespace Alloc

/-- A student section (`interface Section` in the source): `branch` and
`section` form the group identity, `students` is the size.  The source field
`section` is a Lean keyword and is rendered `sec` here. -/
structure Section where
  id : Int
  branch : String
  sec : String
  students : Int
deriving DecidableEq, Repr

/-- A room (`interface Room`).  The `rows` field of the source is
informational only and never consumed by the allocation logic, so it is
omitted from the embedding. -/
structure Room where
  no : String
  capacity : Int
deriving DecidableEq, Repr

/-- A named block of rooms (`interface RoomBlock`). -/
structure RoomBlock where
  name : String
  rooms : List Room
deriving DecidableEq, Repr

/-- An allocation record (`interface Allocation`).  The optional JavaScript
fields `startSeat`/`endSeat`/`blockName` are `Option`s; the optional boolean
fields `partial` and `error` are `Bool`s with `false` for "absent"
(JavaScript truthiness).  `partial` is a Lean keyword and is rendered
`split`.  The `emergency` field is declared in the source but never set by
any algorithm, so it is omitted. -/
structure Allocation where
  branch : String
  sec : String
  roomNo : String
  students : Int
  startSeat : Option Int
  endSeat : Option Int
  split : Bool
  error : Bool
  blockName : Option String
deriving DecidableEq, Repr

/-! ## The `roomUsage` map

`const roomUsage: Record<string, number> = {}` with reads
`roomUsage[k] || 0` and writes `roomUsage[k] = v`. -/

/-- The room-usage map: an insertion-ordered association list, as a
JavaScript object used as a dictionary. -/
def Usage := List (String × Int)

/-- `roomUsage[k] || 0`: value of the first binding of `k`, else 0. -/
def Usage.get : Usage → String → Int
  | [], _ => 0
  | p :: rest, k => if p.1 = k then p.2 else Usage.get rest k

/-- `roomUsage[k] = v`: replace the binding if present, else append. -/
def Usage.set : Usage → String → Int → Usage
  | [], k, v => [(k, v)]
  | p :: rest, k, v => if p.1 = k then (k, v) :: rest else p :: Usage.set rest k v

/-- `k in roomUsage`: the map has an entry for key `k`. -/
def Usage.hasKey : Usage → String → Bool
  | [], _ => false
  | p :: rest, k => p.1 == k || Usage.hasKey rest k

theorem Usage.get_set_self (u : Usage) (k : String) (v : Int) :
    Usage.get (Usage.set u k v) k = v := by
  induction u with
  | nil => simp [Usage.get, Usage.set]
  | cons p rest ih =>
    by_cases h : p.1 = k
    · simp [Usage.set, h, Usage.get]
    · simp [Usage.set, h, Usage.get, ih]

theorem Usage.get_set_ne (u : Usage) (k k' : String) (v : Int) (h : k ≠ k') :
    Usage.get (Usage.set u k v) k' = Usage.get u k' := by
  induction u with
  | nil => simp [Usage.get, Usage.set, h]
  | cons p rest ih =>
    by_cases hp : p.1 = k
    · simp [Usage.set, hp, Usage.get, h, hp ▸ h]
    · simp only [Usage.set, if_neg hp]
      by_cases hp' : p.1 = k'
      · simp [Usage.get, hp']
      · simp [Usage.get, hp', ih]

theorem Usage.hasKey_set_self (u : Usage) (k : String) (v : Int) :
    Usage.hasKey (Usage.set u k v) k = true := by
  induction u with
  | nil => simp [Usage.hasKey, Usage.set]
  | cons p rest ih =>
    by_cases h : p.1 = k
    · simp [Usage.set, h, Usage.hasKey]
    · simp [Usage.set, h, Usage.hasKey, ih]

theorem Usage.hasKey_set_ne (u : Usage) (k k' : String) (v : Int) (h : k ≠ k') :
    Usage.hasKey (Usage.set u k v) k' = Usage.hasKey u k' := by
  induction u with
  | nil => simp [Usage.hasKey, Usage.set, h]
  | cons p rest ih =>
    by_cases hp : p.1 = k
    · simp [Usage.set, hp, Usage.hasKey, h, hp ▸ h]
    · simp [Usage.set, hp, Usage.hasKey, ih]

/-- A key not in the map reads as 0. -/
theorem Usage.get_eq_zero_of_not_hasKey (u : Usage) (k : String)
    (h : Usage.hasKey u k = false) : Usage.get u k = 0 := by
  induction u with
  | nil => simp [Usage.get]
  | cons p rest ih =>
    simp only [Usage.hasKey, Bool.or_eq_false_iff, beq_eq_false_iff_ne] at h
    simp [Usage.get, h.1, ih h.2]

/-! ## Stable descending sort

`array.sort((a, b) => b.key - a.key)`: JavaScript `Array.prototype.sort` is
stable, so it coincides with stable insertion sort on the key, descending. -/

/-- Insert `x` before the first element whose key is not larger (stable). -/
def insertDescBy (key : α → Int) (x : α) : List α → List α
  | [] => [x]
  | y :: ys => if key x < key y then y :: insertDescBy key x ys else x :: y :: ys

/-- Stable sort, descending by `key`; the model of
`.sort((a, b) => b.key - a.key)`. -/
def sortDescBy (key : α → Int) : List α → List α
  | [] => []
  | x :: xs => insertDescBy key x (sortDescBy key xs)

theorem insertDescBy_perm (key : α → Int) (x : α) (l : List α) :
    List.Perm (insertDescBy key x l) (x :: l) := by
  induction l with
  | nil => rfl
  | cons y ys ih =>
    by_cases h : key x < key y
    · simp only [insertDescBy, if_pos h]
      exact (ih.cons y).trans (List.Perm.swap x y ys)
    · simp [insertDescBy, if_neg h]

theorem sortDescBy_perm (key : α → Int) (l : List α) :
    List.Perm (sortDescBy key l) l := by
  induction l with
  | nil => rfl
  | cons x xs ih =>
    exact (insertDescBy_perm key x (sortDescBy key xs)).trans (ih.cons x)

/-! ## Shared helpers of the strategies -/

/-- The Boolean filter of the group normalizer:
`s.branch && s.section && s.students > 0`. -/
def validSection (s : Section) : Bool :=
  s.branch != "" && s.sec != "" && decide (0 < s.students)

/-- `sections.filter(...).map(s => ({...s}))` followed by
`sort((a, b) => b.students - a.students)`. -/
def normalizeSections (sections : List Section) : List Section :=
  sortDescBy (fun s => s.students) (sections.filter validSection)

/-- Flatten the catalog to `(room, blockName)` pairs and sort by capacity
descending: `roomBlocks.flatMap(...).sort((a, b) => b.capacity - a.capacity)`. -/
def flattenRooms (roomBlocks : List RoomBlock) : List (Room × String) :=
  sortDescBy (fun p => p.1.capacity)
    (roomBlocks.flatMap (fun b => b.rooms.map (fun r => (r, b.name))))

/-- `allRooms.some(r => (roomUsage[r.no] || 0) > 0)`. -/
def anyRoomHasStudents (allRooms : List (Room × String)) (usage : Usage) : Bool :=
  allRooms.any (fun r => decide (0 < usage.get r.1.no))

/-- All rooms of the catalog in catalog order (`roomBlocks.flatMap(b => b.rooms)`). -/
def catalogRooms (roomBlocks : List RoomBlock) : List Room :=
  roomBlocks.flatMap (fun b => b.rooms)

/-- The ids of all rooms of the catalog. -/
def catalogIds (roomBlocks : List RoomBlock) : List String :=
  (catalogRooms roomBlocks).map (fun r => r.no)

/-- Capacity of the catalog room with id `no` (0 if absent):
`roomBlocks.flatMap(b => b.rooms).find(r => r.no === no)`. -/
def capacityOf (roomBlocks : List RoomBlock) (no : String) : Int :=
  match (catalogRooms roomBlocks).find? (fun r => r.no == no) with
  | some r => r.capacity
  | none => 0

/-- A non-error placement record as pushed by the greedy strategies. -/
def mkPlacement (s : Section) (roomNo : String) (students used : Int)
    (split : Bool) (blockName : String) : Allocation :=
  { branch := s.branch, sec := s.sec, roomNo := roomNo, students := students,
    startSeat := some (used + 1), endSeat := some (used + students),
    split := split, error := false, blockName := some blockName }

/-- The `roomNo: "NO SPACE"` error record. -/
def mkError (s : Section) (students : Int) : Allocation :=
  { branch := s.branch, sec := s.sec, roomNo := "NO SPACE", students := students,
    startSeat := none, endSeat := none, split := false, error := true,
    blockName := none }

/-! ## Strategy 1 and 2: Simple Greedy / Greedy with Min Chunk

`allocateSimpleGreedy` and `allocateGreedyMinChunk` have literally identical
bodies in the source; both unfold to the shared `greedyCore` below. -/

/-- The inner `for (const room of allRooms)` loop of the greedy strategies
for one section: returns the records pushed, the updated usage and the final
`remaining`. -/
def greedyRooms (minChunk : Int) (s : Section) (allRooms : List (Room × String)) :
    List (Room × String) → Usage → Int → List Allocation × Usage × Int
  | [], usage, remaining => ([], usage, remaining)
  | (room, blockName) :: rest, usage, remaining =>
    if remaining = 0 then ([], usage, remaining)
    else
      let used := usage.get room.no
      let available := room.capacity - used
      if available ≤ 0 then greedyRooms minChunk s allRooms rest usage remaining
      else
        let toAllocate := min available remaining
        if used = 0 ∧ toAllocate < minChunk ∧ remaining = toAllocate then
          if anyRoomHasStudents allRooms usage then
            greedyRooms minChunk s allRooms rest usage remaining
          else
            let rec0 := mkPlacement s room.no toAllocate used
              (toAllocate != s.students) blockName
            let out := greedyRooms minChunk s allRooms rest
              (usage.set room.no (used + toAllocate)) (remaining - toAllocate)
            (rec0 :: out.1, out.2)
        else if toAllocate < minChunk ∧ minChunk < remaining then
          greedyRooms minChunk s allRooms rest usage remaining
        else
          let rec0 := mkPlacement s room.no toAllocate used
            (toAllocate != s.students) blockName
          let out := greedyRooms minChunk s allRooms rest
            (usage.set room.no (used + toAllocate)) (remaining - toAllocate)
          (rec0 :: out.1, out.2)

/-- The outer `for (const section of sectionLeft)` loop of the greedy
strategies. -/
def greedySections (minChunk : Int) (allRooms : List (Room × String)) :
    List Section → Usage → List Allocation × Usage
  | [], usage => ([], usage)
  | s :: rest, usage =>
    let out := greedyRooms minChunk s allRooms allRooms usage s.students
    let errs := if 0 < out.2.2 then [mkError s out.2.2] else []
    let next := greedySections minChunk allRooms rest out.2.1
    (out.1 ++ errs ++ next.1, next.2)

/-- Shared body of `allocateSimpleGreedy` and `allocateGreedyMinChunk`. -/
def greedyCore (minChunk : Int) (roomBlocks : List RoomBlock)
    (sections : List Section) : List Allocation × Usage :=
  greedySections minChunk (flattenRooms roomBlocks) (normalizeSections sections) []

/-- `allocateSimpleGreedy`. -/
def allocateSimpleGreedy (minChunk : Int) (roomBlocks : List RoomBlock)
    (sections : List Section) : List Allocation × Usage :=
  greedyCore minChunk roomBlocks sections

/-- `allocateGreedyMinChunk` (identical body in the source). -/
def allocateGreedyMinChunk (minChunk : Int) (roomBlocks : List RoomBlock)
    (sections : List Section) : List Allocation × Usage :=
  greedyCore minChunk roomBlocks sections

/-! ## Strategy 3: Greedy Lookahead -/

/-- `pool.findIndex(s => s.students === v)` followed by `pool.splice(idx, 1)`:
remove the first section of size exactly `v`, returning it and the rest.
Used both for the perfect-fit fast path (`v = seatsLeft`) and for removing
the section found by the best-whole-fit scan (`v` = its size). -/
def extractBySize (v : Int) : List Section → Option (Section × List Section)
  | [] => none
  | s :: rest =>
    if s.students = v then some (s, rest)
    else
      match extractBySize v rest with
      | some (t, rest') => some (t, s :: rest')
      | none => none

/-- The `bestChunk` of the best-whole-fit scan: largest `s.students` that is
`≤ seatsLeft` (0 when none qualifies), computed exactly as the source's
running maximum with strict improvement. -/
def maxFit (seatsLeft : Int) (pool : List Section) : Int :=
  pool.foldl (fun acc s => if s.students ≤ seatsLeft ∧ acc < s.students then s.students else acc) 0

theorem extractBySize_length (v : Int) (pool pool' : List Section) (s : Section)
    (h : extractBySize v pool = some (s, pool')) : pool'.length + 1 = pool.length := by
  induction pool generalizing pool' with
  | nil => simp [extractBySize] at h
  | cons t rest ih =>
    by_cases ht : t.students = v
    · simp [extractBySize, ht] at h
      simp [h.2.symm]
    · simp only [extractBySize, if_neg ht] at h
      cases hrec : extractBySize v rest with
      | none => rw [hrec] at h; simp at h
      | some p =>
        rw [hrec] at h
        obtain ⟨q, rest'⟩ := p
        simp at h
        obtain ⟨h1, h2⟩ := h
        subst h2
        simp [← ih rest' (h1 ▸ hrec)]

theorem sortDescBy_length (key : α → Int) (l : List α) :
    (sortDescBy key l).length = l.length :=
  (sortDescBy_perm key l).length_eq

/-- The `while (seatsLeft > 0 && sectionLeft.length > 0)` loop of
`allocateGreedyLookahead`, for one room.  `anyOcc` is
`allRooms.some(r => (roomUsage[r.no] || 0) > 0)`, which is constant during
the loop because `roomUsage` is only written after it.  Returns the records
pushed for this room, the updated pool and the final `seatsLeft`. -/
def fillLoop (minChunk : Int) (room : Room) (blockName : String) (anyOcc : Bool)
    (pool : List Section) (seatsLeft : Int) : List Allocation × List Section × Int :=
  if h0 : seatsLeft ≤ 0 then ([], pool, seatsLeft)
  else if hp : pool = [] then ([], pool, seatsLeft)
  else
    let m := maxFit seatsLeft pool
    if hm : 0 < m then
      match hext : extractBySize m pool with
      | some (s, pool') =>
        if room.capacity - seatsLeft = 0 ∧ s.students < minChunk then
          if anyOcc then ([], pool, seatsLeft)
          else
            let out := fillLoop minChunk room blockName anyOcc pool' (seatsLeft - s.students)
            (mkPlacement s room.no s.students (room.capacity - seatsLeft) false blockName
              :: out.1, out.2)
        else
          let out := fillLoop minChunk room blockName anyOcc pool' (seatsLeft - s.students)
          (mkPlacement s room.no s.students (room.capacity - seatsLeft) false blockName
            :: out.1, out.2)
      | none => ([], pool, seatsLeft)
    else
      match hsort : sortDescBy (fun s => s.students) pool with
      | [] => ([], sortDescBy (fun s => s.students) pool, seatsLeft)
      | s :: rest =>
        if 0 < s.students - seatsLeft ∧ s.students - seatsLeft < minChunk ∧ seatsLeft < minChunk
        then ([], s :: rest, seatsLeft)
        else
          let chunk := min seatsLeft s.students
          if hg : (room.capacity - seatsLeft = 0 ∧ chunk < minChunk ∧ s.students = chunk) ∧ anyOcc
          then ([], s :: rest, seatsLeft)
          else if chunk < minChunk ∧ ¬(room.capacity - seatsLeft = 0 ∧ chunk < minChunk ∧ s.students = chunk) ∧ minChunk < s.students
          then ([], s :: rest, seatsLeft)
          else
            let s' : Section := { s with students := s.students - chunk }
            let pool' := if s'.students = 0 then rest else s' :: rest
            let out := fillLoop minChunk room blockName anyOcc pool' (seatsLeft - chunk)
            (mkPlacement s room.no chunk (room.capacity - seatsLeft) true blockName
              :: out.1, out.2)
termination_by (pool.length, seatsLeft.toNat)
decreasing_by
  · apply Prod.Lex.left
    have := extractBySize_length m pool pool' s hext
    omega
  · apply Prod.Lex.left
    have := extractBySize_length m pool pool' s hext
    omega
  · have hlen : rest.length + 1 = pool.length := by
      have := sortDescBy_length (fun s => s.students) pool
      rw [hsort] at this
      simpa using this
    by_cases hz : s.students - seatsLeft ⊓ s.students = 0
    · rw [dif_pos hz]
      exact Prod.Lex.left _ _ (by omega)
    · rw [dif_neg hz]
      have hmin : seatsLeft ⊓ s.students = seatsLeft := by
        rcases min_choice seatsLeft s.students with h | h
        · exact h
        · rw [h] at hz; omega
      have hfst : (({ s with students := s.students - seatsLeft ⊓ s.students : Section }) :: rest).length = pool.length := by
        simp [← hlen]
      rw [hfst]
      apply Prod.Lex.right
      rw [hmin]
      omega

/-- Processing of one room by `allocateGreedyLookahead`: perfect-fit fast
path, then the fill loop. -/
def fillRoom (minChunk : Int) (room : Room) (blockName : String) (anyOcc : Bool)
    (pool : List Section) : List Allocation × List Section × Int :=
  match extractBySize room.capacity pool with
  | some (s, pool') =>
    ([mkPlacement s room.no room.capacity 0 false blockName], pool', 0)
  | none => fillLoop minChunk room blockName anyOcc pool room.capacity

/-- The outer `for (const room of allRooms)` loop of
`allocateGreedyLookahead`. -/
def lookaheadRooms (minChunk : Int) (allRooms : List (Room × String)) :
    List (Room × String) → List Section → Usage → List Allocation × List Section × Usage
  | [], pool, usage => ([], pool, usage)
  | (room, blockName) :: rest, pool, usage =>
    let anyOcc := anyRoomHasStudents allRooms usage
    let out := fillRoom minChunk room blockName anyOcc pool
    let usage' := if out.1 = [] then usage else usage.set room.no (room.capacity - out.2.2)
    let next := lookaheadRooms minChunk allRooms rest out.2.1 usage'
    (out.1 ++ next.1, next.2)

/-- `allocateGreedyLookahead`. -/
def allocateGreedyLookahead (minChunk : Int) (roomBlocks : List RoomBlock)
    (sections : List Section) : List Allocation × Usage :=
  let allRooms := flattenRooms roomBlocks
  let out := lookaheadRooms minChunk allRooms allRooms (normalizeSections sections) []
  (out.1 ++ (out.2.1.filter (fun s => decide (0 < s.students))).map
    (fun s => mkError s s.students), out.2.2)

/-! ## Strategy 4: Best-Fit / First-Fit Decreasing with block unlock

The source hard-codes the block ordering in the local constant
`orderedRoomBlocks` (reproduced below as `orderedRoomBlocksConfig`); per the
design it is a configuration input, so the strategy takes the ordered list
of room-id blocks `obs` as a parameter. -/

/-- The hard-coded `orderedRoomBlocks` constant of `allocateBestFitFFD`. -/
def orderedRoomBlocksConfig : List (List String) :=
  [ ["APJ-1", "APJ-2", "APJ-3", "APJ-4", "APJ-5", "APJ-6", "APJ-7", "APJ-8",
      "APJ-9", "APJ-10", "APJ-11"],
    ["S-01", "S-02", "S-03", "S-04"],
    ["002/8A", "003/8A", "102/8A", "103/8A", "110/8A"],
    ["13/5", "14/5", "15/5", "17/5", "22/5", "24/5", "27/5", "28/5"],
    ["116/5", "119/5", "138/5"],
    ["215/5", "216/5", "217/5", "219/5", "221/5", "222/5"],
    ["301/5", "305/5", "306/5", "307/5", "311/5", "312/5"],
    ["113/6", "114/6", "117/6", "127/6"],
    ["313/6", "314/6"],
    ["13/4", "14/4", "17/4", "24/4"],
    ["MPC-01", "MPC-02"] ]

/-- `roomToBlockIdx`: the map built by
`orderedRoomBlocks.forEach((block, idx) => block.forEach(roomNo => ...))`;
for a duplicated id the later assignment wins, and an unknown id (never
queried by the algorithm) defaults to 0. -/
def blockIdxOf (obs : List (List String)) (no : String) : Nat :=
  obs.enum.foldl (fun acc p => if p.2.contains no then p.1 else acc) 0

/-- Find a room's block and room object in the catalog:
`roomBlocks.find(b => b.rooms.some(r => r.no === roomNo))` and the matching
`find` inside it. -/
def lookupRoom (roomBlocks : List RoomBlock) (no : String) : Option (Room × String) :=
  match roomBlocks.find? (fun b => b.rooms.any (fun r => r.no == no)) with
  | some b => (b.rooms.find? (fun r => r.no == no)).map (fun r => (r, b.name))
  | none => none

/-- The `allRooms` list of `allocateBestFitFFD`: the ordered room ids
resolved against the catalog.  The source asserts resolution with
`roomObj!`; ids absent from the catalog are dropped here. -/
def resolveRooms (obs : List (List String)) (roomBlocks : List RoomBlock) :
    List (Room × String) :=
  obs.flatMap (fun blk => blk.filterMap (fun no => lookupRoom roomBlocks no))

/-- Every ordered-room id resolves in the catalog.  The source takes this
for granted with `{...roomObj!, blockName}`: for an id absent from the
catalog `roomObj` is `undefined` at runtime and the spread yields a room
whose `no` and `capacity` are `undefined`, which the first-fit pass then
seats as a `NaN` record with no error record.  `resolveRooms` above drops
such ids instead, so the embedding matches the source only on inputs
satisfying this predicate; the FFD conjuncts of the conservation,
min-chunk, contiguity and usage-consistency claims assume it. -/
def obsResolvable (obs : List (List String)) (roomBlocks : List RoomBlock) : Prop :=
  ∀ blk ∈ obs, ∀ no ∈ blk, (lookupRoom roomBlocks no).isSome = true

instance (obs : List (List String)) (roomBlocks : List RoomBlock) :
    Decidable (obsResolvable obs roomBlocks) :=
  inferInstanceAs (Decidable (∀ blk ∈ obs, ∀ no ∈ blk,
    (lookupRoom roomBlocks no).isSome = true))

/-- Scan for the best-fit room: among rooms in blocks up to `maxBlockIdx`,
the first room attaining the smallest `available` with
`available >= remaining` (running strict minimum, `bestRoomSpace` starting
at Infinity). -/
def bestFitScanAux (obs : List (List String)) (maxBlockIdx : Nat) (remaining : Int)
    (usage : Usage) : List (Room × String) → Option ((Room × String) × Int) →
    Option ((Room × String) × Int)
  | [], best => best
  | rb :: rest, best =>
    if maxBlockIdx < blockIdxOf obs rb.1.no then
      bestFitScanAux obs maxBlockIdx remaining usage rest best
    else
      let available := rb.1.capacity - usage.get rb.1.no
      let improves : Bool :=
        match best with
        | none => true
        | some (_, sp) => decide (available < sp)
      if remaining ≤ available ∧ improves = true then
        bestFitScanAux obs maxBlockIdx remaining usage rest (some (rb, available))
      else
        bestFitScanAux obs maxBlockIdx remaining usage rest best

/-- The first-fit pass of `allocateBestFitFFD`: scan eligible rooms in order
and return the first room passing the spare-capacity and min-chunk guards,
together with `toAllocate = min(available, remaining)`. -/
def firstFitScan (minChunk : Int) (s : Section) (obs : List (List String))
    (allRooms : List (Room × String)) (maxBlockIdx : Nat) (usage : Usage)
    (remaining : Int) : List (Room × String) → Option ((Room × String) × Int)
  | [] => none
  | rb :: rest =>
    if maxBlockIdx < blockIdxOf obs rb.1.no then
      firstFitScan minChunk s obs allRooms maxBlockIdx usage remaining rest
    else
      let used := usage.get rb.1.no
      let available := rb.1.capacity - used
      if available ≤ 0 then
        firstFitScan minChunk s obs allRooms maxBlockIdx usage remaining rest
      else
        let toAllocate := min available remaining
        if used = 0 ∧ toAllocate < minChunk ∧ remaining = toAllocate then
          if anyRoomHasStudents allRooms usage then
            firstFitScan minChunk s obs allRooms maxBlockIdx usage remaining rest
          else some (rb, toAllocate)
        else if toAllocate < minChunk ∧ minChunk < remaining then
          firstFitScan minChunk s obs allRooms maxBlockIdx usage remaining rest
        else some (rb, toAllocate)

/-- The block-unlock check performed after every placement: if every room of
the block at `maxBlockIdx` now has nonzero usage and this is not the last
block, advance the cursor by one. -/
def unlockStep (obs : List (List String)) (usage : Usage) (maxBlockIdx : Nat) : Nat :=
  match obs.get? maxBlockIdx with
  | some blk =>
    if blk.all (fun rn => decide (0 < usage.get rn)) ∧ maxBlockIdx < obs.length - 1 then
      maxBlockIdx + 1
    else maxBlockIdx
  | none => maxBlockIdx

theorem firstFitScan_some_pos (minChunk : Int) (s : Section) (obs : List (List String))
    (allRooms : List (Room × String)) (maxBlockIdx : Nat) (usage : Usage)
    (remaining : Int) (rooms : List (Room × String)) (rb : Room × String) (t : Int)
    (hrem : 0 < remaining)
    (h : firstFitScan minChunk s obs allRooms maxBlockIdx usage remaining rooms = some (rb, t)) :
    0 < t ∧ t ≤ remaining := by
  induction rooms with
  | nil => simp [firstFitScan] at h
  | cons rb0 rest ih =>
    simp only [firstFitScan] at h
    split at h
    · exact ih h
    · split at h
      · exact ih h
      · rename_i hav
        split at h
        · split at h
          · exact ih h
          · simp at h
            constructor
            · rw [← h.2]; exact lt_min (by omega) hrem
            · rw [← h.2]; exact min_le_right _ _
        · split at h
          · exact ih h
          · simp at h
            constructor
            · rw [← h.2]; exact lt_min (by omega) hrem
            · rw [← h.2]; exact min_le_right _ _

/-- The `while (remaining > 0)` loop of `allocateBestFitFFD` for one
section: best-fit pass, then first-fit pass, with the block-unlock check
after every placement.  Returns the records pushed, the updated usage, the
updated block cursor and the final `remaining`. -/
def ffdLoop (minChunk : Int) (obs : List (List String)) (allRooms : List (Room × String))
    (s : Section) (usage : Usage) (maxBlockIdx : Nat) (remaining : Int) :
    List Allocation × Usage × Nat × Int :=
  if h0 : remaining ≤ 0 then ([], usage, maxBlockIdx, remaining)
  else
    match bestFitScanAux obs maxBlockIdx remaining usage allRooms none with
    | some (rb, _) =>
      let used := usage.get rb.1.no
      if used = 0 ∧ remaining < minChunk ∧ remaining = s.students then
        if anyRoomHasStudents allRooms usage then ([], usage, maxBlockIdx, remaining)
        else
          let usage' := usage.set rb.1.no (used + remaining)
          ([mkPlacement s rb.1.no remaining used false rb.2], usage',
            unlockStep obs usage' maxBlockIdx, 0)
      else if remaining < minChunk ∧ remaining ≠ s.students then
        ([], usage, maxBlockIdx, remaining)
      else
        let usage' := usage.set rb.1.no (used + remaining)
        ([mkPlacement s rb.1.no remaining used false rb.2], usage',
          unlockStep obs usage' maxBlockIdx, 0)
    | none =>
      match hscan : firstFitScan minChunk s obs allRooms maxBlockIdx usage remaining allRooms with
      | some (rb, toAllocate) =>
        let used := usage.get rb.1.no
        let usage' := usage.set rb.1.no (used + toAllocate)
        let maxIdx' := unlockStep obs usage' maxBlockIdx
        let out := ffdLoop minChunk obs allRooms s usage' maxIdx' (remaining - toAllocate)
        (mkPlacement s rb.1.no toAllocate used (toAllocate != s.students) rb.2
          :: out.1, out.2)
      | none => ([], usage, maxBlockIdx, remaining)
termination_by remaining.toNat
decreasing_by
  have := firstFitScan_some_pos minChunk s obs allRooms maxBlockIdx usage remaining
    allRooms rb toAllocate (by omega) hscan
  omega

/-- The outer `for (const section of sectionLeft)` loop of
`allocateBestFitFFD`, threading `roomUsage` and `maxBlockIdx`. -/
def ffdSections (minChunk : Int) (obs : List (List String))
    (allRooms : List (Room × String)) :
    List Section → Usage → Nat → List Allocation × Usage × Nat
  | [], usage, maxBlockIdx => ([], usage, maxBlockIdx)
  | s :: rest, usage, maxBlockIdx =>
    let out := ffdLoop minChunk obs allRooms s usage maxBlockIdx s.students
    let errs := if 0 < out.2.2.2 then [mkError s out.2.2.2] else []
    let next := ffdSections minChunk obs allRooms rest out.2.1 out.2.2.1
    (out.1 ++ errs ++ next.1, next.2)

/-- `allocateBestFitFFD`.  The ordered blocks `obs` are the source's
hard-coded `orderedRoomBlocks` (`orderedRoomBlocksConfig`), taken as a
parameter. -/
def allocateBestFitFFD (minChunk : Int) (obs : List (List String))
    (roomBlocks : List RoomBlock) (sections : List Section) :
    List Allocation × Usage :=
  let allRooms := resolveRooms obs roomBlocks
  let out := ffdSections minChunk obs allRooms (normalizeSections sections) [] 0
  (out.1, out.2.1)

/-! ## Statistics (from `allocateSeats`) -/

/-- `result.filter(r => !r.error).reduce((sum, r) => sum + r.students, 0)`. -/
def allocatedStudents (recs : List Allocation) : Int :=
  ((recs.filter (fun r => r.error == false)).map (fun r => r.students)).sum

/-- `totalCapacity`: sum of the capacity of every catalog room with an entry
in `roomUsage`. -/
def totalCapacityUsed (roomBlocks : List RoomBlock) (usage : Usage) : Int :=
  (List.map (fun p : String × Int =>
    match (catalogRooms roomBlocks).find? (fun r => r.no == p.1) with
    | some r => r.capacity
    | none => 0) usage).sum

instance : DecidableEq Usage :=
  inferInstanceAs (DecidableEq (List (String × Int)))

/-! ## Accounting definitions for the specified properties -/

/-- The identity of a group: its `(branch, section)` pair. -/
def identOf (s : Section) : String × String := (s.branch, s.sec)

/-- The identity carried by an allocation record. -/
def recIdent (a : Allocation) : String × String := (a.branch, a.sec)

/-- Total `students` over a list of records. -/
def sumStudents (recs : List Allocation) : Int :=
  (recs.map (fun a => a.students)).sum

/-- Total `students` over all records (error and non-error) carrying
identity `i`. -/
def identSum (i : String × String) (recs : List Allocation) : Int :=
  sumStudents (recs.filter (fun a => recIdent a == i))

/-- Total `students` over the sections of identity `i` in a pool. -/
def poolMass (i : String × String) (pool : List Section) : Int :=
  ((pool.filter (fun s => identOf s == i)).map (fun s => s.students)).sum

/-- Total `students` over the non-error records that reference room `no`. -/
def roomSum (no : String) (recs : List Allocation) : Int :=
  sumStudents (recs.filter (fun a => a.error == false && a.roomNo == no))

theorem sumStudents_append (l₁ l₂ : List Allocation) :
    sumStudents (l₁ ++ l₂) = sumStudents l₁ + sumStudents l₂ := by
  simp [sumStudents]

theorem sumStudents_cons (a : Allocation) (l : List Allocation) :
    sumStudents (a :: l) = a.students + sumStudents l := by
  simp [sumStudents]

theorem identSum_append (i : String × String) (l₁ l₂ : List Allocation) :
    identSum i (l₁ ++ l₂) = identSum i l₁ + identSum i l₂ := by
  simp [identSum, sumStudents]

theorem identSum_cons (i : String × String) (a : Allocation) (l : List Allocation) :
    identSum i (a :: l) =
      (if recIdent a = i then a.students else 0) + identSum i l := by
  by_cases h : recIdent a = i
  · simp [identSum, sumStudents, h]
  · simp [identSum, sumStudents, h]

theorem roomSum_append (no : String) (l₁ l₂ : List Allocation) :
    roomSum no (l₁ ++ l₂) = roomSum no l₁ + roomSum no l₂ := by
  simp [roomSum, sumStudents]

theorem roomSum_cons (no : String) (a : Allocation) (l : List Allocation) :
    roomSum no (a :: l) =
      (if a.error = false ∧ a.roomNo = no then a.students else 0) + roomSum no l := by
  by_cases h1 : a.error = false
  · by_cases h2 : a.roomNo = no
    · simp [roomSum, sumStudents, h1, h2]
    · simp [roomSum, sumStudents, h1, h2]
  · simp [roomSum, sumStudents, h1]

theorem roomSum_nil (no : String) : roomSum no [] = 0 := rfl

theorem poolMass_cons (i : String × String) (s : Section) (pool : List Section) :
    poolMass i (s :: pool) =
      (if identOf s = i then s.students else 0) + poolMass i pool := by
  by_cases h : identOf s = i
  · simp [poolMass, h]
  · simp [poolMass, h]

theorem poolMass_perm (i : String × String) (pool pool' : List Section)
    (h : List.Perm pool pool') : poolMass i pool = poolMass i pool' := by
  exact List.Perm.sum_eq (List.Perm.map _ (List.Perm.filter _ h))

/-! ## The specified record-level properties -/

/-- Seats filled in the room of record `k` by the earlier non-error records
of the output (emission order). -/
def seatsBefore (recs : List Allocation) (k : Nat) (h : k < recs.length) : Int :=
  roomSum (recs.get ⟨k, h⟩).roomNo (recs.take k)

/-- Seat-range contiguity: every non-error record occupies
`[seatsBefore + 1, seatsBefore + students]` of its room, so per room the
ranges are `[1..k1], [k1+1..k2], ...` in emission order. -/
def seatContiguous (recs : List Allocation) : Prop :=
  ∀ k (h : k < recs.length), (recs.get ⟨k, h⟩).error = false →
    (recs.get ⟨k, h⟩).startSeat = some (seatsBefore recs k h + 1) ∧
    (recs.get ⟨k, h⟩).endSeat = some (seatsBefore recs k h + (recs.get ⟨k, h⟩).students)

/-- The min-chunk property as claimed: every non-error record is at least
`minChunk`, or tops off an already-occupied room, or was placed while no
room anywhere had any seats filled. -/
def minChunkRespect (minChunk : Int) (recs : List Allocation) : Prop :=
  ∀ k (h : k < recs.length), (recs.get ⟨k, h⟩).error = false →
    minChunk ≤ (recs.get ⟨k, h⟩).students ∨
    0 < seatsBefore recs k h ∨
    (∀ a ∈ recs.take k, a.error = true)

/-- The amended min-chunk property: additionally allow a record that starts
an empty room and exactly fills that room's entire capacity. -/
def minChunkAmended (minChunk : Int) (roomBlocks : List RoomBlock)
    (recs : List Allocation) : Prop :=
  ∀ k (h : k < recs.length), (recs.get ⟨k, h⟩).error = false →
    minChunk ≤ (recs.get ⟨k, h⟩).students ∨
    0 < seatsBefore recs k h ∨
    (∀ a ∈ recs.take k, a.error = true) ∨
    (seatsBefore recs k h = 0 ∧
      (recs.get ⟨k, h⟩).students = capacityOf roomBlocks (recs.get ⟨k, h⟩).roomNo)

/-! ## Properties of the greedy inner loop -/

@[simp] theorem mkPlacement_branch (s : Section) (no : String) (t used : Int)
    (sp : Bool) (bn : String) : (mkPlacement s no t used sp bn).branch = s.branch := rfl

@[simp] theorem mkPlacement_sec (s : Section) (no : String) (t used : Int)
    (sp : Bool) (bn : String) : (mkPlacement s no t used sp bn).sec = s.sec := rfl

@[simp] theorem mkPlacement_roomNo (s : Section) (no : String) (t used : Int)
    (sp : Bool) (bn : String) : (mkPlacement s no t used sp bn).roomNo = no := rfl

@[simp] theorem mkPlacement_students (s : Section) (no : String) (t used : Int)
    (sp : Bool) (bn : String) : (mkPlacement s no t used sp bn).students = t := rfl

@[simp] theorem mkPlacement_error (s : Section) (no : String) (t used : Int)
    (sp : Bool) (bn : String) : (mkPlacement s no t used sp bn).error = false := rfl

@[simp] theorem mkPlacement_startSeat (s : Section) (no : String) (t used : Int)
    (sp : Bool) (bn : String) :
    (mkPlacement s no t used sp bn).startSeat = some (used + 1) := rfl

@[simp] theorem mkPlacement_endSeat (s : Section) (no : String) (t used : Int)
    (sp : Bool) (bn : String) :
    (mkPlacement s no t used sp bn).endSeat = some (used + t) := rfl

@[simp] theorem mkError_branch (s : Section) (t : Int) :
    (mkError s t).branch = s.branch := rfl

@[simp] theorem mkError_sec (s : Section) (t : Int) : (mkError s t).sec = s.sec := rfl

@[simp] theorem mkError_roomNo (s : Section) (t : Int) :
    (mkError s t).roomNo = "NO SPACE" := rfl

@[simp] theorem mkError_students (s : Section) (t : Int) :
    (mkError s t).students = t := rfl

@[simp] theorem mkError_error (s : Section) (t : Int) : (mkError s t).error = true := rfl

/-- Branch equation: the room loop stops when `remaining === 0`. -/
theorem greedyRooms_zero (mc : Int) (s : Section) (allRooms : List (Room × String))
    (room : Room) (bn : String) (rest : List (Room × String)) (u : Usage) :
    greedyRooms mc s allRooms ((room, bn) :: rest) u 0 = ([], u, 0) := by
  simp [greedyRooms]

/-- Branch equation: a full (or overfull) room is skipped. -/
theorem greedyRooms_skip_full (mc : Int) (s : Section) (allRooms : List (Room × String))
    (room : Room) (bn : String) (rest : List (Room × String)) (u : Usage) (rem : Int)
    (hz : rem ≠ 0) (hav : room.capacity - u.get room.no ≤ 0) :
    greedyRooms mc s allRooms ((room, bn) :: rest) u rem
      = greedyRooms mc s allRooms rest u rem := by
  simp only [greedyRooms]
  rw [if_neg hz, if_pos hav]

/-- Branch equation: min-chunk guard, first arm (empty room, small final
chunk, some room already has students): skip. -/
theorem greedyRooms_skip_guard1 (mc : Int) (s : Section) (allRooms : List (Room × String))
    (room : Room) (bn : String) (rest : List (Room × String)) (u : Usage) (rem : Int)
    (hz : rem ≠ 0) (hav : ¬room.capacity - u.get room.no ≤ 0)
    (hg1 : u.get room.no = 0 ∧ min (room.capacity - u.get room.no) rem < mc ∧
      rem = min (room.capacity - u.get room.no) rem)
    (hany : anyRoomHasStudents allRooms u = true) :
    greedyRooms mc s allRooms ((room, bn) :: rest) u rem
      = greedyRooms mc s allRooms rest u rem := by
  simp only [greedyRooms]
  rw [if_neg hz, if_neg hav, if_pos hg1, if_pos hany]

/-- Branch equation: min-chunk guard, second arm (small chunk, large
remainder): skip. -/
theorem greedyRooms_skip_guard2 (mc : Int) (s : Section) (allRooms : List (Room × String))
    (room : Room) (bn : String) (rest : List (Room × String)) (u : Usage) (rem : Int)
    (hz : rem ≠ 0) (hav : ¬room.capacity - u.get room.no ≤ 0)
    (hg1 : ¬(u.get room.no = 0 ∧ min (room.capacity - u.get room.no) rem < mc ∧
      rem = min (room.capacity - u.get room.no) rem))
    (hg2 : min (room.capacity - u.get room.no) rem < mc ∧ mc < rem) :
    greedyRooms mc s allRooms ((room, bn) :: rest) u rem
      = greedyRooms mc s allRooms rest u rem := by
  simp only [greedyRooms]
  rw [if_neg hz, if_neg hav, if_neg hg1, if_pos hg2]

/-- Branch equation: placement via the first guard arm's exception (whole
run still empty). -/
theorem greedyRooms_place_guard1 (mc : Int) (s : Section) (allRooms : List (Room × String))
    (room : Room) (bn : String) (rest : List (Room × String)) (u : Usage) (rem : Int)
    (hz : rem ≠ 0) (hav : ¬room.capacity - u.get room.no ≤ 0)
    (hg1 : u.get room.no = 0 ∧ min (room.capacity - u.get room.no) rem < mc ∧
      rem = min (room.capacity - u.get room.no) rem)
    (hany : ¬anyRoomHasStudents allRooms u = true) :
    greedyRooms mc s allRooms ((room, bn) :: rest) u rem
      = (mkPlacement s room.no (min (room.capacity - u.get room.no) rem) (u.get room.no)
          (min (room.capacity - u.get room.no) rem != s.students) bn
          :: (greedyRooms mc s allRooms rest
            (u.set room.no (u.get room.no + min (room.capacity - u.get room.no) rem))
            (rem - min (room.capacity - u.get room.no) rem)).1,
        (greedyRooms mc s allRooms rest
            (u.set room.no (u.get room.no + min (room.capacity - u.get room.no) rem))
            (rem - min (room.capacity - u.get room.no) rem)).2) := by
  simp only [greedyRooms]
  rw [if_neg hz, if_neg hav, if_pos hg1, if_neg hany]

/-- Branch equation: ordinary placement. -/
theorem greedyRooms_place (mc : Int) (s : Section) (allRooms : List (Room × String))
    (room : Room) (bn : String) (rest : List (Room × String)) (u : Usage) (rem : Int)
    (hz : rem ≠ 0) (hav : ¬room.capacity - u.get room.no ≤ 0)
    (hg1 : ¬(u.get room.no = 0 ∧ min (room.capacity - u.get room.no) rem < mc ∧
      rem = min (room.capacity - u.get room.no) rem))
    (hg2 : ¬(min (room.capacity - u.get room.no) rem < mc ∧ mc < rem)) :
    greedyRooms mc s allRooms ((room, bn) :: rest) u rem
      = (mkPlacement s room.no (min (room.capacity - u.get room.no) rem) (u.get room.no)
          (min (room.capacity - u.get room.no) rem != s.students) bn
          :: (greedyRooms mc s allRooms rest
            (u.set room.no (u.get room.no + min (room.capacity - u.get room.no) rem))
            (rem - min (room.capacity - u.get room.no) rem)).1,
        (greedyRooms mc s allRooms rest
            (u.set room.no (u.get room.no + min (room.capacity - u.get room.no) rem))
            (rem - min (room.capacity - u.get room.no) rem)).2) := by
  simp only [greedyRooms]
  rw [if_neg hz, if_neg hav, if_neg hg1, if_neg hg2]

theorem greedyRooms_spec (mc : Int) (s : Section) (allRooms : List (Room × String)) :
    ∀ (rooms : List (Room × String)) (u : Usage) (rem : Int), 0 ≤ rem →
    (∀ rb ∈ rooms, rb ∈ allRooms) →
    (∀ a ∈ (greedyRooms mc s allRooms rooms u rem).1,
        a.branch = s.branch ∧ a.sec = s.sec ∧ a.error = false ∧ 0 < a.students ∧
        ∃ rb ∈ allRooms, a.roomNo = rb.1.no) ∧
    sumStudents (greedyRooms mc s allRooms rooms u rem).1
      = rem - (greedyRooms mc s allRooms rooms u rem).2.2 ∧
    0 ≤ (greedyRooms mc s allRooms rooms u rem).2.2 ∧
    (∀ no, Usage.get (greedyRooms mc s allRooms rooms u rem).2.1 no
      = u.get no + roomSum no (greedyRooms mc s allRooms rooms u rem).1) ∧
    (∀ no, Usage.hasKey (greedyRooms mc s allRooms rooms u rem).2.1 no = true ↔
      (u.hasKey no = true ∨ ∃ a ∈ (greedyRooms mc s allRooms rooms u rem).1, a.roomNo = no)) := by
  intro rooms
  induction rooms with
  | nil =>
    intro u rem h0 _
    refine ⟨by simp [greedyRooms], ?_, ?_, ?_, ?_⟩
    · simp [greedyRooms, sumStudents]
    · simpa [greedyRooms] using h0
    · intro no; simp [greedyRooms, roomSum, sumStudents]
    · intro no; simp [greedyRooms]
  | cons rb rest ih =>
    intro u rem h0 hsub
    obtain ⟨room, bn⟩ := rb
    have hsub' : ∀ x ∈ rest, x ∈ allRooms := fun x hx => hsub x (List.mem_cons_of_mem _ hx)
    by_cases hz : rem = 0
    · subst hz
      rw [greedyRooms_zero]
      refine ⟨by simp, by simp [sumStudents], le_refl 0, ?_, ?_⟩
      · intro no; simp [roomSum, sumStudents]
      · intro no; simp
    · by_cases hav : room.capacity - u.get room.no ≤ 0
      · rw [greedyRooms_skip_full mc s allRooms room bn rest u rem hz hav]
        exact ih u rem h0 hsub'
      · -- facts shared by the two placement branches
        have hrem : 0 < rem := lt_of_le_of_ne h0 (Ne.symm hz)
        have htpos : 0 < min (room.capacity - u.get room.no) rem :=
          lt_min (by omega) hrem
        have htle : min (room.capacity - u.get room.no) rem ≤ rem := min_le_right _ _
        obtain ⟨iha, ihb, ihc, ihd, ihe⟩ :=
          ih (u.set room.no (u.get room.no + min (room.capacity - u.get room.no) rem))
            (rem - min (room.capacity - u.get room.no) rem) (by omega) hsub'
        have hplace :
            (∀ a ∈ (mkPlacement s room.no (min (room.capacity - u.get room.no) rem)
                  (u.get room.no) (min (room.capacity - u.get room.no) rem != s.students) bn
                :: (greedyRooms mc s allRooms rest
                  (u.set room.no (u.get room.no + min (room.capacity - u.get room.no) rem))
                  (rem - min (room.capacity - u.get room.no) rem)).1),
              a.branch = s.branch ∧ a.sec = s.sec ∧ a.error = false ∧ 0 < a.students ∧
              ∃ rb ∈ allRooms, a.roomNo = rb.1.no) ∧
            sumStudents (mkPlacement s room.no (min (room.capacity - u.get room.no) rem)
                  (u.get room.no) (min (room.capacity - u.get room.no) rem != s.students) bn
                :: (greedyRooms mc s allRooms rest
                  (u.set room.no (u.get room.no + min (room.capacity - u.get room.no) rem))
                  (rem - min (room.capacity - u.get room.no) rem)).1)
              = rem - (greedyRooms mc s allRooms rest
                  (u.set room.no (u.get room.no + min (room.capacity - u.get room.no) rem))
                  (rem - min (room.capacity - u.get room.no) rem)).2.2 ∧
            0 ≤ (greedyRooms mc s allRooms rest
                  (u.set room.no (u.get room.no + min (room.capacity - u.get room.no) rem))
                  (rem - min (room.capacity - u.get room.no) rem)).2.2 ∧
            (∀ no, Usage.get (greedyRooms mc s allRooms rest
                  (u.set room.no (u.get room.no + min (room.capacity - u.get room.no) rem))
                  (rem - min (room.capacity - u.get room.no) rem)).2.1 no
              = u.get no + roomSum no
                  (mkPlacement s room.no (min (room.capacity - u.get room.no) rem)
                    (u.get room.no) (min (room.capacity - u.get room.no) rem != s.students) bn
                    :: (greedyRooms mc s allRooms rest
                      (u.set room.no (u.get room.no + min (room.capacity - u.get room.no) rem))
                      (rem - min (room.capacity - u.get room.no) rem)).1)) ∧
            (∀ no, Usage.hasKey (greedyRooms mc s allRooms rest
                  (u.set room.no (u.get room.no + min (room.capacity - u.get room.no) rem))
                  (rem - min (room.capacity - u.get room.no) rem)).2.1 no = true ↔
              (u.hasKey no = true ∨ ∃ a ∈
                  (mkPlacement s room.no (min (room.capacity - u.get room.no) rem)
                    (u.get room.no) (min (room.capacity - u.get room.no) rem != s.students) bn
                    :: (greedyRooms mc s allRooms rest
                      (u.set room.no (u.get room.no + min (room.capacity - u.get room.no) rem))
                      (rem - min (room.capacity - u.get room.no) rem)).1), a.roomNo = no)) := by
          refine ⟨?_, ?_, ihc, ?_, ?_⟩
          · intro a ha
            rcases List.mem_cons.mp ha with h | h
            · subst h
              refine ⟨rfl, rfl, rfl, htpos, ⟨(room, bn), hsub _ (List.mem_cons_self _ _), rfl⟩⟩
            · exact iha a h
          · rw [sumStudents_cons, ihb, mkPlacement_students]
            omega
          · intro no
            rw [ihd no, roomSum_cons]
            by_cases hno : no = room.no
            · subst hno
              rw [Usage.get_set_self,
                if_pos ⟨mkPlacement_error s room.no _ _ _ bn, mkPlacement_roomNo s room.no _ _ _ bn⟩,
                mkPlacement_students]
              ring
            · rw [Usage.get_set_ne _ _ _ _ (fun hh => hno hh.symm),
                if_neg (fun hh => hno ((mkPlacement_roomNo s room.no _ _ _ bn) ▸ hh.2).symm)]
              ring
          · intro no
            rw [ihe no]
            by_cases hno : no = room.no
            · subst hno
              rw [Usage.hasKey_set_self]
              constructor
              · intro _
                exact Or.inr ⟨mkPlacement s room.no (min (room.capacity - u.get room.no) rem)
                  (u.get room.no) (min (room.capacity - u.get room.no) rem != s.students) bn,
                  List.mem_cons_self _ _, mkPlacement_roomNo s room.no _ _ _ bn⟩
              · intro _; exact Or.inl rfl
            · rw [Usage.hasKey_set_ne _ _ _ _ (fun hh => hno hh.symm)]
              constructor
              · rintro (h | ⟨a, ha, hano⟩)
                · exact Or.inl h
                · exact Or.inr ⟨a, List.mem_cons_of_mem _ ha, hano⟩
              · rintro (h | ⟨a, ha, hano⟩)
                · exact Or.inl h
                · rcases List.mem_cons.mp ha with h1 | h1
                  · exact absurd (h1 ▸ hano : (mkPlacement s room.no _ _ _ bn).roomNo = no)
                      (by rw [mkPlacement_roomNo]; exact fun hh => hno hh.symm)
                  · exact Or.inr ⟨a, h1, hano⟩
        by_cases hg1 : u.get room.no = 0 ∧ min (room.capacity - u.get room.no) rem < mc ∧
            rem = min (room.capacity - u.get room.no) rem
        · by_cases hany : anyRoomHasStudents allRooms u = true
          · rw [greedyRooms_skip_guard1 mc s allRooms room bn rest u rem hz hav hg1 hany]
            exact ih u rem h0 hsub'
          · rw [greedyRooms_place_guard1 mc s allRooms room bn rest u rem hz hav hg1 hany]
            exact hplace
        · by_cases hg2 : min (room.capacity - u.get room.no) rem < mc ∧ mc < rem
          · rw [greedyRooms_skip_guard2 mc s allRooms room bn rest u rem hz hav hg1 hg2]
            exact ih u rem h0 hsub'
          · rw [greedyRooms_place mc s allRooms room bn rest u rem hz hav hg1 hg2]
            exact hplace

theorem identSum_of_uniform (i j : String × String) (l : List Allocation)
    (h : ∀ a ∈ l, recIdent a = j) :
    identSum i l = if j = i then sumStudents l else 0 := by
  induction l with
  | nil => simp [identSum, sumStudents]
  | cons a rest ih =>
    have ha : recIdent a = j := h a (List.mem_cons_self _ _)
    have hrest := ih (fun x hx => h x (List.mem_cons_of_mem _ hx))
    rw [identSum_cons, hrest, sumStudents_cons, ha]
    by_cases hj : j = i
    · simp [hj]
    · simp [hj]

/-- The outer greedy loop: conservation by identity, the usage/records
correspondence, and the shape facts about the emitted records. -/
theorem greedySections_spec (mc : Int) (allRooms : List (Room × String)) :
    ∀ (secs : List Section) (u : Usage), (∀ s ∈ secs, 0 < s.students) →
    (∀ i, identSum i (greedySections mc allRooms secs u).1 = poolMass i secs) ∧
    (∀ no, Usage.get (greedySections mc allRooms secs u).2 no
      = u.get no + roomSum no (greedySections mc allRooms secs u).1) ∧
    (∀ no, Usage.hasKey (greedySections mc allRooms secs u).2 no = true ↔
      (u.hasKey no = true ∨ ∃ a ∈ (greedySections mc allRooms secs u).1,
        a.error = false ∧ a.roomNo = no)) ∧
    (∀ a ∈ (greedySections mc allRooms secs u).1, a.error = false →
      0 < a.students ∧ ∃ rb ∈ allRooms, a.roomNo = rb.1.no) ∧
    (∀ a ∈ (greedySections mc allRooms secs u).1, a.error = true → a.roomNo = "NO SPACE") := by
  intro secs
  induction secs with
  | nil =>
    intro u _
    refine ⟨?_, ?_, ?_, ?_, ?_⟩
    · intro i; simp [greedySections, identSum, sumStudents, poolMass]
    · intro no; simp [greedySections, roomSum, sumStudents]
    · intro no; simp [greedySections]
    · intro a ha; simp [greedySections] at ha
    · intro a ha; simp [greedySections] at ha
  | cons s rest ih =>
    intro u hpos
    have hspos : 0 < s.students := hpos s (List.mem_cons_self _ _)
    have hrest : ∀ x ∈ rest, 0 < x.students :=
      fun x hx => hpos x (List.mem_cons_of_mem _ hx)
    obtain ⟨ga, gb, gc, gd, ge⟩ :=
      greedyRooms_spec mc s allRooms allRooms u s.students (le_of_lt hspos)
        (fun rb h => h)
    obtain ⟨ia, ib, ic, idd, ie⟩ :=
      ih (greedyRooms mc s allRooms allRooms u s.students).2.1 hrest
    have heq : greedySections mc allRooms (s :: rest) u
        = ((greedyRooms mc s allRooms allRooms u s.students).1
            ++ (if 0 < (greedyRooms mc s allRooms allRooms u s.students).2.2
                then [mkError s (greedyRooms mc s allRooms allRooms u s.students).2.2]
                else [])
            ++ (greedySections mc allRooms rest
                (greedyRooms mc s allRooms allRooms u s.students).2.1).1,
          (greedySections mc allRooms rest
            (greedyRooms mc s allRooms allRooms u s.students).2.1).2) := rfl
    rw [heq]
    set batch := (greedyRooms mc s allRooms allRooms u s.students).1 with hbatch
    set rem' := (greedyRooms mc s allRooms allRooms u s.students).2.2 with hrem'
    set u' := (greedyRooms mc s allRooms allRooms u s.students).2.1 with hu'
    set errs := (if 0 < rem' then [mkError s rem'] else []) with herrs
    set next := greedySections mc allRooms rest u' with hnext
    have hbatchIdent : ∀ a ∈ batch, recIdent a = identOf s := by
      intro a ha
      obtain ⟨h1, h2, _⟩ := ga a ha
      simp [recIdent, identOf, h1, h2]
    have herrsIdent : ∀ a ∈ errs, recIdent a = identOf s := by
      intro a ha
      rw [herrs] at ha
      by_cases hr : 0 < rem'
      · rw [if_pos hr] at ha
        simp at ha
        simp [ha, recIdent, identOf, mkError]
      · rw [if_neg hr] at ha; simp at ha
    have herrsSum : sumStudents errs = (if 0 < rem' then rem' else 0) := by
      rw [herrs]
      by_cases hr : 0 < rem'
      · simp [if_pos hr, sumStudents]
      · simp [if_neg hr, sumStudents]
    have herrsRoomZero : ∀ no, roomSum no errs = 0 := by
      intro no
      rw [herrs]
      by_cases hr : 0 < rem'
      · simp [if_pos hr, roomSum, sumStudents]
      · simp [if_neg hr, roomSum, sumStudents]
    refine ⟨?_, ?_, ?_, ?_, ?_⟩
    · intro i
      rw [identSum_append, identSum_append, ia i, poolMass_cons,
        identSum_of_uniform i (identOf s) batch hbatchIdent,
        identSum_of_uniform i (identOf s) errs herrsIdent, herrsSum, gb]
      by_cases hident : identOf s = i
      · simp only [if_pos hident]
        by_cases hr : 0 < rem'
        · rw [if_pos hr]; omega
        · rw [if_neg hr]; omega
      · simp only [if_neg hident]
        omega
    · intro no
      rw [ib no, gd no, roomSum_append, roomSum_append, herrsRoomZero]
      omega
    · intro no
      rw [ic no, ge no]
      constructor
      · rintro ((h | ⟨a, ha, hno⟩) | ⟨a, ha, he, hno⟩)
        · exact Or.inl h
        · refine Or.inr ⟨a, ?_, (ga a ha).2.2.1, hno⟩
          simp only [List.mem_append, or_assoc]
          exact Or.inl ha
        · refine Or.inr ⟨a, ?_, he, hno⟩
          simp only [List.mem_append, or_assoc]
          exact Or.inr (Or.inr ha)
      · rintro (h | ⟨a, ha, he, hno⟩)
        · exact Or.inl (Or.inl h)
        · simp only [List.mem_append, or_assoc] at ha
          rcases ha with ha | ha | ha
          · exact Or.inl (Or.inr ⟨a, ha, hno⟩)
          · exfalso
            have := herrsIdent a ha
            rw [herrs] at ha
            by_cases hr : 0 < rem'
            · rw [if_pos hr] at ha
              simp at ha
              rw [ha] at he
              simp [mkError] at he
            · rw [if_neg hr] at ha; simp at ha
          · exact Or.inr ⟨a, ha, he, hno⟩
    · intro a ha he
      simp only [List.mem_append, or_assoc] at ha
      rcases ha with ha | ha | ha
      · obtain ⟨_, _, _, h4, h5⟩ := ga a ha
        exact ⟨h4, h5⟩
      · exfalso
        rw [herrs] at ha
        by_cases hr : 0 < rem'
        · rw [if_pos hr] at ha
          simp at ha
          rw [ha] at he
          simp [mkError] at he
        · rw [if_neg hr] at ha; simp at ha
      · exact idd a ha he
    · intro a ha he
      simp only [List.mem_append, or_assoc] at ha
      rcases ha with ha | ha | ha
      · have := (ga a ha).2.2.1
        rw [this] at he
        simp at he
      · rw [herrs] at ha
        by_cases hr : 0 < rem'
        · rw [if_pos hr] at ha
          simp at ha
          rw [ha]
          rfl
        · rw [if_neg hr] at ha; simp at ha
      · exact ie a ha he

/-! ## Contiguity relative to a starting usage -/

/-- Seat fields of every non-error record continue the fill level of its
room: `u` seats were already taken when this record list started. -/
def ContigFrom (u : Usage) (recs : List Allocation) : Prop :=
  ∀ k (h : k < recs.length), (recs.get ⟨k, h⟩).error = false →
    (recs.get ⟨k, h⟩).startSeat
      = some (u.get (recs.get ⟨k, h⟩).roomNo
          + roomSum (recs.get ⟨k, h⟩).roomNo (recs.take k) + 1) ∧
    (recs.get ⟨k, h⟩).endSeat
      = some (u.get (recs.get ⟨k, h⟩).roomNo
          + roomSum (recs.get ⟨k, h⟩).roomNo (recs.take k)
          + (recs.get ⟨k, h⟩).students)

theorem contigFrom_nil (u : Usage) : ContigFrom u [] := by
  intro k h
  simp at h

theorem contigFrom_append (u u' : Usage) (l₁ l₂ : List Allocation)
    (h₁ : ContigFrom u l₁) (h₂ : ContigFrom u' l₂)
    (hu : ∀ no, u'.get no = u.get no + roomSum no l₁) :
    ContigFrom u (l₁ ++ l₂) := by
  intro k h he
  by_cases hk : k < l₁.length
  · have hget : (l₁ ++ l₂).get ⟨k, h⟩ = l₁.get ⟨k, hk⟩ := by
      rw [List.get_append _ hk]
    have htake : (l₁ ++ l₂).take k = l₁.take k := by
      rw [List.take_append_eq_append_take, show k - l₁.length = 0 by omega]
      simp
    rw [hget] at he ⊢
    rw [htake]
    exact h₁ k hk he
  · have hk2 : k - l₁.length < l₂.length := by
      have := List.length_append l₁ l₂ ▸ h
      omega
    have hget : (l₁ ++ l₂).get ⟨k, h⟩ = l₂.get ⟨k - l₁.length, hk2⟩ := by
      rw [List.get_append_right] <;> omega
    have htake : (l₁ ++ l₂).take k = l₁ ++ l₂.take (k - l₁.length) := by
      rw [List.take_append_eq_append_take, List.take_of_length_le (by omega)]
    rw [hget, htake]
    rw [hget] at he
    obtain ⟨ha, hb⟩ := h₂ (k - l₁.length) hk2 he
    rw [roomSum_append, ha, hb, hu]
    constructor
    · congr 1; omega
    · congr 1; omega

theorem contigFrom_singleton (u : Usage) (a : Allocation)
    (hs : a.startSeat = some (u.get a.roomNo + 1))
    (he : a.endSeat = some (u.get a.roomNo + a.students)) :
    ContigFrom u [a] := by
  intro k h
  have hk : k = 0 := by simp at h; omega
  subst hk
  intro _
  simp only [List.get, List.take, roomSum_nil]
  rw [hs, he]
  constructor
  · congr 1; omega
  · congr 1; omega

theorem contigFrom_error (u : Usage) (a : Allocation) (he : a.error = true) :
    ContigFrom u [a] := by
  intro k h
  have hk : k = 0 := by simp at h; omega
  subst hk
  intro hc
  simp only [List.get] at hc
  rw [he] at hc
  simp at hc

/-- `seatContiguous` is contiguity from the empty usage map. -/
theorem seatContiguous_of_contigFrom (recs : List Allocation)
    (h : ContigFrom [] recs) : seatContiguous recs := by
  intro k hk he
  obtain ⟨h1, h2⟩ := h k hk he
  refine ⟨?_, ?_⟩
  · rw [h1]; simp [Usage.get, seatsBefore]
  · rw [h2]; simp [Usage.get, seatsBefore]

/-! ## Support lemmas for the lookahead pool operations -/

theorem extractBySize_perm (v : Int) (pool pool' : List Section) (s : Section)
    (h : extractBySize v pool = some (s, pool')) :
    List.Perm pool (s :: pool') := by
  induction pool generalizing pool' with
  | nil => simp [extractBySize] at h
  | cons t rest ih =>
    by_cases ht : t.students = v
    · simp [extractBySize, ht] at h
      rw [h.1, h.2]
    · simp only [extractBySize, if_neg ht] at h
      cases hrec : extractBySize v rest with
      | none => rw [hrec] at h; simp at h
      | some p =>
        rw [hrec] at h
        obtain ⟨q, rest'⟩ := p
        simp at h
        obtain ⟨h1, h2⟩ := h
        subst h1
        subst h2
        exact ((ih rest' hrec).cons t).trans (List.Perm.swap q t rest')

theorem extractBySize_students (v : Int) (pool pool' : List Section) (s : Section)
    (h : extractBySize v pool = some (s, pool')) : s.students = v := by
  induction pool generalizing pool' with
  | nil => simp [extractBySize] at h
  | cons t rest ih =>
    by_cases ht : t.students = v
    · simp [extractBySize, ht] at h
      rw [← h.1]; exact ht
    · simp only [extractBySize, if_neg ht] at h
      cases hrec : extractBySize v rest with
      | none => rw [hrec] at h; simp at h
      | some p =>
        rw [hrec] at h
        obtain ⟨q, rest'⟩ := p
        simp at h
        exact ih rest' (h.1 ▸ hrec)

theorem extractBySize_isSome_of_mem (v : Int) (pool : List Section)
    (h : ∃ s ∈ pool, s.students = v) :
    ∃ s pool', extractBySize v pool = some (s, pool') := by
  induction pool with
  | nil => simp at h
  | cons t rest ih =>
    by_cases ht : t.students = v
    · exact ⟨t, rest, by simp [extractBySize, ht]⟩
    · obtain ⟨s, hs, hsv⟩ := h
      rcases List.mem_cons.mp hs with h1 | h1
      · exact absurd (h1 ▸ hsv) ht
      · obtain ⟨s', pool', hext⟩ := ih ⟨s, h1, hsv⟩
        exact ⟨s', t :: pool', by simp [extractBySize, ht, hext]⟩

/-- The running maximum of the whole-fit scan never decreases below its
initial value. -/
theorem maxFitAux_ge_init (seatsLeft : Int) (pool : List Section) (a : Int) :
    a ≤ pool.foldl (fun acc s =>
      if s.students ≤ seatsLeft ∧ acc < s.students then s.students else acc) a := by
  induction pool generalizing a with
  | nil => simp
  | cons t rest ih =>
    simp only [List.foldl]
    by_cases hc : t.students ≤ seatsLeft ∧ a < t.students
    · rw [if_pos hc]
      exact le_trans (le_of_lt hc.2) (ih t.students)
    · rw [if_neg hc]
      exact ih a

theorem maxFitAux_ge_mem (seatsLeft : Int) (pool : List Section) (s : Section)
    (hs : s ∈ pool) (hfit : s.students ≤ seatsLeft) :
    ∀ a : Int, s.students ≤ pool.foldl (fun acc x =>
      if x.students ≤ seatsLeft ∧ acc < x.students then x.students else acc) a := by
  induction pool generalizing s with
  | nil => simp at hs
  | cons t rest ih =>
    intro a
    rcases List.mem_cons.mp hs with h1 | h1
    · subst h1
      simp only [List.foldl]
      by_cases hc : s.students ≤ seatsLeft ∧ a < s.students
      · rw [if_pos hc]
        exact maxFitAux_ge_init seatsLeft rest s.students
      · rw [if_neg hc]
        have hle : s.students ≤ a := by
          by_contra hpos
          exact hc ⟨hfit, by omega⟩
        exact le_trans hle (maxFitAux_ge_init seatsLeft rest a)
    · exact ih s h1 hfit _

/-- Every pool member that fits bounds the whole-fit maximum from below. -/
theorem maxFit_ge_mem (seatsLeft : Int) (pool : List Section) (s : Section)
    (hs : s ∈ pool) (hfit : s.students ≤ seatsLeft) :
    s.students ≤ maxFit seatsLeft pool :=
  maxFitAux_ge_mem seatsLeft pool s hs hfit 0

theorem maxFitAux_attained (seatsLeft : Int) (pool : List Section) :
    ∀ a : Int, pool.foldl (fun acc x =>
        if x.students ≤ seatsLeft ∧ acc < x.students then x.students else acc) a = a ∨
      ∃ s ∈ pool, s.students = pool.foldl (fun acc x =>
        if x.students ≤ seatsLeft ∧ acc < x.students then x.students else acc) a := by
  induction pool with
  | nil => intro a; exact Or.inl rfl
  | cons t rest ih =>
    intro a
    simp only [List.foldl]
    by_cases hc : t.students ≤ seatsLeft ∧ a < t.students
    · rw [if_pos hc]
      rcases ih t.students with h | ⟨s, hmem, hval⟩
      · exact Or.inr ⟨t, List.mem_cons_self _ _, h.symm⟩
      · exact Or.inr ⟨s, List.mem_cons_of_mem _ hmem, hval⟩
    · rw [if_neg hc]
      rcases ih a with h | ⟨s, hmem, hval⟩
      · exact Or.inl h
      · exact Or.inr ⟨s, List.mem_cons_of_mem _ hmem, hval⟩

/-- The whole-fit maximum is attained by some pool member when nonzero. -/
theorem maxFit_attained (seatsLeft : Int) (pool : List Section)
    (h : maxFit seatsLeft pool ≠ 0) :
    ∃ s ∈ pool, s.students = maxFit seatsLeft pool := by
  rcases maxFitAux_attained seatsLeft pool 0 with h0 | h0
  · exact absurd h0 h
  · exact h0

theorem maxFitAux_le (seatsLeft : Int) (pool : List Section) :
    ∀ a : Int, pool.foldl (fun acc x =>
        if x.students ≤ seatsLeft ∧ acc < x.students then x.students else acc) a = a ∨
      pool.foldl (fun acc x =>
        if x.students ≤ seatsLeft ∧ acc < x.students then x.students else acc) a
        ≤ seatsLeft := by
  induction pool with
  | nil => intro a; exact Or.inl rfl
  | cons t rest ih =>
    intro a
    simp only [List.foldl]
    by_cases hc : t.students ≤ seatsLeft ∧ a < t.students
    · rw [if_pos hc]
      rcases ih t.students with h | h
      · exact Or.inr (by rw [h]; exact hc.1)
      · exact Or.inr h
    · rw [if_neg hc]
      exact ih a

/-- The whole-fit maximum fits in the room when nonzero. -/
theorem maxFit_le (seatsLeft : Int) (pool : List Section)
    (h : maxFit seatsLeft pool ≠ 0) : maxFit seatsLeft pool ≤ seatsLeft := by
  rcases maxFitAux_le seatsLeft pool 0 with h0 | h0
  · exact absurd h0 h
  · exact h0

/-! ## Branch equations of the lookahead fill loop -/

theorem fillLoop_stop (mc : Int) (room : Room) (bn : String) (ao : Bool)
    (pool : List Section) (seatsLeft : Int) (h0 : seatsLeft ≤ 0) :
    fillLoop mc room bn ao pool seatsLeft = ([], pool, seatsLeft) := by
  rw [fillLoop, dif_pos h0]

theorem fillLoop_nil (mc : Int) (room : Room) (bn : String) (ao : Bool)
    (seatsLeft : Int) (h0 : ¬seatsLeft ≤ 0) :
    fillLoop mc room bn ao [] seatsLeft = ([], [], seatsLeft) := by
  rw [fillLoop, dif_neg h0, dif_pos rfl]

theorem fillLoop_whole_break (mc : Int) (room : Room) (bn : String)
    (pool pool' : List Section) (s : Section) (seatsLeft : Int)
    (h0 : ¬seatsLeft ≤ 0) (hp : ¬pool = [])
    (hm : 0 < maxFit seatsLeft pool)
    (hext : extractBySize (maxFit seatsLeft pool) pool = some (s, pool'))
    (hA : room.capacity - seatsLeft = 0 ∧ s.students < mc) :
    fillLoop mc room bn true pool seatsLeft = ([], pool, seatsLeft) := by
  rw [fillLoop, dif_neg h0, dif_neg hp]
  simp only [dif_pos hm]
  split
  · rename_i s1 pool1 heq
    rw [hext] at heq
    obtain ⟨h1, h2⟩ : s1 = s ∧ pool1 = pool' := by
      have := heq; simp at this; exact ⟨this.1.symm, this.2.symm⟩
    subst h1; subst h2
    rw [if_pos hA]
    simp
  · rename_i heq
    rw [hext] at heq

theorem fillLoop_whole_place_exc (mc : Int) (room : Room) (bn : String)
    (pool pool' : List Section) (s : Section) (seatsLeft : Int)
    (h0 : ¬seatsLeft ≤ 0) (hp : ¬pool = [])
    (hm : 0 < maxFit seatsLeft pool)
    (hext : extractBySize (maxFit seatsLeft pool) pool = some (s, pool'))
    (hA : room.capacity - seatsLeft = 0 ∧ s.students < mc) :
    fillLoop mc room bn false pool seatsLeft
      = (mkPlacement s room.no s.students (room.capacity - seatsLeft) false bn
          :: (fillLoop mc room bn false pool' (seatsLeft - s.students)).1,
        (fillLoop mc room bn false pool' (seatsLeft - s.students)).2) := by
  rw [fillLoop, dif_neg h0, dif_neg hp]
  simp only [dif_pos hm]
  split
  · rename_i s1 pool1 heq
    rw [hext] at heq
    obtain ⟨h1, h2⟩ : s1 = s ∧ pool1 = pool' := by
      have := heq; simp at this; exact ⟨this.1.symm, this.2.symm⟩
    subst h1; subst h2
    rw [if_pos hA]
    simp
  · rename_i heq
    rw [hext] at heq
    exact absurd heq (by simp)

theorem fillLoop_whole_place (mc : Int) (room : Room) (bn : String) (ao : Bool)
    (pool pool' : List Section) (s : Section) (seatsLeft : Int)
    (h0 : ¬seatsLeft ≤ 0) (hp : ¬pool = [])
    (hm : 0 < maxFit seatsLeft pool)
    (hext : extractBySize (maxFit seatsLeft pool) pool = some (s, pool'))
    (hA : ¬(room.capacity - seatsLeft = 0 ∧ s.students < mc)) :
    fillLoop mc room bn ao pool seatsLeft
      = (mkPlacement s room.no s.students (room.capacity - seatsLeft) false bn
          :: (fillLoop mc room bn ao pool' (seatsLeft - s.students)).1,
        (fillLoop mc room bn ao pool' (seatsLeft - s.students)).2) := by
  rw [fillLoop, dif_neg h0, dif_neg hp]
  simp only [dif_pos hm]
  split
  · rename_i s1 pool1 heq
    rw [hext] at heq
    obtain ⟨h1, h2⟩ : s1 = s ∧ pool1 = pool' := by
      have := heq; simp at this; exact ⟨this.1.symm, this.2.symm⟩
    subst h1; subst h2
    rw [if_neg hA]
  · rename_i heq
    rw [hext] at heq
    exact absurd heq (by simp)

theorem fillLoop_split_break1 (mc : Int) (room : Room) (bn : String) (ao : Bool)
    (pool rest : List Section) (s : Section) (seatsLeft : Int)
    (h0 : ¬seatsLeft ≤ 0) (hp : ¬pool = [])
    (hm : ¬0 < maxFit seatsLeft pool)
    (hsort : sortDescBy (fun s => s.students) pool = s :: rest)
    (hG1 : 0 < s.students - seatsLeft ∧ s.students - seatsLeft < mc ∧ seatsLeft < mc) :
    fillLoop mc room bn ao pool seatsLeft = ([], s :: rest, seatsLeft) := by
  rw [fillLoop, dif_neg h0, dif_neg hp]
  simp only [dif_neg hm]
  split
  · rename_i heq
    rw [hsort] at heq
    simp at heq
  · rename_i s1 rest1 heq
    rw [hsort] at heq
    obtain ⟨h1, h2⟩ : s1 = s ∧ rest1 = rest := by
      have := heq; simp at this; exact ⟨this.1.symm, this.2.symm⟩
    subst h1; subst h2
    rw [if_pos hG1]

theorem fillLoop_split_break2 (mc : Int) (room : Room) (bn : String)
    (pool rest : List Section) (s : Section) (seatsLeft : Int)
    (h0 : ¬seatsLeft ≤ 0) (hp : ¬pool = [])
    (hm : ¬0 < maxFit seatsLeft pool)
    (hsort : sortDescBy (fun s => s.students) pool = s :: rest)
    (hG1 : ¬(0 < s.students - seatsLeft ∧ s.students - seatsLeft < mc ∧ seatsLeft < mc))
    (hA : room.capacity - seatsLeft = 0 ∧ min seatsLeft s.students < mc ∧
      s.students = min seatsLeft s.students) :
    fillLoop mc room bn true pool seatsLeft = ([], s :: rest, seatsLeft) := by
  rw [fillLoop, dif_neg h0, dif_neg hp]
  simp only [dif_neg hm]
  split
  · rename_i heq
    rw [hsort] at heq
    simp at heq
  · rename_i s1 rest1 heq
    rw [hsort] at heq
    obtain ⟨h1, h2⟩ : s1 = s ∧ rest1 = rest := by
      have := heq; simp at this; exact ⟨this.1.symm, this.2.symm⟩
    subst h1; subst h2
    rw [if_neg hG1, dif_pos ⟨hA, by simp⟩]

theorem fillLoop_split_break3 (mc : Int) (room : Room) (bn : String) (ao : Bool)
    (pool rest : List Section) (s : Section) (seatsLeft : Int)
    (h0 : ¬seatsLeft ≤ 0) (hp : ¬pool = [])
    (hm : ¬0 < maxFit seatsLeft pool)
    (hsort : sortDescBy (fun s => s.students) pool = s :: rest)
    (hG1 : ¬(0 < s.students - seatsLeft ∧ s.students - seatsLeft < mc ∧ seatsLeft < mc))
    (hAo : ¬((room.capacity - seatsLeft = 0 ∧ min seatsLeft s.students < mc ∧
      s.students = min seatsLeft s.students) ∧ ao = true))
    (hG3 : min seatsLeft s.students < mc ∧
      ¬(room.capacity - seatsLeft = 0 ∧ min seatsLeft s.students < mc ∧
        s.students = min seatsLeft s.students) ∧ mc < s.students) :
    fillLoop mc room bn ao pool seatsLeft = ([], s :: rest, seatsLeft) := by
  rw [fillLoop, dif_neg h0, dif_neg hp]
  simp only [dif_neg hm]
  split
  · rename_i heq
    rw [hsort] at heq
    simp at heq
  · rename_i s1 rest1 heq
    rw [hsort] at heq
    obtain ⟨h1, h2⟩ : s1 = s ∧ rest1 = rest := by
      have := heq; simp at this; exact ⟨this.1.symm, this.2.symm⟩
    subst h1; subst h2
    rw [if_neg hG1, dif_neg hAo, if_pos hG3]

theorem fillLoop_split_place (mc : Int) (room : Room) (bn : String) (ao : Bool)
    (pool rest : List Section) (s : Section) (seatsLeft : Int)
    (h0 : ¬seatsLeft ≤ 0) (hp : ¬pool = [])
    (hm : ¬0 < maxFit seatsLeft pool)
    (hsort : sortDescBy (fun s => s.students) pool = s :: rest)
    (hG1 : ¬(0 < s.students - seatsLeft ∧ s.students - seatsLeft < mc ∧ seatsLeft < mc))
    (hAo : ¬((room.capacity - seatsLeft = 0 ∧ min seatsLeft s.students < mc ∧
      s.students = min seatsLeft s.students) ∧ ao = true))
    (hG3 : ¬(min seatsLeft s.students < mc ∧
      ¬(room.capacity - seatsLeft = 0 ∧ min seatsLeft s.students < mc ∧
        s.students = min seatsLeft s.students) ∧ mc < s.students)) :
    fillLoop mc room bn ao pool seatsLeft
      = (mkPlacement s room.no (min seatsLeft s.students) (room.capacity - seatsLeft)
          true bn
          :: (fillLoop mc room bn ao
            (if s.students - min seatsLeft s.students = 0 then rest
              else { s with students := s.students - min seatsLeft s.students } :: rest)
            (seatsLeft - min seatsLeft s.students)).1,
        (fillLoop mc room bn ao
            (if s.students - min seatsLeft s.students = 0 then rest
              else { s with students := s.students - min seatsLeft s.students } :: rest)
            (seatsLeft - min seatsLeft s.students)).2) := by
  rw [fillLoop, dif_neg h0, dif_neg hp]
  simp only [dif_neg hm]
  split
  · rename_i heq
    rw [hsort] at heq
    simp at heq
  · rename_i s1 rest1 heq
    rw [hsort] at heq
    obtain ⟨h1, h2⟩ : s1 = s ∧ rest1 = rest := by
      have := heq; simp at this; exact ⟨this.1.symm, this.2.symm⟩
    subst h1; subst h2
    rw [if_neg hG1, dif_neg hAo, if_neg hG3]

/-- One whole-group placement followed by the rest of the fill loop
preserves the fill-loop invariants. -/
theorem fillLoop_place_step (mc : Int) (room : Room) (bn : String) (ao : Bool)
    (s : Section) (pool pool' : List Section) (seatsLeft : Int)
    (hperm : List.Perm pool (s :: pool'))
    (hspos : 0 < s.students) (hsfit : s.students ≤ seatsLeft)
    (H : (∀ a ∈ (fillLoop mc room bn ao pool' (seatsLeft - s.students)).1,
            a.roomNo = room.no ∧ a.error = false ∧ 0 < a.students) ∧
      sumStudents (fillLoop mc room bn ao pool' (seatsLeft - s.students)).1
        = (seatsLeft - s.students)
          - (fillLoop mc room bn ao pool' (seatsLeft - s.students)).2.2 ∧
      (0 ≤ seatsLeft - s.students →
        0 ≤ (fillLoop mc room bn ao pool' (seatsLeft - s.students)).2.2) ∧
      (∀ i, poolMass i pool'
        = identSum i (fillLoop mc room bn ao pool' (seatsLeft - s.students)).1
          + poolMass i (fillLoop mc room bn ao pool' (seatsLeft - s.students)).2.1) ∧
      (∀ x ∈ (fillLoop mc room bn ao pool' (seatsLeft - s.students)).2.1,
        0 < x.students) ∧
      (∀ k (hk : k < (fillLoop mc room bn ao pool' (seatsLeft - s.students)).1.length),
        ((fillLoop mc room bn ao pool' (seatsLeft - s.students)).1.get ⟨k, hk⟩).startSeat
          = some ((room.capacity - (seatsLeft - s.students))
              + roomSum room.no
                  ((fillLoop mc room bn ao pool' (seatsLeft - s.students)).1.take k) + 1) ∧
        ((fillLoop mc room bn ao pool' (seatsLeft - s.students)).1.get ⟨k, hk⟩).endSeat
          = some ((room.capacity - (seatsLeft - s.students))
              + roomSum room.no
                  ((fillLoop mc room bn ao pool' (seatsLeft - s.students)).1.take k)
              + ((fillLoop mc room bn ao pool' (seatsLeft - s.students)).1.get
                  ⟨k, hk⟩).students))) :
    (∀ a ∈ (mkPlacement s room.no s.students (room.capacity - seatsLeft) false bn
          :: (fillLoop mc room bn ao pool' (seatsLeft - s.students)).1),
        a.roomNo = room.no ∧ a.error = false ∧ 0 < a.students) ∧
    sumStudents (mkPlacement s room.no s.students (room.capacity - seatsLeft) false bn
        :: (fillLoop mc room bn ao pool' (seatsLeft - s.students)).1)
      = seatsLeft - (fillLoop mc room bn ao pool' (seatsLeft - s.students)).2.2 ∧
    (0 ≤ seatsLeft → 0 ≤ (fillLoop mc room bn ao pool' (seatsLeft - s.students)).2.2) ∧
    (∀ i, poolMass i pool
      = identSum i (mkPlacement s room.no s.students (room.capacity - seatsLeft) false bn
          :: (fillLoop mc room bn ao pool' (seatsLeft - s.students)).1)
        + poolMass i (fillLoop mc room bn ao pool' (seatsLeft - s.students)).2.1) ∧
    (∀ x ∈ (fillLoop mc room bn ao pool' (seatsLeft - s.students)).2.1,
      0 < x.students) ∧
    (∀ k (hk : k < (mkPlacement s room.no s.students (room.capacity - seatsLeft) false bn
        :: (fillLoop mc room bn ao pool' (seatsLeft - s.students)).1).length),
      ((mkPlacement s room.no s.students (room.capacity - seatsLeft) false bn
        :: (fillLoop mc room bn ao pool' (seatsLeft - s.students)).1).get ⟨k, hk⟩).startSeat
        = some ((room.capacity - seatsLeft)
            + roomSum room.no
                ((mkPlacement s room.no s.students (room.capacity - seatsLeft) false bn
                  :: (fillLoop mc room bn ao pool' (seatsLeft - s.students)).1).take k) + 1) ∧
      ((mkPlacement s room.no s.students (room.capacity - seatsLeft) false bn
        :: (fillLoop mc room bn ao pool' (seatsLeft - s.students)).1).get ⟨k, hk⟩).endSeat
        = some ((room.capacity - seatsLeft)
            + roomSum room.no
                ((mkPlacement s room.no s.students (room.capacity - seatsLeft) false bn
                  :: (fillLoop mc room bn ao pool' (seatsLeft - s.students)).1).take k)
            + ((mkPlacement s room.no s.students (room.capacity - seatsLeft) false bn
                :: (fillLoop mc room bn ao pool' (seatsLeft - s.students)).1).get
                ⟨k, hk⟩).students)) := by
  obtain ⟨Ha, Hb, Hb', Hc, Hd, Hf⟩ := H
  refine ⟨?_, ?_, ?_, ?_, Hd, ?_⟩
  · intro a ha
    rcases List.mem_cons.mp ha with h1 | h1
    · rw [h1]
      exact ⟨rfl, rfl, by rw [mkPlacement_students]; exact hspos⟩
    · exact Ha a h1
  · rw [sumStudents_cons, Hb, mkPlacement_students]
    omega
  · intro h
    exact Hb' (by omega)
  · intro i
    rw [poolMass_perm i pool (s :: pool') hperm, poolMass_cons, identSum_cons, Hc i]
    have hrecid : recIdent (mkPlacement s room.no s.students
        (room.capacity - seatsLeft) false bn) = identOf s := rfl
    rw [hrecid, mkPlacement_students]
    by_cases hi : identOf s = i
    · simp only [if_pos hi]; ring
    · simp only [if_neg hi]; ring
  · intro k hk
    cases k with
    | zero =>
      simp only [List.get, List.take, roomSum_nil]
      rw [mkPlacement_startSeat, mkPlacement_endSeat, mkPlacement_students]
      constructor
      · congr 1; omega
      · congr 1; omega
    | succ k =>
      have hk' : k < (fillLoop mc room bn ao pool' (seatsLeft - s.students)).1.length := by
        simpa using hk
      obtain ⟨hs1, hs2⟩ := Hf k hk'
      have hget : ((mkPlacement s room.no s.students (room.capacity - seatsLeft) false bn
          :: (fillLoop mc room bn ao pool' (seatsLeft - s.students)).1).get
            ⟨k + 1, hk⟩)
          = ((fillLoop mc room bn ao pool' (seatsLeft - s.students)).1.get ⟨k, hk'⟩) := rfl
      have htake : ((mkPlacement s room.no s.students (room.capacity - seatsLeft) false bn
          :: (fillLoop mc room bn ao pool' (seatsLeft - s.students)).1).take (k + 1))
          = mkPlacement s room.no s.students (room.capacity - seatsLeft) false bn
            :: ((fillLoop mc room bn ao pool' (seatsLeft - s.students)).1.take k) := rfl

      rw [hget, htake, roomSum_cons,
        if_pos ⟨mkPlacement_error s room.no _ _ _ bn, mkPlacement_roomNo s room.no _ _ _ bn⟩,
        mkPlacement_students, hs1, hs2]
      constructor
      · congr 1; omega
      · congr 1; omega

/-- Main properties of the lookahead fill loop: shape of the records, seat
accounting, conservation of the per-identity pool mass, preservation of pool
positivity, and the seat-field formulas. -/
theorem fillLoop_spec (mc : Int) (room : Room) (bn : String) (ao : Bool)
    (pool : List Section) (seatsLeft : Int) :
    (∀ s ∈ pool, 0 < s.students) →
    (∀ a ∈ (fillLoop mc room bn ao pool seatsLeft).1,
        a.roomNo = room.no ∧ a.error = false ∧ 0 < a.students) ∧
    sumStudents (fillLoop mc room bn ao pool seatsLeft).1
      = seatsLeft - (fillLoop mc room bn ao pool seatsLeft).2.2 ∧
    (0 ≤ seatsLeft → 0 ≤ (fillLoop mc room bn ao pool seatsLeft).2.2) ∧
    (∀ i, poolMass i pool
      = identSum i (fillLoop mc room bn ao pool seatsLeft).1
        + poolMass i (fillLoop mc room bn ao pool seatsLeft).2.1) ∧
    (∀ x ∈ (fillLoop mc room bn ao pool seatsLeft).2.1, 0 < x.students) ∧
    (∀ k (hk : k < (fillLoop mc room bn ao pool seatsLeft).1.length),
       ((fillLoop mc room bn ao pool seatsLeft).1.get ⟨k, hk⟩).startSeat
         = some ((room.capacity - seatsLeft)
             + roomSum room.no ((fillLoop mc room bn ao pool seatsLeft).1.take k) + 1) ∧
       ((fillLoop mc room bn ao pool seatsLeft).1.get ⟨k, hk⟩).endSeat
         = some ((room.capacity - seatsLeft)
             + roomSum room.no ((fillLoop mc room bn ao pool seatsLeft).1.take k)
             + ((fillLoop mc room bn ao pool seatsLeft).1.get ⟨k, hk⟩).students)) := by
  induction pool, seatsLeft using fillLoop.induct mc room bn ao with
  | case1 pool seatsLeft h0 =>
    intro hpos
    rw [fillLoop_stop mc room bn ao pool seatsLeft h0]
    refine ⟨by simp, by simp [sumStudents], fun h => h, ?_, hpos, ?_⟩
    · intro i; simp [identSum, sumStudents]
    · intro k hk; simp at hk
  | case2 seatsLeft h0 =>
    intro _
    rw [fillLoop_nil mc room bn ao seatsLeft h0]
    refine ⟨by simp, by simp [sumStudents], fun h => h, ?_, by simp, ?_⟩
    · intro i; simp [identSum, sumStudents]
    · intro k hk; simp at hk
  | case3 pool seatsLeft h0 hp m hm s pool' hext hA hao =>
    intro hpos
    rw [hao, fillLoop_whole_break mc room bn pool pool' s seatsLeft h0 hp hm hext hA]
    refine ⟨by simp, by simp [sumStudents], fun h => h, ?_, hpos, ?_⟩
    · intro i; simp [identSum, sumStudents]
    · intro k hk; simp at hk
  | case4 pool seatsLeft h0 hp m hm s pool' hext hA hao ih =>
    intro hpos
    have hperm := extractBySize_perm _ pool pool' s hext
    have hpos' : ∀ x ∈ s :: pool', 0 < x.students :=
      fun x hx => hpos x (hperm.symm.subset hx)
    have hspos : 0 < s.students := hpos' s (List.mem_cons_self _ _)
    have hsfit : s.students ≤ seatsLeft := by
      rw [extractBySize_students _ pool pool' s hext]
      exact maxFit_le seatsLeft pool (by omega)
    have hao' : ao = false := by
      cases ao
      · rfl
      · exact absurd rfl hao
    rw [hao'] at ih ⊢
    rw [fillLoop_whole_place_exc mc room bn pool pool' s seatsLeft h0 hp hm hext hA]
    obtain ⟨iha, ihb, ihb', ihc, ihd, ihf⟩ := ih (fun x hx => hpos' x (List.mem_cons_of_mem _ hx))
    exact fillLoop_place_step mc room bn false s pool pool' seatsLeft hperm hspos hsfit
      ⟨iha, ihb, ihb', ihc, ihd, ihf⟩
  | case5 pool seatsLeft h0 hp m hm s pool' hext hA ih =>
    intro hpos
    have hperm := extractBySize_perm _ pool pool' s hext
    have hpos' : ∀ x ∈ s :: pool', 0 < x.students :=
      fun x hx => hpos x (hperm.symm.subset hx)
    have hspos : 0 < s.students := hpos' s (List.mem_cons_self _ _)
    have hsfit : s.students ≤ seatsLeft := by
      rw [extractBySize_students _ pool pool' s hext]
      exact maxFit_le seatsLeft pool (by omega)
    rw [fillLoop_whole_place mc room bn ao pool pool' s seatsLeft h0 hp hm hext hA]
    obtain ⟨iha, ihb, ihb', ihc, ihd, ihf⟩ := ih (fun x hx => hpos' x (List.mem_cons_of_mem _ hx))
    exact fillLoop_place_step mc room bn ao s pool pool' seatsLeft hperm hspos hsfit
      ⟨iha, ihb, ihb', ihc, ihd, ihf⟩
  | case6 pool seatsLeft h0 hp m hm hext =>
    intro hpos
    obtain ⟨s, hs, hval⟩ := maxFit_attained seatsLeft pool (by omega)
    obtain ⟨s', pool', hsome⟩ := extractBySize_isSome_of_mem _ pool ⟨s, hs, hval⟩
    rw [hext] at hsome
    simp at hsome
  | case7 pool seatsLeft h0 hp m hm hsort =>
    intro hpos
    have := sortDescBy_length (fun s : Section => s.students) pool
    rw [hsort] at this
    simp at this
    exact absurd (List.length_eq_zero.mp this.symm) hp
  | case8 pool seatsLeft h0 hp m hm s rest hsort hG1 =>
    intro hpos
    have hperm : List.Perm pool (s :: rest) := hsort ▸ (sortDescBy_perm _ pool).symm
    rw [fillLoop_split_break1 mc room bn ao pool rest s seatsLeft h0 hp hm hsort hG1]
    refine ⟨by simp, by simp [sumStudents], fun h => h, ?_,
      fun x hx => hpos x (hperm.symm.subset hx), ?_⟩
    · intro i
      rw [poolMass_perm i pool (s :: rest) hperm]
      simp [identSum, sumStudents]
    · intro k hk; simp at hk
  | case9 pool seatsLeft h0 hp m hm s rest hsort hG1 chunk hAA =>
    intro hpos
    have hperm : List.Perm pool (s :: rest) := hsort ▸ (sortDescBy_perm _ pool).symm
    rw [hAA.2, fillLoop_split_break2 mc room bn pool rest s seatsLeft h0 hp hm hsort hG1 hAA.1]
    refine ⟨by simp, by simp [sumStudents], fun h => h, ?_,
      fun x hx => hpos x (hperm.symm.subset hx), ?_⟩
    · intro i
      rw [poolMass_perm i pool (s :: rest) hperm]
      simp [identSum, sumStudents]
    · intro k hk; simp at hk
  | case10 pool seatsLeft h0 hp m hm s rest hsort hG1 chunk hAo hG3 =>
    intro hpos
    have hperm : List.Perm pool (s :: rest) := hsort ▸ (sortDescBy_perm _ pool).symm
    rw [fillLoop_split_break3 mc room bn ao pool rest s seatsLeft h0 hp hm hsort hG1 hAo hG3]
    refine ⟨by simp, by simp [sumStudents], fun h => h, ?_,
      fun x hx => hpos x (hperm.symm.subset hx), ?_⟩
    · intro i
      rw [poolMass_perm i pool (s :: rest) hperm]
      simp [identSum, sumStudents]
    · intro k hk; simp at hk
  | case11 pool seatsLeft h0 hp m hm s rest hsort hG1 chunk hAo hG3 ih =>
    intro hpos
    have hperm : List.Perm pool (s :: rest) := hsort ▸ (sortDescBy_perm _ pool).symm
    have hsmem : s ∈ pool := hperm.symm.subset (List.mem_cons_self _ _)
    have hbig : seatsLeft < s.students := by
      by_contra hle
      have := maxFit_ge_mem seatsLeft pool s hsmem (by omega)
      have hspos := hpos s hsmem
      omega
    have hchunk : min seatsLeft s.students = seatsLeft := by omega
    have hz : ¬(s.students - min seatsLeft s.students = 0) := by omega
    rw [fillLoop_split_place mc room bn ao pool rest s seatsLeft h0 hp hm hsort hG1 hAo hG3]
    rw [if_neg hz]
    rw [fillLoop_stop mc room bn ao _ _ (by omega)]
    refine ⟨?_, ?_, ?_, ?_, ?_, ?_⟩
    · intro a ha
      simp only [List.mem_singleton] at ha
      rw [ha]
      exact ⟨rfl, rfl, by rw [mkPlacement_students]; omega⟩
    · rw [sumStudents_cons]
      simp [sumStudents, mkPlacement_students]
    · intro _
      show (0 : Int) ≤ seatsLeft - seatsLeft ⊓ s.students
      omega
    · intro i
      rw [poolMass_perm i pool (s :: rest) hperm, poolMass_cons, poolMass_cons,
        identSum_cons]
      have hident : identOf ({ s with students := s.students - min seatsLeft s.students } : Section) = identOf s := rfl
      rw [hident]
      have hrecid : recIdent (mkPlacement s room.no (min seatsLeft s.students)
          (room.capacity - seatsLeft) true bn) = identOf s := rfl
      rw [hrecid]
      simp only [identSum, sumStudents, List.filter_nil, List.map_nil, List.sum_nil]
      by_cases hi : identOf s = i
      · rw [if_pos hi, if_pos hi, if_pos hi]
        simp
        omega
      · rw [if_neg hi, if_neg hi, if_neg hi]
        simp
    · intro x hx
      rcases List.mem_cons.mp hx with h1 | h1
      · rw [h1]; simp; omega
      · exact hpos x (hperm.symm.subset (List.mem_cons_of_mem _ h1))
    · intro k hk
      simp only [List.length_cons, List.length_nil] at hk
      have hk0 : k = 0 := by omega
      subst hk0
      simp only [List.get, List.take, roomSum_nil]
      rw [mkPlacement_startSeat, mkPlacement_endSeat, mkPlacement_students]
      constructor
      · congr 1; omega
      · congr 1; omega

theorem sumStudents_nonneg (l : List Allocation) (h : ∀ a ∈ l, 0 < a.students) :
    0 ≤ sumStudents l := by
  induction l with
  | nil => simp [sumStudents]
  | cons a rest ih =>
    rw [sumStudents_cons]
    have h1 := h a (List.mem_cons_self _ _)
    have h2 := ih (fun x hx => h x (List.mem_cons_of_mem _ hx))
    omega

theorem sumStudents_pos (l : List Allocation) (h : ∀ a ∈ l, 0 < a.students)
    (hne : l ≠ []) : 0 < sumStudents l := by
  cases l with
  | nil => exact absurd rfl hne
  | cons a rest =>
    rw [sumStudents_cons]
    have h1 := h a (List.mem_cons_self _ _)
    have h2 := sumStudents_nonneg rest (fun x hx => h x (List.mem_cons_of_mem _ hx))
    omega

theorem roomSum_of_uniform (no no0 : String) (l : List Allocation)
    (h : ∀ a ∈ l, a.roomNo = no0 ∧ a.error = false) :
    roomSum no l = if no0 = no then sumStudents l else 0 := by
  induction l with
  | nil => by_cases hno : no0 = no <;> simp [hno, sumStudents, roomSum]
  | cons a rest ih =>
    obtain ⟨h1, h2⟩ := h a (List.mem_cons_self _ _)
    rw [roomSum_cons, sumStudents_cons, ih (fun x hx => h x (List.mem_cons_of_mem _ hx))]
    by_cases hno : no0 = no
    · rw [if_pos hno, if_pos hno, if_pos ⟨h2, h1.trans hno⟩]
    · rw [if_neg hno, if_neg hno, if_neg (fun hc => hno (h1 ▸ hc.2))]
      omega

theorem contigFrom_all_error (u : Usage) (l : List Allocation)
    (h : ∀ a ∈ l, a.error = true) : ContigFrom u l := by
  intro k hk hc
  have := h (l.get ⟨k, hk⟩) (List.get_mem l _ _)
  rw [this] at hc
  simp at hc

/-- Properties of the per-room processing of the lookahead strategy
(perfect-fit fast path followed by the fill loop). -/
theorem fillRoom_spec (mc : Int) (room : Room) (bn : String) (ao : Bool)
    (pool : List Section) (hpos : ∀ s ∈ pool, 0 < s.students) :
    (∀ a ∈ (fillRoom mc room bn ao pool).1,
        a.roomNo = room.no ∧ a.error = false ∧ 0 < a.students) ∧
    sumStudents (fillRoom mc room bn ao pool).1
      = room.capacity - (fillRoom mc room bn ao pool).2.2 ∧
    ((fillRoom mc room bn ao pool).1 ≠ [] →
      0 ≤ (fillRoom mc room bn ao pool).2.2 ∧ 0 < room.capacity) ∧
    (∀ i, poolMass i pool
      = identSum i (fillRoom mc room bn ao pool).1
        + poolMass i (fillRoom mc room bn ao pool).2.1) ∧
    (∀ x ∈ (fillRoom mc room bn ao pool).2.1, 0 < x.students) ∧
    (∀ k (hk : k < (fillRoom mc room bn ao pool).1.length),
       ((fillRoom mc room bn ao pool).1.get ⟨k, hk⟩).startSeat
         = some (roomSum room.no ((fillRoom mc room bn ao pool).1.take k) + 1) ∧
       ((fillRoom mc room bn ao pool).1.get ⟨k, hk⟩).endSeat
         = some (roomSum room.no ((fillRoom mc room bn ao pool).1.take k)
             + ((fillRoom mc room bn ao pool).1.get ⟨k, hk⟩).students)) := by
  cases hext : extractBySize room.capacity pool with
  | some p =>
    obtain ⟨s, pool'⟩ := p
    have heq : fillRoom mc room bn ao pool
        = ([mkPlacement s room.no room.capacity 0 false bn], pool', 0) := by
      unfold fillRoom; rw [hext]
    rw [heq]
    have hperm := extractBySize_perm _ pool pool' s hext
    have hspos : 0 < s.students := hpos s (hperm.symm.subset (List.mem_cons_self _ _))
    have hcap : s.students = room.capacity := extractBySize_students _ pool pool' s hext
    refine ⟨?_, ?_, ?_, ?_, ?_, ?_⟩
    · intro a ha
      simp only [List.mem_singleton] at ha
      rw [ha]
      exact ⟨rfl, rfl, by rw [mkPlacement_students]; omega⟩
    · simp [sumStudents, mkPlacement_students]
    · intro _
      constructor
      · exact le_refl 0
      · omega
    · intro i
      rw [poolMass_perm i pool (s :: pool') hperm, poolMass_cons, identSum_cons]
      have hrecid : recIdent (mkPlacement s room.no room.capacity 0 false bn)
          = identOf s := rfl
      rw [hrecid, mkPlacement_students]
      simp only [identSum, sumStudents, List.filter_nil, List.map_nil, List.sum_nil]
      by_cases hi : identOf s = i
      · rw [if_pos hi, if_pos hi]
        omega
      · rw [if_neg hi, if_neg hi]
        omega
    · intro x hx
      exact hpos x (hperm.symm.subset (List.mem_cons_of_mem _ hx))
    · intro k hk
      simp only [List.length_singleton] at hk
      have hk0 : k = 0 := by omega
      subst hk0
      simp only [List.get, List.take, roomSum_nil]
      rw [mkPlacement_startSeat, mkPlacement_endSeat, mkPlacement_students]
      constructor
      · norm_num
      · norm_num
  | none =>
    have heq : fillRoom mc room bn ao pool
        = fillLoop mc room bn ao pool room.capacity := by
      unfold fillRoom; rw [hext]
    rw [heq]
    obtain ⟨la, lb, lb', lc, ld, lf⟩ := fillLoop_spec mc room bn ao pool room.capacity hpos
    refine ⟨la, lb, ?_, lc, ld, ?_⟩
    · intro hne
      have hcap : 0 < room.capacity := by
        by_contra hle
        rw [fillLoop_stop mc room bn ao pool room.capacity (by omega)] at hne
        exact hne rfl
      exact ⟨lb' (by omega), hcap⟩
    · intro k hk
      obtain ⟨h1, h2⟩ := lf k hk
      rw [h1, h2]
      constructor
      · congr 1; omega
      · congr 1; omega

/-- Invariants of the outer room loop of the lookahead strategy.  The room
ids of the rooms still to process must be distinct and unused so far (the
loop writes each room's usage once, after its batch). -/
theorem lookaheadRooms_spec (mc : Int) (allRooms : List (Room × String))
    (roomBlocks : List RoomBlock)
    (hcapAll : ∀ rb ∈ allRooms, capacityOf roomBlocks rb.1.no = rb.1.capacity) :
    ∀ (rooms : List (Room × String)) (pool : List Section) (u : Usage),
    (∀ s ∈ pool, 0 < s.students) →
    (rooms.map (fun rb => rb.1.no)).Nodup →
    (∀ rb ∈ rooms, u.hasKey rb.1.no = false) →
    (∀ rb ∈ rooms, rb ∈ allRooms) →
    (∀ no, u.hasKey no = true → u.get no ≤ capacityOf roomBlocks no) →
    (∀ no, 0 ≤ u.get no) →
    (∀ i, poolMass i pool
      = identSum i (lookaheadRooms mc allRooms rooms pool u).1
        + poolMass i (lookaheadRooms mc allRooms rooms pool u).2.1) ∧
    (∀ no, Usage.get (lookaheadRooms mc allRooms rooms pool u).2.2 no
      = u.get no + roomSum no (lookaheadRooms mc allRooms rooms pool u).1) ∧
    (∀ no, Usage.hasKey (lookaheadRooms mc allRooms rooms pool u).2.2 no = true ↔
      (u.hasKey no = true ∨
        ∃ a ∈ (lookaheadRooms mc allRooms rooms pool u).1, a.roomNo = no)) ∧
    (∀ x ∈ (lookaheadRooms mc allRooms rooms pool u).2.1, 0 < x.students) ∧
    (∀ a ∈ (lookaheadRooms mc allRooms rooms pool u).1,
      a.error = false ∧ 0 < a.students ∧
        ∃ rb ∈ rooms, a.roomNo = rb.1.no ∧ 0 < rb.1.capacity) ∧
    ContigFrom u (lookaheadRooms mc allRooms rooms pool u).1 ∧
    (∀ no, Usage.hasKey (lookaheadRooms mc allRooms rooms pool u).2.2 no = true →
      Usage.get (lookaheadRooms mc allRooms rooms pool u).2.2 no
        ≤ capacityOf roomBlocks no) ∧
    (∀ no, 0 ≤ Usage.get (lookaheadRooms mc allRooms rooms pool u).2.2 no) := by
  intro rooms
  induction rooms with
  | nil =>
    intro pool u hpos _ _ _ hucap hunn
    refine ⟨?_, ?_, ?_, hpos, ?_, contigFrom_nil u, hucap, hunn⟩
    · intro i; simp [lookaheadRooms, identSum, sumStudents]
    · intro no; simp [lookaheadRooms, roomSum, sumStudents]
    · intro no; simp [lookaheadRooms]
    · intro a ha; simp [lookaheadRooms] at ha
  | cons rb rest ih =>
    intro pool u hpos hnd hkeys hsub hucap hunn
    obtain ⟨room, bn⟩ := rb
    obtain ⟨fa, fb, fb', fc, fd, ff⟩ :=
      fillRoom_spec mc room bn (anyRoomHasStudents allRooms u) pool hpos
    set batch := (fillRoom mc room bn (anyRoomHasStudents allRooms u) pool).1 with hbatch
    set pool1 := (fillRoom mc room bn (anyRoomHasStudents allRooms u) pool).2.1 with hpool1
    set left' := (fillRoom mc room bn (anyRoomHasStudents allRooms u) pool).2.2 with hleft
    set u' := (if batch = [] then u else u.set room.no (room.capacity - left')) with hu'
    have heq : lookaheadRooms mc allRooms ((room, bn) :: rest) pool u
        = (batch ++ (lookaheadRooms mc allRooms rest pool1 u').1,
          (lookaheadRooms mc allRooms rest pool1 u').2) := rfl
    rw [heq]
    have hndrest : (rest.map (fun rb => rb.1.no)).Nodup := by
      simpa using hnd.of_cons
    have hroomnotin : room.no ∉ rest.map (fun rb => rb.1.no) := by
      have h := hnd
      simp only [List.map_cons, List.nodup_cons] at h
      exact h.1
    have hbatchUniform : ∀ a ∈ batch, a.roomNo = room.no ∧ a.error = false :=
      fun a ha => ⟨(fa a ha).1, (fa a ha).2.1⟩
    have hbatchSum : ∀ no, roomSum no batch
        = if room.no = no then sumStudents batch else 0 :=
      fun no => roomSum_of_uniform no room.no batch hbatchUniform
    have hukey0 : u.get room.no = 0 :=
      Usage.get_eq_zero_of_not_hasKey u room.no
        (hkeys (room, bn) (List.mem_cons_self _ _))
    have hu'get : ∀ no, u'.get no = u.get no + roomSum no batch := by
      intro no
      rw [hu']
      by_cases hb : batch = []
      · rw [if_pos hb, hb, roomSum_nil]
        omega
      · rw [if_neg hb]
        by_cases hno : no = room.no
        · subst hno
          rw [Usage.get_set_self, hbatchSum, if_pos rfl, hukey0, fb]
          omega
        · rw [Usage.get_set_ne _ _ _ _ (fun hh => hno hh.symm), hbatchSum,
            if_neg (fun hh => hno hh.symm)]
          omega
    have hu'hasKey : ∀ no, u'.hasKey no = true ↔
        (u.hasKey no = true ∨ ∃ a ∈ batch, a.roomNo = no) := by
      intro no
      rw [hu']
      by_cases hb : batch = []
      · rw [if_pos hb, hb]
        simp
      · rw [if_neg hb]
        by_cases hno : no = room.no
        · subst hno
          rw [Usage.hasKey_set_self]
          simp only [true_iff]
          refine Or.inr ?_
          obtain ⟨a, ha⟩ := List.exists_mem_of_ne_nil batch hb
          exact ⟨a, ha, (hbatchUniform a ha).1⟩
        · rw [Usage.hasKey_set_ne _ _ _ _ (fun hh => hno hh.symm)]
          constructor
          · intro h; exact Or.inl h
          · rintro (h | ⟨a, ha, hano⟩)
            · exact h
            · have hcontra : no = room.no := by
                rw [← hano, (hbatchUniform a ha).1]
              exact absurd hcontra hno
    have hkeysrest : ∀ x ∈ rest, u'.hasKey x.1.no = false := by
      intro x hx
      rw [Bool.eq_false_iff]
      intro hk
      rcases (hu'hasKey x.1.no).mp hk with h | ⟨a, ha, hano⟩
      · rw [hkeys x (List.mem_cons_of_mem _ hx)] at h
        exact Bool.false_ne_true h
      · have hthis := (hbatchUniform a ha).1
        rw [hthis] at hano
        exact hroomnotin (by rw [hano]; exact List.mem_map_of_mem _ hx)
    have hcapmem : capacityOf roomBlocks room.no = room.capacity :=
      hcapAll (room, bn) (hsub (room, bn) (List.mem_cons_self _ _))
    have hu'cap : ∀ no, u'.hasKey no = true →
        u'.get no ≤ capacityOf roomBlocks no := by
      intro no hk
      rw [hu'get]
      rcases (hu'hasKey no).mp hk with h | ⟨a, ha, hano⟩
      · have hb := hbatchSum no
        by_cases hno : room.no = no
        · rw [← hno] at h
          rw [hkeys (room, bn) (List.mem_cons_self _ _)] at h
          exact absurd h Bool.false_ne_true
        · rw [hb, if_neg hno]
          have := hucap no h
          omega
      · have hnoeq : room.no = no := by
          rw [← (hbatchUniform a ha).1, hano]
        subst hnoeq
        have hne : batch ≠ [] := fun hbl => by rw [hbl] at ha; simp at ha
        rw [hbatchSum, if_pos rfl, hukey0, fb]
        obtain ⟨h0, _⟩ := fb' hne
        omega
    have hu'nn : ∀ no, 0 ≤ u'.get no := by
      intro no
      rw [hu'get]
      have := hunn no
      have hb := hbatchSum no
      by_cases hno : room.no = no
      · rw [hb, if_pos hno]
        have := sumStudents_nonneg batch (fun a ha => (fa a ha).2.2)
        omega
      · rw [hb, if_neg hno]
        omega
    obtain ⟨ia, ib, ic, idd, ie, iff', ig, ihh⟩ :=
      ih pool1 u' fd hndrest hkeysrest
        (fun x hx => hsub x (List.mem_cons_of_mem _ hx)) hu'cap hu'nn
    refine ⟨?_, ?_, ?_, idd, ?_, ?_, ig, ihh⟩
    · intro i
      rw [identSum_append, fc i, ia i]
      ring
    · intro no
      rw [ib no, hu'get no, roomSum_append]
      ring
    · intro no
      rw [ic no, hu'hasKey no]
      constructor
      · rintro ((h | ⟨a, ha, hano⟩) | ⟨a, ha, hano⟩)
        · exact Or.inl h
        · exact Or.inr ⟨a, List.mem_append_left _ ha, hano⟩
        · exact Or.inr ⟨a, List.mem_append_right _ ha, hano⟩
      · rintro (h | ⟨a, ha, hano⟩)
        · exact Or.inl (Or.inl h)
        · rcases List.mem_append.mp ha with h1 | h1
          · exact Or.inl (Or.inr ⟨a, h1, hano⟩)
          · exact Or.inr ⟨a, h1, hano⟩
    · intro a ha
      rcases List.mem_append.mp ha with h1 | h1
      · have hne : batch ≠ [] := fun hbl => by rw [hbl] at h1; simp at h1
        obtain ⟨_, hcappos⟩ := fb' hne
        exact ⟨(fa a h1).2.1, (fa a h1).2.2,
          (room, bn), List.mem_cons_self _ _, (fa a h1).1, hcappos⟩
      · obtain ⟨he, hpos', rb', hrb', hano, hcp⟩ := ie a h1
        exact ⟨he, hpos', rb', List.mem_cons_of_mem _ hrb', hano, hcp⟩
    · refine contigFrom_append u u' batch _ ?_ iff' hu'get
      intro k hk he
      obtain ⟨h1, h2⟩ := ff k hk
      have hroom : (batch.get ⟨k, hk⟩).roomNo = room.no :=
        (fa _ (List.get_mem batch k hk)).1
      rw [h1, h2, hroom, hukey0]
      constructor
      · congr 1; omega
      · congr 1; omega

/-! ## Branch equations and scan properties of the best-fit/first-fit loop -/

theorem ffdLoop_stop (mc : Int) (obs : List (List String))
    (allRooms : List (Room × String)) (s : Section) (u : Usage) (mi : Nat)
    (rem : Int) (h0 : rem ≤ 0) :
    ffdLoop mc obs allRooms s u mi rem = ([], u, mi, rem) := by
  rw [ffdLoop, dif_pos h0]

theorem ffdLoop_best_break1 (mc : Int) (obs : List (List String))
    (allRooms : List (Room × String)) (s : Section) (u : Usage) (mi : Nat)
    (rem av : Int) (rb : Room × String) (h0 : ¬rem ≤ 0)
    (hbest : bestFitScanAux obs mi rem u allRooms none = some (rb, av))
    (hg1 : u.get rb.1.no = 0 ∧ rem < mc ∧ rem = s.students)
    (hao : anyRoomHasStudents allRooms u = true) :
    ffdLoop mc obs allRooms s u mi rem = ([], u, mi, rem) := by
  rw [ffdLoop, dif_neg h0]
  split
  · rename_i rb1 av1 heq
    rw [hbest] at heq
    obtain ⟨h1, h2⟩ : rb1 = rb ∧ av1 = av := by
      have := heq; simp at this; exact ⟨this.1.symm, this.2.symm⟩
    subst h1
    rw [if_pos hg1, if_pos hao]
  · rename_i heq
    rw [hbest] at heq
    exact absurd heq (by simp)

theorem ffdLoop_best_place_exc (mc : Int) (obs : List (List String))
    (allRooms : List (Room × String)) (s : Section) (u : Usage) (mi : Nat)
    (rem av : Int) (rb : Room × String) (h0 : ¬rem ≤ 0)
    (hbest : bestFitScanAux obs mi rem u allRooms none = some (rb, av))
    (hg1 : u.get rb.1.no = 0 ∧ rem < mc ∧ rem = s.students)
    (hao : ¬anyRoomHasStudents allRooms u = true) :
    ffdLoop mc obs allRooms s u mi rem
      = ([mkPlacement s rb.1.no rem (u.get rb.1.no) false rb.2],
        u.set rb.1.no (u.get rb.1.no + rem),
        unlockStep obs (u.set rb.1.no (u.get rb.1.no + rem)) mi, 0) := by
  rw [ffdLoop, dif_neg h0]
  split
  · rename_i rb1 av1 heq
    rw [hbest] at heq
    obtain ⟨h1, h2⟩ : rb1 = rb ∧ av1 = av := by
      have := heq; simp at this; exact ⟨this.1.symm, this.2.symm⟩
    subst h1
    rw [if_pos hg1, if_neg hao]
  · rename_i heq
    rw [hbest] at heq
    exact absurd heq (by simp)

theorem ffdLoop_best_break2 (mc : Int) (obs : List (List String))
    (allRooms : List (Room × String)) (s : Section) (u : Usage) (mi : Nat)
    (rem av : Int) (rb : Room × String) (h0 : ¬rem ≤ 0)
    (hbest : bestFitScanAux obs mi rem u allRooms none = some (rb, av))
    (hg1 : ¬(u.get rb.1.no = 0 ∧ rem < mc ∧ rem = s.students))
    (hg2 : rem < mc ∧ rem ≠ s.students) :
    ffdLoop mc obs allRooms s u mi rem = ([], u, mi, rem) := by
  rw [ffdLoop, dif_neg h0]
  split
  · rename_i rb1 av1 heq
    rw [hbest] at heq
    obtain ⟨h1, h2⟩ : rb1 = rb ∧ av1 = av := by
      have := heq; simp at this; exact ⟨this.1.symm, this.2.symm⟩
    subst h1
    rw [if_neg hg1, if_pos hg2]
  · rename_i heq
    rw [hbest] at heq
    exact absurd heq (by simp)

theorem ffdLoop_best_place (mc : Int) (obs : List (List String))
    (allRooms : List (Room × String)) (s : Section) (u : Usage) (mi : Nat)
    (rem av : Int) (rb : Room × String) (h0 : ¬rem ≤ 0)
    (hbest : bestFitScanAux obs mi rem u allRooms none = some (rb, av))
    (hg1 : ¬(u.get rb.1.no = 0 ∧ rem < mc ∧ rem = s.students))
    (hg2 : ¬(rem < mc ∧ rem ≠ s.students)) :
    ffdLoop mc obs allRooms s u mi rem
      = ([mkPlacement s rb.1.no rem (u.get rb.1.no) false rb.2],
        u.set rb.1.no (u.get rb.1.no + rem),
        unlockStep obs (u.set rb.1.no (u.get rb.1.no + rem)) mi, 0) := by
  rw [ffdLoop, dif_neg h0]
  split
  · rename_i rb1 av1 heq
    rw [hbest] at heq
    obtain ⟨h1, h2⟩ : rb1 = rb ∧ av1 = av := by
      have := heq; simp at this; exact ⟨this.1.symm, this.2.symm⟩
    subst h1
    rw [if_neg hg1, if_neg hg2]
  · rename_i heq
    rw [hbest] at heq
    exact absurd heq (by simp)

theorem ffdLoop_firstfit (mc : Int) (obs : List (List String))
    (allRooms : List (Room × String)) (s : Section) (u : Usage) (mi : Nat)
    (rem t : Int) (rb : Room × String) (h0 : ¬rem ≤ 0)
    (hbest : bestFitScanAux obs mi rem u allRooms none = none)
    (hscan : firstFitScan mc s obs allRooms mi u rem allRooms = some (rb, t)) :
    ffdLoop mc obs allRooms s u mi rem
      = (mkPlacement s rb.1.no t (u.get rb.1.no) (t != s.students) rb.2
          :: (ffdLoop mc obs allRooms s (u.set rb.1.no (u.get rb.1.no + t))
            (unlockStep obs (u.set rb.1.no (u.get rb.1.no + t)) mi) (rem - t)).1,
        (ffdLoop mc obs allRooms s (u.set rb.1.no (u.get rb.1.no + t))
            (unlockStep obs (u.set rb.1.no (u.get rb.1.no + t)) mi) (rem - t)).2) := by
  rw [ffdLoop, dif_neg h0]
  split
  · rename_i rb1 av1 heq
    rw [hbest] at heq
    exact absurd heq (by simp)
  · split
    · rename_i rb1 t1 heq
      rw [hscan] at heq
      obtain ⟨h1, h2⟩ : rb1 = rb ∧ t1 = t := by
        have := heq; simp at this; exact ⟨this.1.symm, this.2.symm⟩
      subst h1; subst h2
      rfl
    · rename_i heq
      rw [hscan] at heq
      exact absurd heq (by simp)

theorem ffdLoop_nofit (mc : Int) (obs : List (List String))
    (allRooms : List (Room × String)) (s : Section) (u : Usage) (mi : Nat)
    (rem : Int) (h0 : ¬rem ≤ 0)
    (hbest : bestFitScanAux obs mi rem u allRooms none = none)
    (hscan : firstFitScan mc s obs allRooms mi u rem allRooms = none) :
    ffdLoop mc obs allRooms s u mi rem = ([], u, mi, rem) := by
  rw [ffdLoop, dif_neg h0]
  split
  · rename_i rb1 av1 heq
    rw [hbest] at heq
    exact absurd heq (by simp)
  · split
    · rename_i rb1 t1 heq
      rw [hscan] at heq
      exact absurd heq (by simp)
    · rfl

/-- What the best-fit scan returns: a room from the scanned list (or the
carried accumulator) whose spare can hold the whole remainder. -/
theorem bestFitScanAux_mem (obs : List (List String)) (mi : Nat) (rem : Int)
    (u : Usage) :
    ∀ (rooms : List (Room × String)) (acc : Option ((Room × String) × Int))
      (rb : Room × String) (av : Int),
    bestFitScanAux obs mi rem u rooms acc = some (rb, av) →
    acc = some (rb, av) ∨
      (rb ∈ rooms ∧ av = rb.1.capacity - u.get rb.1.no ∧ rem ≤ av) := by
  intro rooms
  induction rooms with
  | nil =>
    intro acc rb av h
    simp [bestFitScanAux] at h
    exact Or.inl (by rw [h])
  | cons rb0 rest ih =>
    intro acc rb av h
    simp only [bestFitScanAux] at h
    split at h
    · rcases ih acc rb av h with h1 | h1
      · exact Or.inl h1
      · exact Or.inr ⟨List.mem_cons_of_mem _ h1.1, h1.2⟩
    · split at h
      · rename_i hcond
        rcases ih _ rb av h with h1 | h1
        · simp at h1
          obtain ⟨hrb, hav⟩ := h1
          subst hrb
          refine Or.inr ⟨List.mem_cons_self _ _, hav.symm, ?_⟩
          rw [← hav]
          exact hcond.1
        · exact Or.inr ⟨List.mem_cons_of_mem _ h1.1, h1.2⟩
      · rcases ih acc rb av h with h1 | h1
        · exact Or.inl h1
        · exact Or.inr ⟨List.mem_cons_of_mem _ h1.1, h1.2⟩

/-- What the first-fit scan returns: a room from the scanned list with
positive spare, and the chunk `min(available, remaining)`. -/
theorem firstFitScan_mem (mc : Int) (s : Section) (obs : List (List String))
    (allRooms : List (Room × String)) (mi : Nat) (u : Usage) (rem : Int) :
    ∀ (rooms : List (Room × String)) (rb : Room × String) (t : Int),
    firstFitScan mc s obs allRooms mi u rem rooms = some (rb, t) →
    rb ∈ rooms ∧ 0 < rb.1.capacity - u.get rb.1.no ∧
      t = min (rb.1.capacity - u.get rb.1.no) rem := by
  intro rooms
  induction rooms with
  | nil => intro rb t h; simp [firstFitScan] at h
  | cons rb0 rest ih =>
    intro rb t h
    simp only [firstFitScan] at h
    split at h
    · obtain ⟨h1, h2⟩ := ih rb t h
      exact ⟨List.mem_cons_of_mem _ h1, h2⟩
    · split at h
      · obtain ⟨h1, h2⟩ := ih rb t h
        exact ⟨List.mem_cons_of_mem _ h1, h2⟩
      · rename_i hav
        split at h
        · split at h
          · obtain ⟨h1, h2⟩ := ih rb t h
            exact ⟨List.mem_cons_of_mem _ h1, h2⟩
          · simp at h
            refine ⟨h.1 ▸ List.mem_cons_self _ _, ?_, ?_⟩
            · rw [← h.1]; omega
            · rw [← h.1]; exact h.2.symm
        · split at h
          · obtain ⟨h1, h2⟩ := ih rb t h
            exact ⟨List.mem_cons_of_mem _ h1, h2⟩
          · simp at h
            refine ⟨h.1 ▸ List.mem_cons_self _ _, ?_, ?_⟩
            · rw [← h.1]; omega
            · rw [← h.1]; exact h.2.symm

/-- The unlock cursor never moves backwards, and by at most one step. -/
theorem unlockStep_ge (obs : List (List String)) (u : Usage) (mi : Nat) :
    mi ≤ unlockStep obs u mi ∧ unlockStep obs u mi ≤ mi + 1 := by
  cases hg : obs.get? mi with
  | none => simp only [unlockStep, hg]; omega
  | some blk =>
    simp only [unlockStep, hg]
    by_cases hc : (blk.all fun rn => decide (0 < u.get rn)) = true ∧ mi < obs.length - 1
    · rw [if_pos hc]; omega
    · rw [if_neg hc]; omega

/-- The full placement performed by the best-fit pass preserves the
invariants of the best-fit/first-fit loop. -/
theorem ffdPlaceFull_spec (mc : Int) (obs : List (List String))
    (allRooms : List (Room × String)) (s : Section) (roomBlocks : List RoomBlock)
    (hcapAll : ∀ rb ∈ allRooms, capacityOf roomBlocks rb.1.no = rb.1.capacity)
    (u : Usage) (mi : Nat) (rem av : Int) (rb : Room × String)
    (h0 : ¬rem ≤ 0)
    (hbest : bestFitScanAux obs mi rem u allRooms none = some (rb, av))
    (hucap : ∀ no, u.hasKey no = true → u.get no ≤ capacityOf roomBlocks no)
    (hunn : ∀ no, 0 ≤ u.get no) :
    (∀ a ∈ ([mkPlacement s rb.1.no rem (u.get rb.1.no) false rb.2],
        u.set rb.1.no (u.get rb.1.no + rem),
        unlockStep obs (u.set rb.1.no (u.get rb.1.no + rem)) mi, (0 : Int)).1,
        a.branch = s.branch ∧ a.sec = s.sec ∧ a.error = false ∧ 0 < a.students ∧
        (∃ rb ∈ allRooms, a.roomNo = rb.1.no) ∧
        0 < capacityOf roomBlocks a.roomNo) ∧
    sumStudents ([mkPlacement s rb.1.no rem (u.get rb.1.no) false rb.2],
        u.set rb.1.no (u.get rb.1.no + rem),
        unlockStep obs (u.set rb.1.no (u.get rb.1.no + rem)) mi, (0 : Int)).1
      = rem - ([mkPlacement s rb.1.no rem (u.get rb.1.no) false rb.2],
        u.set rb.1.no (u.get rb.1.no + rem),
        unlockStep obs (u.set rb.1.no (u.get rb.1.no + rem)) mi, (0 : Int)).2.2.2 ∧
    (0 ≤ rem → 0 ≤ ([mkPlacement s rb.1.no rem (u.get rb.1.no) false rb.2],
        u.set rb.1.no (u.get rb.1.no + rem),
        unlockStep obs (u.set rb.1.no (u.get rb.1.no + rem)) mi, (0 : Int)).2.2.2) ∧
    (∀ no, Usage.get ([mkPlacement s rb.1.no rem (u.get rb.1.no) false rb.2],
        u.set rb.1.no (u.get rb.1.no + rem),
        unlockStep obs (u.set rb.1.no (u.get rb.1.no + rem)) mi, (0 : Int)).2.1 no
      = u.get no + roomSum no ([mkPlacement s rb.1.no rem (u.get rb.1.no) false rb.2],
        u.set rb.1.no (u.get rb.1.no + rem),
        unlockStep obs (u.set rb.1.no (u.get rb.1.no + rem)) mi, (0 : Int)).1) ∧
    (∀ no, Usage.hasKey ([mkPlacement s rb.1.no rem (u.get rb.1.no) false rb.2],
        u.set rb.1.no (u.get rb.1.no + rem),
        unlockStep obs (u.set rb.1.no (u.get rb.1.no + rem)) mi, (0 : Int)).2.1 no = true ↔
      (u.hasKey no = true ∨
        ∃ a ∈ ([mkPlacement s rb.1.no rem (u.get rb.1.no) false rb.2],
          u.set rb.1.no (u.get rb.1.no + rem),
          unlockStep obs (u.set rb.1.no (u.get rb.1.no + rem)) mi, (0 : Int)).1,
          a.roomNo = no)) ∧
    mi ≤ ([mkPlacement s rb.1.no rem (u.get rb.1.no) false rb.2],
        u.set rb.1.no (u.get rb.1.no + rem),
        unlockStep obs (u.set rb.1.no (u.get rb.1.no + rem)) mi, (0 : Int)).2.2.1 ∧
    ContigFrom u ([mkPlacement s rb.1.no rem (u.get rb.1.no) false rb.2],
        u.set rb.1.no (u.get rb.1.no + rem),
        unlockStep obs (u.set rb.1.no (u.get rb.1.no + rem)) mi, (0 : Int)).1 ∧
    (∀ no, Usage.hasKey ([mkPlacement s rb.1.no rem (u.get rb.1.no) false rb.2],
        u.set rb.1.no (u.get rb.1.no + rem),
        unlockStep obs (u.set rb.1.no (u.get rb.1.no + rem)) mi, (0 : Int)).2.1 no = true →
      Usage.get ([mkPlacement s rb.1.no rem (u.get rb.1.no) false rb.2],
        u.set rb.1.no (u.get rb.1.no + rem),
        unlockStep obs (u.set rb.1.no (u.get rb.1.no + rem)) mi, (0 : Int)).2.1 no
        ≤ capacityOf roomBlocks no) ∧
    (∀ no, 0 ≤ Usage.get ([mkPlacement s rb.1.no rem (u.get rb.1.no) false rb.2],
        u.set rb.1.no (u.get rb.1.no + rem),
        unlockStep obs (u.set rb.1.no (u.get rb.1.no + rem)) mi, (0 : Int)).2.1 no) := by
  rcases bestFitScanAux_mem obs mi rem u allRooms none rb av hbest with hacc | ⟨hmem, hav, hremav⟩
  · exact absurd hacc (by simp)
  · have hcapthis : capacityOf roomBlocks rb.1.no = rb.1.capacity := hcapAll rb hmem
    have hcappos : 0 < capacityOf roomBlocks rb.1.no := by
      have := hunn rb.1.no
      omega
    refine ⟨?_, ?_, ?_, ?_, ?_, ?_, ?_, ?_, ?_⟩
    · intro a ha
      simp only [List.mem_singleton] at ha
      rw [ha]
      exact ⟨rfl, rfl, rfl, by rw [mkPlacement_students]; omega,
        ⟨rb, hmem, rfl⟩, by rw [mkPlacement_roomNo]; exact hcappos⟩
    · simp [sumStudents, mkPlacement_students]
    · intro _; exact le_refl 0
    · intro no
      rw [roomSum_cons, roomSum_nil]
      by_cases hno : no = rb.1.no
      · subst hno
        rw [Usage.get_set_self,
          if_pos ⟨mkPlacement_error s rb.1.no _ _ _ rb.2, mkPlacement_roomNo s rb.1.no _ _ _ rb.2⟩,
          mkPlacement_students]
        ring
      · rw [Usage.get_set_ne _ _ _ _ (fun hh => hno hh.symm),
          if_neg (fun hh => hno ((mkPlacement_roomNo s rb.1.no _ _ _ rb.2) ▸ hh.2).symm)]
        ring
    · intro no
      by_cases hno : no = rb.1.no
      · subst hno
        rw [Usage.hasKey_set_self]
        constructor
        · intro _
          exact Or.inr ⟨mkPlacement s rb.1.no rem (u.get rb.1.no) false rb.2,
            List.mem_cons_self _ _, mkPlacement_roomNo s rb.1.no _ _ _ rb.2⟩
        · intro _; rfl
      · rw [Usage.hasKey_set_ne _ _ _ _ (fun hh => hno hh.symm)]
        constructor
        · intro h; exact Or.inl h
        · rintro (h | ⟨a, ha, hano⟩)
          · exact h
          · simp only [List.mem_singleton] at ha
            exact absurd ((ha ▸ hano : (mkPlacement s rb.1.no rem (u.get rb.1.no)
                false rb.2).roomNo = no))
              (by rw [mkPlacement_roomNo]; exact fun hh => hno hh.symm)
    · exact (unlockStep_ge obs _ mi).1
    · refine contigFrom_singleton u _ ?_ ?_
      · rw [mkPlacement_startSeat, mkPlacement_roomNo]
      · rw [mkPlacement_endSeat, mkPlacement_roomNo, mkPlacement_students]
    · intro no hk
      by_cases hno : no = rb.1.no
      · subst hno
        rw [Usage.get_set_self, hcapthis]
        omega
      · rw [Usage.get_set_ne _ _ _ _ (fun hh => hno hh.symm)]
        rw [Usage.hasKey_set_ne _ _ _ _ (fun hh => hno hh.symm)] at hk
        exact hucap no hk
    · intro no
      by_cases hno : no = rb.1.no
      · subst hno
        rw [Usage.get_set_self]
        have := hunn rb.1.no
        omega
      · rw [Usage.get_set_ne _ _ _ _ (fun hh => hno hh.symm)]
        exact hunn no

/-- Invariants of the per-section while-loop of the best-fit/first-fit
strategy. -/
theorem ffdLoop_spec (mc : Int) (obs : List (List String))
    (allRooms : List (Room × String)) (s : Section) (roomBlocks : List RoomBlock)
    (hcapAll : ∀ rb ∈ allRooms, capacityOf roomBlocks rb.1.no = rb.1.capacity)
    (u : Usage) (mi : Nat) (rem : Int) :
    (∀ no, u.hasKey no = true → u.get no ≤ capacityOf roomBlocks no) →
    (∀ no, 0 ≤ u.get no) →
    (∀ a ∈ (ffdLoop mc obs allRooms s u mi rem).1,
        a.branch = s.branch ∧ a.sec = s.sec ∧ a.error = false ∧ 0 < a.students ∧
        (∃ rb ∈ allRooms, a.roomNo = rb.1.no) ∧
        0 < capacityOf roomBlocks a.roomNo) ∧
    sumStudents (ffdLoop mc obs allRooms s u mi rem).1
      = rem - (ffdLoop mc obs allRooms s u mi rem).2.2.2 ∧
    (0 ≤ rem → 0 ≤ (ffdLoop mc obs allRooms s u mi rem).2.2.2) ∧
    (∀ no, Usage.get (ffdLoop mc obs allRooms s u mi rem).2.1 no
      = u.get no + roomSum no (ffdLoop mc obs allRooms s u mi rem).1) ∧
    (∀ no, Usage.hasKey (ffdLoop mc obs allRooms s u mi rem).2.1 no = true ↔
      (u.hasKey no = true ∨ ∃ a ∈ (ffdLoop mc obs allRooms s u mi rem).1, a.roomNo = no)) ∧
    mi ≤ (ffdLoop mc obs allRooms s u mi rem).2.2.1 ∧
    ContigFrom u (ffdLoop mc obs allRooms s u mi rem).1 ∧
    (∀ no, Usage.hasKey (ffdLoop mc obs allRooms s u mi rem).2.1 no = true →
      Usage.get (ffdLoop mc obs allRooms s u mi rem).2.1 no ≤ capacityOf roomBlocks no) ∧
    (∀ no, 0 ≤ Usage.get (ffdLoop mc obs allRooms s u mi rem).2.1 no) := by
  induction u, mi, rem using ffdLoop.induct mc obs allRooms s with
  | case1 u mi rem h0 =>
    intro hucap hunn
    rw [ffdLoop_stop mc obs allRooms s u mi rem h0]
    refine ⟨by simp, by simp [sumStudents], fun h => h, ?_, ?_, le_refl mi,
      contigFrom_nil u, hucap, hunn⟩
    · intro no; simp [roomSum, sumStudents]
    · intro no; simp
  | case2 u mi rem h0 rb av hbest used hg1 hao =>
    intro hucap hunn
    rw [ffdLoop_best_break1 mc obs allRooms s u mi rem av rb h0 hbest hg1 hao]
    refine ⟨by simp, by simp [sumStudents], fun h => h, ?_, ?_, le_refl mi,
      contigFrom_nil u, hucap, hunn⟩
    · intro no; simp [roomSum, sumStudents]
    · intro no; simp
  | case3 u mi rem h0 rb av hbest used hg1 hao =>
    intro hucap hunn
    rw [ffdLoop_best_place_exc mc obs allRooms s u mi rem av rb h0 hbest hg1 hao]
    exact ffdPlaceFull_spec mc obs allRooms s roomBlocks hcapAll u mi rem av rb
      h0 hbest hucap hunn
  | case4 u mi rem h0 rb av hbest used hg1 hg2 =>
    intro hucap hunn
    rw [ffdLoop_best_break2 mc obs allRooms s u mi rem av rb h0 hbest hg1 hg2]
    refine ⟨by simp, by simp [sumStudents], fun h => h, ?_, ?_, le_refl mi,
      contigFrom_nil u, hucap, hunn⟩
    · intro no; simp [roomSum, sumStudents]
    · intro no; simp
  | case5 u mi rem h0 rb av hbest used hg1 hg2 =>
    intro hucap hunn
    rw [ffdLoop_best_place mc obs allRooms s u mi rem av rb h0 hbest hg1 hg2]
    exact ffdPlaceFull_spec mc obs allRooms s roomBlocks hcapAll u mi rem av rb
      h0 hbest hucap hunn
  | case6 u mi rem h0 hbest rb t hscan used usage' maxIdx' ih =>
    intro hucap hunn
    obtain ⟨hmem, hav, ht⟩ :=
      firstFitScan_mem mc s obs allRooms mi u rem allRooms rb t hscan
    have htpos : 0 < t := by rw [ht]; exact lt_min hav (by omega)
    have htle : t ≤ rem := by rw [ht]; exact min_le_right _ _
    have hcapthis : capacityOf roomBlocks rb.1.no = rb.1.capacity := hcapAll rb hmem
    have hunn' : ∀ no, 0 ≤ Usage.get (u.set rb.1.no (u.get rb.1.no + t)) no := by
      intro no
      by_cases hno : no = rb.1.no
      · subst hno
        rw [Usage.get_set_self]
        have := hunn rb.1.no
        omega
      · rw [Usage.get_set_ne _ _ _ _ (fun hh => hno hh.symm)]
        exact hunn no
    have hucap' : ∀ no, Usage.hasKey (u.set rb.1.no (u.get rb.1.no + t)) no = true →
        Usage.get (u.set rb.1.no (u.get rb.1.no + t)) no ≤ capacityOf roomBlocks no := by
      intro no hk
      by_cases hno : no = rb.1.no
      · subst hno
        rw [Usage.get_set_self, hcapthis]
        have ht' : t ≤ rb.1.capacity - u.get rb.1.no := by
          rw [ht]; exact min_le_left _ _
        omega
      · rw [Usage.get_set_ne _ _ _ _ (fun hh => hno hh.symm)]
        rw [Usage.hasKey_set_ne _ _ _ _ (fun hh => hno hh.symm)] at hk
        exact hucap no hk
    obtain ⟨ia, ib, ib', ic, idd, ie, iff', ig, ihh⟩ := ih hucap' hunn'
    rw [ffdLoop_firstfit mc obs allRooms s u mi rem t rb h0 hbest hscan]
    have hcappos : 0 < capacityOf roomBlocks rb.1.no := by
      rw [hcapthis]
      have := hunn rb.1.no
      omega
    refine ⟨?_, ?_, ?_, ?_, ?_, ?_, ?_, ig, ihh⟩
    · intro a ha
      rcases List.mem_cons.mp ha with h1 | h1
      · rw [h1]
        exact ⟨rfl, rfl, rfl, by rw [mkPlacement_students]; omega,
          ⟨rb, hmem, rfl⟩, by rw [mkPlacement_roomNo]; exact hcappos⟩
      · exact ia a h1
    · rw [sumStudents_cons, ib, mkPlacement_students]
      show t + ((rem - t) - (ffdLoop mc obs allRooms s usage' maxIdx' (rem - t)).2.2.2)
          = rem - (ffdLoop mc obs allRooms s usage' maxIdx' (rem - t)).2.2.2
      ring
    · intro _
      exact ib' (by omega)
    · intro no
      rw [ic no, roomSum_cons]
      by_cases hno : no = rb.1.no
      · subst hno
        rw [Usage.get_set_self,
          if_pos ⟨mkPlacement_error s rb.1.no _ _ _ rb.2, mkPlacement_roomNo s rb.1.no _ _ _ rb.2⟩,
          mkPlacement_students]
        ring
      · rw [Usage.get_set_ne _ _ _ _ (fun hh => hno hh.symm),
          if_neg (fun hh => hno ((mkPlacement_roomNo s rb.1.no _ _ _ rb.2) ▸ hh.2).symm)]
        ring
    · intro no
      rw [idd no]
      by_cases hno : no = rb.1.no
      · subst hno
        rw [Usage.hasKey_set_self]
        constructor
        · intro _
          exact Or.inr ⟨mkPlacement s rb.1.no t (u.get rb.1.no) (t != s.students) rb.2,
            List.mem_cons_self _ _, mkPlacement_roomNo s rb.1.no _ _ _ rb.2⟩
        · intro _; exact Or.inl rfl
      · rw [Usage.hasKey_set_ne _ _ _ _ (fun hh => hno hh.symm)]
        constructor
        · rintro (h | ⟨a, ha, hano⟩)
          · exact Or.inl h
          · exact Or.inr ⟨a, List.mem_cons_of_mem _ ha, hano⟩
        · rintro (h | ⟨a, ha, hano⟩)
          · exact Or.inl h
          · rcases List.mem_cons.mp ha with h1 | h1
            · exact absurd ((h1 ▸ hano : (mkPlacement s rb.1.no t (u.get rb.1.no)
                (t != s.students) rb.2).roomNo = no))
                (by rw [mkPlacement_roomNo]; exact fun hh => hno hh.symm)
            · exact Or.inr ⟨a, h1, hano⟩
    · exact le_trans (unlockStep_ge obs (u.set rb.1.no (u.get rb.1.no + t)) mi).1 ie
    · have hsing : ContigFrom u [mkPlacement s rb.1.no t (u.get rb.1.no)
          (t != s.students) rb.2] := by
        refine contigFrom_singleton u _ ?_ ?_
        · rw [mkPlacement_startSeat, mkPlacement_roomNo]
        · rw [mkPlacement_endSeat, mkPlacement_roomNo, mkPlacement_students]
      have happ := contigFrom_append u (u.set rb.1.no (u.get rb.1.no + t))
        [mkPlacement s rb.1.no t (u.get rb.1.no) (t != s.students) rb.2]
        (ffdLoop mc obs allRooms s (u.set rb.1.no (u.get rb.1.no + t))
          (unlockStep obs (u.set rb.1.no (u.get rb.1.no + t)) mi) (rem - t)).1
        hsing iff' ?_
      · simpa using happ
      · intro no
        rw [roomSum_cons, roomSum_nil]
        by_cases hno : no = rb.1.no
        · subst hno
          rw [Usage.get_set_self,
            if_pos ⟨mkPlacement_error s rb.1.no _ _ _ rb.2, mkPlacement_roomNo s rb.1.no _ _ _ rb.2⟩,
            mkPlacement_students]
          ring
        · rw [Usage.get_set_ne _ _ _ _ (fun hh => hno hh.symm),
            if_neg (fun hh => hno ((mkPlacement_roomNo s rb.1.no _ _ _ rb.2) ▸ hh.2).symm)]
          ring
  | case7 u mi rem h0 hbest hscan =>
    intro hucap hunn
    rw [ffdLoop_nofit mc obs allRooms s u mi rem h0 hbest hscan]
    refine ⟨by simp, by simp [sumStudents], fun h => h, ?_, ?_, le_refl mi,
      contigFrom_nil u, hucap, hunn⟩
    · intro no; simp [roomSum, sumStudents]
    · intro no; simp

/-- The `maxBlockIdx` cursor of the per-section FFD loop never decreases. -/
theorem ffdLoop_cursor_mono (mc : Int) (obs : List (List String))
    (allRooms : List (Room × String)) (s : Section) :
    ∀ (u : Usage) (mi : Nat) (rem : Int),
    mi ≤ (ffdLoop mc obs allRooms s u mi rem).2.2.1 := by
  intro u mi rem
  induction u, mi, rem using ffdLoop.induct mc obs allRooms s with
  | case1 u mi rem h0 =>
    rw [ffdLoop_stop mc obs allRooms s u mi rem h0]
  | case2 u mi rem h0 rb av hbest used hg1 hao =>
    rw [ffdLoop_best_break1 mc obs allRooms s u mi rem av rb h0 hbest hg1 hao]
  | case3 u mi rem h0 rb av hbest used hg1 hao =>
    rw [ffdLoop_best_place_exc mc obs allRooms s u mi rem av rb h0 hbest hg1 hao]
    exact (unlockStep_ge obs _ mi).1
  | case4 u mi rem h0 rb av hbest used hg1 hg2 =>
    rw [ffdLoop_best_break2 mc obs allRooms s u mi rem av rb h0 hbest hg1 hg2]
  | case5 u mi rem h0 rb av hbest used hg1 hg2 =>
    rw [ffdLoop_best_place mc obs allRooms s u mi rem av rb h0 hbest hg1 hg2]
    exact (unlockStep_ge obs _ mi).1
  | case6 u mi rem h0 hbest rb t hscan used usage' maxIdx' ih =>
    rw [ffdLoop_firstfit mc obs allRooms s u mi rem t rb h0 hbest hscan]
    exact le_trans (unlockStep_ge obs (u.set rb.1.no (u.get rb.1.no + t)) mi).1 ih
  | case7 u mi rem h0 hbest hscan =>
    rw [ffdLoop_nofit mc obs allRooms s u mi rem h0 hbest hscan]

/-- The `maxBlockIdx` cursor of the outer FFD loop never decreases. -/
theorem ffdSections_cursor_mono (mc : Int) (obs : List (List String))
    (allRooms : List (Room × String)) :
    ∀ (secs : List Section) (u : Usage) (mi : Nat),
    mi ≤ (ffdSections mc obs allRooms secs u mi).2.2 := by
  intro secs
  induction secs with
  | nil => intro u mi; exact le_refl mi
  | cons s rest ih =>
    intro u mi
    exact le_trans (ffdLoop_cursor_mono mc obs allRooms s u mi s.students)
      (ih (ffdLoop mc obs allRooms s u mi s.students).2.1
        (ffdLoop mc obs allRooms s u mi s.students).2.2.1)

/-- Processing a concatenated section list runs the suffix from the state
(usage and cursor) the prefix ended in. -/
theorem ffdSections_append (mc : Int) (obs : List (List String))
    (allRooms : List (Room × String)) :
    ∀ (l₁ l₂ : List Section) (u : Usage) (mi : Nat),
    ffdSections mc obs allRooms (l₁ ++ l₂) u mi
      = ((ffdSections mc obs allRooms l₁ u mi).1
          ++ (ffdSections mc obs allRooms l₂
              (ffdSections mc obs allRooms l₁ u mi).2.1
              (ffdSections mc obs allRooms l₁ u mi).2.2).1,
        (ffdSections mc obs allRooms l₂
            (ffdSections mc obs allRooms l₁ u mi).2.1
            (ffdSections mc obs allRooms l₁ u mi).2.2).2) := by
  intro l₁
  induction l₁ with
  | nil => intro l₂ u mi; rfl
  | cons s rest ih =>
    intro l₂ u mi
    simp only [List.cons_append, ffdSections, List.append_eq]
    rw [ih l₂ (ffdLoop mc obs allRooms s u mi s.students).2.1
      (ffdLoop mc obs allRooms s u mi s.students).2.2.1]
    simp [List.append_assoc]

/-- The outer FFD loop: conservation by identity, usage/records
correspondence, record shapes, cursor monotonicity, contiguity, and the
capacity and nonnegativity invariants. -/
theorem ffdSections_spec (mc : Int) (obs : List (List String))
    (allRooms : List (Room × String)) (roomBlocks : List RoomBlock)
    (hcapAll : ∀ rb ∈ allRooms, capacityOf roomBlocks rb.1.no = rb.1.capacity) :
    ∀ (secs : List Section) (u : Usage) (mi : Nat),
    (∀ s ∈ secs, 0 < s.students) →
    (∀ no, u.hasKey no = true → u.get no ≤ capacityOf roomBlocks no) →
    (∀ no, 0 ≤ u.get no) →
    (∀ i, identSum i (ffdSections mc obs allRooms secs u mi).1 = poolMass i secs) ∧
    (∀ no, Usage.get (ffdSections mc obs allRooms secs u mi).2.1 no
      = u.get no + roomSum no (ffdSections mc obs allRooms secs u mi).1) ∧
    (∀ no, Usage.hasKey (ffdSections mc obs allRooms secs u mi).2.1 no = true ↔
      (u.hasKey no = true ∨ ∃ a ∈ (ffdSections mc obs allRooms secs u mi).1,
        a.error = false ∧ a.roomNo = no)) ∧
    (∀ a ∈ (ffdSections mc obs allRooms secs u mi).1, a.error = false →
      0 < a.students ∧ (∃ rb ∈ allRooms, a.roomNo = rb.1.no) ∧
      0 < capacityOf roomBlocks a.roomNo) ∧
    (∀ a ∈ (ffdSections mc obs allRooms secs u mi).1, a.error = true →
      a.roomNo = "NO SPACE") ∧
    ContigFrom u (ffdSections mc obs allRooms secs u mi).1 ∧
    (∀ no, Usage.hasKey (ffdSections mc obs allRooms secs u mi).2.1 no = true →
      Usage.get (ffdSections mc obs allRooms secs u mi).2.1 no
        ≤ capacityOf roomBlocks no) ∧
    (∀ no, 0 ≤ Usage.get (ffdSections mc obs allRooms secs u mi).2.1 no) := by
  intro secs
  induction secs with
  | nil =>
    intro u mi _ hucap hunn
    refine ⟨?_, ?_, ?_, ?_, ?_, contigFrom_nil u, hucap, hunn⟩
    · intro i; simp [ffdSections, identSum, sumStudents, poolMass]
    · intro no; simp [ffdSections, roomSum, sumStudents]
    · intro no; simp [ffdSections]
    · intro a ha; simp [ffdSections] at ha
    · intro a ha; simp [ffdSections] at ha
  | cons s rest ih =>
    intro u mi hpos hucap hunn
    have hspos : 0 < s.students := hpos s (List.mem_cons_self _ _)
    have hrest : ∀ x ∈ rest, 0 < x.students :=
      fun x hx => hpos x (List.mem_cons_of_mem _ hx)
    obtain ⟨fa, fb, fc, fd, fe, ff2, fg, fh, fi⟩ :=
      ffdLoop_spec mc obs allRooms s roomBlocks hcapAll u mi s.students hucap hunn
    have heq : ffdSections mc obs allRooms (s :: rest) u mi
        = ((ffdLoop mc obs allRooms s u mi s.students).1
            ++ (if 0 < (ffdLoop mc obs allRooms s u mi s.students).2.2.2
                then [mkError s (ffdLoop mc obs allRooms s u mi s.students).2.2.2]
                else [])
            ++ (ffdSections mc obs allRooms rest
                (ffdLoop mc obs allRooms s u mi s.students).2.1
                (ffdLoop mc obs allRooms s u mi s.students).2.2.1).1,
          (ffdSections mc obs allRooms rest
            (ffdLoop mc obs allRooms s u mi s.students).2.1
            (ffdLoop mc obs allRooms s u mi s.students).2.2.1).2) := rfl
    rw [heq]
    set batch := (ffdLoop mc obs allRooms s u mi s.students).1 with hbatch
    set rem' := (ffdLoop mc obs allRooms s u mi s.students).2.2.2 with hrem'
    set u' := (ffdLoop mc obs allRooms s u mi s.students).2.1 with hu'
    set mi' := (ffdLoop mc obs allRooms s u mi s.students).2.2.1 with hmi'
    set errs := (if 0 < rem' then [mkError s rem'] else []) with herrs
    obtain ⟨ia, ib, ic, idd, ie, jg, jh, ji⟩ := ih u' mi' hrest fh fi
    have hrem'nn : 0 ≤ rem' := fc (le_of_lt hspos)
    have hbatchIdent : ∀ a ∈ batch, recIdent a = identOf s := by
      intro a ha
      obtain ⟨h1, h2, _⟩ := fa a ha
      simp [recIdent, identOf, h1, h2]
    have herrsIdent : ∀ a ∈ errs, recIdent a = identOf s := by
      intro a ha
      rw [herrs] at ha
      by_cases hr : 0 < rem'
      · rw [if_pos hr] at ha
        simp at ha
        simp [ha, recIdent, identOf, mkError]
      · rw [if_neg hr] at ha; simp at ha
    have herrsSum : sumStudents errs = (if 0 < rem' then rem' else 0) := by
      rw [herrs]
      by_cases hr : 0 < rem'
      · simp [if_pos hr, sumStudents]
      · simp [if_neg hr, sumStudents]
    have herrsRoomZero : ∀ no, roomSum no errs = 0 := by
      intro no
      rw [herrs]
      by_cases hr : 0 < rem'
      · simp [if_pos hr, roomSum, sumStudents]
      · simp [if_neg hr, roomSum, sumStudents]
    have herrsAllError : ∀ a ∈ errs, a.error = true := by
      intro a ha
      rw [herrs] at ha
      by_cases hr : 0 < rem'
      · rw [if_pos hr] at ha
        simp at ha
        rw [ha]; rfl
      · rw [if_neg hr] at ha; simp at ha
    refine ⟨?_, ?_, ?_, ?_, ?_, ?_, jh, ji⟩
    · intro i
      rw [identSum_append, identSum_append, ia i, poolMass_cons,
        identSum_of_uniform i (identOf s) batch hbatchIdent,
        identSum_of_uniform i (identOf s) errs herrsIdent, herrsSum, fb]
      by_cases hident : identOf s = i
      · simp only [if_pos hident]
        by_cases hr : 0 < rem'
        · rw [if_pos hr]; omega
        · rw [if_neg hr]; omega
      · simp only [if_neg hident]
        omega
    · intro no
      rw [ib no, fd no, roomSum_append, roomSum_append, herrsRoomZero]
      omega
    · intro no
      rw [ic no, fe no]
      constructor
      · rintro ((h | ⟨a, ha, hno⟩) | ⟨a, ha, he, hno⟩)
        · exact Or.inl h
        · refine Or.inr ⟨a, ?_, (fa a ha).2.2.1, hno⟩
          simp only [List.mem_append, or_assoc]
          exact Or.inl ha
        · refine Or.inr ⟨a, ?_, he, hno⟩
          simp only [List.mem_append, or_assoc]
          exact Or.inr (Or.inr ha)
      · rintro (h | ⟨a, ha, he, hno⟩)
        · exact Or.inl (Or.inl h)
        · simp only [List.mem_append, or_assoc] at ha
          rcases ha with ha | ha | ha
          · exact Or.inl (Or.inr ⟨a, ha, hno⟩)
          · exfalso
            have := herrsAllError a ha
            rw [this] at he
            simp at he
          · exact Or.inr ⟨a, ha, he, hno⟩
    · intro a ha he
      simp only [List.mem_append, or_assoc] at ha
      rcases ha with ha | ha | ha
      · obtain ⟨_, _, _, h4, h5, h6⟩ := fa a ha
        exact ⟨h4, h5, h6⟩
      · exfalso
        have := herrsAllError a ha
        rw [this] at he
        simp at he
      · exact idd a ha he
    · intro a ha he
      simp only [List.mem_append, or_assoc] at ha
      rcases ha with ha | ha | ha
      · have := (fa a ha).2.2.1
        rw [this] at he
        simp at he
      · rw [herrs] at ha
        by_cases hr : 0 < rem'
        · rw [if_pos hr] at ha
          simp at ha
          rw [ha]
          rfl
        · rw [if_neg hr] at ha; simp at ha
      · exact ie a ha he
    · refine contigFrom_append u u' (batch ++ errs) _
        (contigFrom_append u u' batch errs fg
          (contigFrom_all_error u' errs herrsAllError) fd) jg ?_
      intro no
      rw [roomSum_append, herrsRoomZero no, add_zero]
      exact fd no

/-! ## Contiguity, capacity and nonnegativity for the greedy strategies -/

/-- The greedy room loop: contiguity relative to the incoming usage,
preservation of the capacity and nonnegativity invariants, and positivity
of the capacity of every referenced room. -/
theorem greedyRooms_spec2 (mc : Int) (s : Section) (allRooms : List (Room × String))
    (roomBlocks : List RoomBlock)
    (hcapAll : ∀ rb ∈ allRooms, capacityOf roomBlocks rb.1.no = rb.1.capacity) :
    ∀ (rooms : List (Room × String)) (u : Usage) (rem : Int), 0 ≤ rem →
    (∀ rb ∈ rooms, rb ∈ allRooms) →
    (∀ no, u.hasKey no = true → u.get no ≤ capacityOf roomBlocks no) →
    (∀ no, 0 ≤ u.get no) →
    ContigFrom u (greedyRooms mc s allRooms rooms u rem).1 ∧
    (∀ no, Usage.hasKey (greedyRooms mc s allRooms rooms u rem).2.1 no = true →
      Usage.get (greedyRooms mc s allRooms rooms u rem).2.1 no
        ≤ capacityOf roomBlocks no) ∧
    (∀ no, 0 ≤ Usage.get (greedyRooms mc s allRooms rooms u rem).2.1 no) ∧
    (∀ a ∈ (greedyRooms mc s allRooms rooms u rem).1,
      0 < capacityOf roomBlocks a.roomNo) := by
  intro rooms
  induction rooms with
  | nil =>
    intro u rem h0 hsub hucap hunn
    refine ⟨contigFrom_nil u, hucap, hunn, ?_⟩
    intro a ha
    simp [greedyRooms] at ha
  | cons rb rest ih =>
    intro u rem h0 hsub hucap hunn
    obtain ⟨room, bn⟩ := rb
    have hsub' : ∀ x ∈ rest, x ∈ allRooms := fun x hx => hsub x (List.mem_cons_of_mem _ hx)
    by_cases hz : rem = 0
    · subst hz
      rw [greedyRooms_zero mc s allRooms room bn rest u]
      refine ⟨contigFrom_nil u, hucap, hunn, ?_⟩
      intro a ha
      simp at ha
    · by_cases hav : room.capacity - u.get room.no ≤ 0
      · rw [greedyRooms_skip_full mc s allRooms room bn rest u rem hz hav]
        exact ih u rem h0 hsub' hucap hunn
      · have hcapthis : capacityOf roomBlocks room.no = room.capacity :=
          hcapAll (room, bn) (hsub _ (List.mem_cons_self _ _))
        have hrem : 0 < rem := lt_of_le_of_ne h0 (Ne.symm hz)
        have htpos : 0 < min (room.capacity - u.get room.no) rem :=
          lt_min (by omega) hrem
        have htle : min (room.capacity - u.get room.no) rem
            ≤ room.capacity - u.get room.no := min_le_left _ _
        have hcappos : 0 < capacityOf roomBlocks room.no := by
          have := hunn room.no
          rw [hcapthis]
          omega
        have hucap' : ∀ no, Usage.hasKey (u.set room.no
              (u.get room.no + min (room.capacity - u.get room.no) rem)) no = true →
            Usage.get (u.set room.no
              (u.get room.no + min (room.capacity - u.get room.no) rem)) no
              ≤ capacityOf roomBlocks no := by
          intro no hk
          by_cases hno : no = room.no
          · subst hno
            rw [Usage.get_set_self, hcapthis]
            omega
          · rw [Usage.get_set_ne _ _ _ _ (fun hh => hno hh.symm)]
            rw [Usage.hasKey_set_ne _ _ _ _ (fun hh => hno hh.symm)] at hk
            exact hucap no hk
        have hunn' : ∀ no, 0 ≤ Usage.get (u.set room.no
              (u.get room.no + min (room.capacity - u.get room.no) rem)) no := by
          intro no
          by_cases hno : no = room.no
          · subst hno
            rw [Usage.get_set_self]
            have h1 := hunn room.no
            omega
          · rw [Usage.get_set_ne _ _ _ _ (fun hh => hno hh.symm)]
            exact hunn no
        obtain ⟨iha, ihb, ihc, ihd⟩ :=
          ih (u.set room.no (u.get room.no + min (room.capacity - u.get room.no) rem))
            (rem - min (room.capacity - u.get room.no) rem) (by omega) hsub' hucap' hunn'
        have hplace :
            ContigFrom u (mkPlacement s room.no (min (room.capacity - u.get room.no) rem)
              (u.get room.no) (min (room.capacity - u.get room.no) rem != s.students) bn
              :: (greedyRooms mc s allRooms rest
                (u.set room.no (u.get room.no + min (room.capacity - u.get room.no) rem))
                (rem - min (room.capacity - u.get room.no) rem)).1) ∧
            (∀ no, Usage.hasKey (greedyRooms mc s allRooms rest
                (u.set room.no (u.get room.no + min (room.capacity - u.get room.no) rem))
                (rem - min (room.capacity - u.get room.no) rem)).2.1 no = true →
              Usage.get (greedyRooms mc s allRooms rest
                (u.set room.no (u.get room.no + min (room.capacity - u.get room.no) rem))
                (rem - min (room.capacity - u.get room.no) rem)).2.1 no
                ≤ capacityOf roomBlocks no) ∧
            (∀ no, 0 ≤ Usage.get (greedyRooms mc s allRooms rest
                (u.set room.no (u.get room.no + min (room.capacity - u.get room.no) rem))
                (rem - min (room.capacity - u.get room.no) rem)).2.1 no) ∧
            (∀ a ∈ (mkPlacement s room.no (min (room.capacity - u.get room.no) rem)
                (u.get room.no) (min (room.capacity - u.get room.no) rem != s.students) bn
                :: (greedyRooms mc s allRooms rest
                  (u.set room.no (u.get room.no + min (room.capacity - u.get room.no) rem))
                  (rem - min (room.capacity - u.get room.no) rem)).1),
              0 < capacityOf roomBlocks a.roomNo) := by
          refine ⟨?_, ihb, ihc, ?_⟩
          · have hsing : ContigFrom u [mkPlacement s room.no
                (min (room.capacity - u.get room.no) rem) (u.get room.no)
                (min (room.capacity - u.get room.no) rem != s.students) bn] := by
              refine contigFrom_singleton u _ ?_ ?_
              · rw [mkPlacement_startSeat, mkPlacement_roomNo]
              · rw [mkPlacement_endSeat, mkPlacement_roomNo, mkPlacement_students]
            have happ := contigFrom_append u
              (u.set room.no (u.get room.no + min (room.capacity - u.get room.no) rem))
              [mkPlacement s room.no (min (room.capacity - u.get room.no) rem)
                (u.get room.no)
                (min (room.capacity - u.get room.no) rem != s.students) bn]
              (greedyRooms mc s allRooms rest
                (u.set room.no (u.get room.no + min (room.capacity - u.get room.no) rem))
                (rem - min (room.capacity - u.get room.no) rem)).1
              hsing iha ?_
            · simpa using happ
            · intro no
              rw [roomSum_cons, roomSum_nil]
              by_cases hno : no = room.no
              · subst hno
                rw [Usage.get_set_self,
                  if_pos ⟨mkPlacement_error s room.no _ _ _ bn,
                    mkPlacement_roomNo s room.no _ _ _ bn⟩,
                  mkPlacement_students]
                ring
              · rw [Usage.get_set_ne _ _ _ _ (fun hh => hno hh.symm),
                  if_neg (fun hh =>
                    hno ((mkPlacement_roomNo s room.no _ _ _ bn) ▸ hh.2).symm)]
                ring
          · intro a ha
            rcases List.mem_cons.mp ha with h1 | h1
            · rw [h1, mkPlacement_roomNo]
              exact hcappos
            · exact ihd a h1
        by_cases hg1 : u.get room.no = 0 ∧ min (room.capacity - u.get room.no) rem < mc ∧
            rem = min (room.capacity - u.get room.no) rem
        · by_cases hany : anyRoomHasStudents allRooms u = true
          · rw [greedyRooms_skip_guard1 mc s allRooms room bn rest u rem hz hav hg1 hany]
            exact ih u rem h0 hsub' hucap hunn
          · rw [greedyRooms_place_guard1 mc s allRooms room bn rest u rem hz hav hg1 hany]
            exact hplace
        · by_cases hg2 : min (room.capacity - u.get room.no) rem < mc ∧ mc < rem
          · rw [greedyRooms_skip_guard2 mc s allRooms room bn rest u rem hz hav hg1 hg2]
            exact ih u rem h0 hsub' hucap hunn
          · rw [greedyRooms_place mc s allRooms room bn rest u rem hz hav hg1 hg2]
            exact hplace

/-- The greedy outer loop: contiguity, the capacity and nonnegativity
invariants, and capacity positivity of every room a non-error record
references. -/
theorem greedySections_spec2 (mc : Int) (allRooms : List (Room × String))
    (roomBlocks : List RoomBlock)
    (hcapAll : ∀ rb ∈ allRooms, capacityOf roomBlocks rb.1.no = rb.1.capacity) :
    ∀ (secs : List Section) (u : Usage),
    (∀ s ∈ secs, 0 < s.students) →
    (∀ no, u.hasKey no = true → u.get no ≤ capacityOf roomBlocks no) →
    (∀ no, 0 ≤ u.get no) →
    ContigFrom u (greedySections mc allRooms secs u).1 ∧
    (∀ no, Usage.hasKey (greedySections mc allRooms secs u).2 no = true →
      Usage.get (greedySections mc allRooms secs u).2 no ≤ capacityOf roomBlocks no) ∧
    (∀ no, 0 ≤ Usage.get (greedySections mc allRooms secs u).2 no) ∧
    (∀ a ∈ (greedySections mc allRooms secs u).1, a.error = false →
      0 < capacityOf roomBlocks a.roomNo) := by
  intro secs
  induction secs with
  | nil =>
    intro u _ hucap hunn
    refine ⟨contigFrom_nil u, hucap, hunn, ?_⟩
    intro a ha
    simp [greedySections] at ha
  | cons s rest ih =>
    intro u hpos hucap hunn
    have hspos : 0 < s.students := hpos s (List.mem_cons_self _ _)
    have hrest : ∀ x ∈ rest, 0 < x.students :=
      fun x hx => hpos x (List.mem_cons_of_mem _ hx)
    obtain ⟨ga, gb, gc, gd, ge⟩ :=
      greedyRooms_spec mc s allRooms allRooms u s.students (le_of_lt hspos)
        (fun rb h => h)
    obtain ⟨p1, p2, p3, p4⟩ :=
      greedyRooms_spec2 mc s allRooms roomBlocks hcapAll allRooms u s.students
        (le_of_lt hspos) (fun rb h => h) hucap hunn
    obtain ⟨q1, q2, q3, q4⟩ :=
      ih (greedyRooms mc s allRooms allRooms u s.students).2.1 hrest p2 p3
    have heq : greedySections mc allRooms (s :: rest) u
        = ((greedyRooms mc s allRooms allRooms u s.students).1
            ++ (if 0 < (greedyRooms mc s allRooms allRooms u s.students).2.2
                then [mkError s (greedyRooms mc s allRooms allRooms u s.students).2.2]
                else [])
            ++ (greedySections mc allRooms rest
                (greedyRooms mc s allRooms allRooms u s.students).2.1).1,
          (greedySections mc allRooms rest
            (greedyRooms mc s allRooms allRooms u s.students).2.1).2) := rfl
    rw [heq]
    set batch := (greedyRooms mc s allRooms allRooms u s.students).1 with hbatch
    set rem' := (greedyRooms mc s allRooms allRooms u s.students).2.2 with hrem'
    set u' := (greedyRooms mc s allRooms allRooms u s.students).2.1 with hu'
    set errs := (if 0 < rem' then [mkError s rem'] else []) with herrs
    have herrsAllError : ∀ a ∈ errs, a.error = true := by
      intro a ha
      rw [herrs] at ha
      by_cases hr : 0 < rem'
      · rw [if_pos hr] at ha
        simp at ha
        rw [ha]; rfl
      · rw [if_neg hr] at ha; simp at ha
    have herrsRoomZero : ∀ no, roomSum no errs = 0 := by
      intro no
      rw [herrs]
      by_cases hr : 0 < rem'
      · simp [if_pos hr, roomSum, sumStudents]
      · simp [if_neg hr, roomSum, sumStudents]
    refine ⟨?_, q2, q3, ?_⟩
    · refine contigFrom_append u u' (batch ++ errs) _
        (contigFrom_append u u' batch errs p1
          (contigFrom_all_error u' errs herrsAllError) gd) q1 ?_
      intro no
      rw [roomSum_append, herrsRoomZero no, add_zero]
      exact gd no
    · intro a ha he
      simp only [List.mem_append, or_assoc] at ha
      rcases ha with ha | ha | ha
      · exact p4 a ha
      · exact absurd (herrsAllError a ha) (by rw [he]; simp)
      · exact q4 a ha he

/-! ## Catalog bridging lemmas -/

/-- In a room list with no duplicate ids, `find?` by a member's id returns
that member. -/
theorem find_room_of_nodup (l : List Room)
    (hnd : (l.map (fun r => r.no)).Nodup) (r : Room) (hr : r ∈ l) :
    l.find? (fun q => q.no == r.no) = some r := by
  induction l with
  | nil => simp at hr
  | cons a rest ih =>
    rcases List.mem_cons.mp hr with h | h
    · subst h
      simp [List.find?]
    · have hne : a.no ≠ r.no := by
        intro hc
        have h1 : r.no ∈ rest.map (fun q => q.no) := List.mem_map_of_mem _ h
        have h2 : a.no ∉ rest.map (fun q => q.no) := by
          simpa using (List.nodup_cons.mp hnd).1
        rw [hc] at h2
        exact h2 h1
      rw [List.find?]
      rw [show (a.no == r.no) = false from beq_eq_false_iff_ne.mpr hne]
      exact ih (List.nodup_cons.mp hnd).2 h

/-- With duplicate-free catalog ids, `capacityOf` of a catalog room's id is
that room's capacity. -/
theorem capacityOf_eq (roomBlocks : List RoomBlock)
    (hnd : (catalogIds roomBlocks).Nodup) (r : Room)
    (hr : r ∈ catalogRooms roomBlocks) :
    capacityOf roomBlocks r.no = r.capacity := by
  unfold capacityOf
  rw [find_room_of_nodup (catalogRooms roomBlocks) hnd r hr]

/-- Every entry of `flattenRooms` is a catalog room (with its block name). -/
theorem flattenRooms_mem (roomBlocks : List RoomBlock) (rb : Room × String)
    (h : rb ∈ flattenRooms roomBlocks) : rb.1 ∈ catalogRooms roomBlocks := by
  unfold flattenRooms at h
  have hperm := sortDescBy_perm (fun p : Room × String => p.1.capacity)
    (roomBlocks.flatMap (fun b => b.rooms.map (fun r => (r, b.name))))
  have h2 : rb ∈ roomBlocks.flatMap (fun b => b.rooms.map (fun r => (r, b.name))) :=
    hperm.mem_iff.mp h
  rw [List.mem_flatMap] at h2
  obtain ⟨b, hb, hrb⟩ := h2
  rw [List.mem_map] at hrb
  obtain ⟨r, hrmem, hre⟩ := hrb
  show rb.1 ∈ roomBlocks.flatMap (fun b => b.rooms)
  rw [List.mem_flatMap]
  refine ⟨b, hb, ?_⟩
  rw [← hre]
  exact hrmem

/-- `hcapAll` hypothesis for the greedy and lookahead strategies. -/
theorem flattenRooms_cap (roomBlocks : List RoomBlock)
    (hnd : (catalogIds roomBlocks).Nodup) :
    ∀ rb ∈ flattenRooms roomBlocks,
      capacityOf roomBlocks rb.1.no = rb.1.capacity := by
  intro rb h
  exact capacityOf_eq roomBlocks hnd rb.1 (flattenRooms_mem roomBlocks rb h)

/-- A successful `lookupRoom` returns a catalog room. -/
theorem lookupRoom_mem (roomBlocks : List RoomBlock) (no : String)
    (rb : Room × String) (h : lookupRoom roomBlocks no = some rb) :
    rb.1 ∈ catalogRooms roomBlocks := by
  unfold lookupRoom at h
  cases hfb : roomBlocks.find? (fun b => b.rooms.any (fun r => r.no == no)) with
  | none => rw [hfb] at h; simp at h
  | some b =>
    rw [hfb] at h
    change Option.map (fun r => (r, b.name))
      (b.rooms.find? (fun r => r.no == no)) = some rb at h
    rw [Option.map_eq_some'] at h
    obtain ⟨r, hfr, hre⟩ := h
    have hbmem : b ∈ roomBlocks := List.mem_of_find?_eq_some hfb
    have hrmem : r ∈ b.rooms := List.mem_of_find?_eq_some hfr
    show rb.1 ∈ roomBlocks.flatMap (fun b => b.rooms)
    rw [List.mem_flatMap]
    refine ⟨b, hbmem, ?_⟩
    rw [← hre]
    exact hrmem

/-- `hcapAll` hypothesis for the FFD strategy's resolved room list. -/
theorem resolveRooms_cap (obs : List (List String)) (roomBlocks : List RoomBlock)
    (hnd : (catalogIds roomBlocks).Nodup) :
    ∀ rb ∈ resolveRooms obs roomBlocks,
      capacityOf roomBlocks rb.1.no = rb.1.capacity := by
  intro rb h
  unfold resolveRooms at h
  rw [List.mem_flatMap] at h
  obtain ⟨blk, _, hrb⟩ := h
  rw [List.mem_filterMap] at hrb
  obtain ⟨no, _, hlk⟩ := hrb
  exact capacityOf_eq roomBlocks hnd rb.1 (lookupRoom_mem roomBlocks no rb hlk)

/-- The room ids of `flattenRooms` are a permutation of the catalog ids, so
they are duplicate-free whenever the catalog ids are. -/
theorem flattenRooms_ids_nodup (roomBlocks : List RoomBlock)
    (hnd : (catalogIds roomBlocks).Nodup) :
    ((flattenRooms roomBlocks).map (fun rb => rb.1.no)).Nodup := by
  have hperm := sortDescBy_perm (fun p : Room × String => p.1.capacity)
    (roomBlocks.flatMap (fun b => b.rooms.map (fun r => (r, b.name))))
  have hmap := hperm.map (fun rb : Room × String => rb.1.no)
  have heq : (roomBlocks.flatMap (fun b => b.rooms.map (fun r => (r, b.name)))).map
      (fun rb : Room × String => rb.1.no) = catalogIds roomBlocks := by
    simp [catalogIds, catalogRooms, List.map_flatMap, List.map_map, Function.comp_def]
  rw [heq] at hmap
  exact hmap.symm.nodup (by exact hnd)

/-- Every section surviving normalization has positive size. -/
theorem normalizeSections_pos (sections : List Section) :
    ∀ s ∈ normalizeSections sections, 0 < s.students := by
  intro s hs
  unfold normalizeSections at hs
  have hperm := sortDescBy_perm (fun s : Section => s.students)
    (sections.filter validSection)
  have h2 : s ∈ sections.filter validSection := hperm.mem_iff.mp hs
  have hv := List.of_mem_filter h2
  unfold validSection at hv
  simp at hv
  exact hv.2

/-- `poolMass` of an identity nobody in the pool carries is zero. -/
theorem poolMass_eq_zero (i : String × String) (pool : List Section)
    (h : ∀ s ∈ pool, identOf s ≠ i) : poolMass i pool = 0 := by
  induction pool with
  | nil => rfl
  | cons a rest ih =>
    rw [poolMass_cons, if_neg (h a (List.mem_cons_self _ _)),
      ih (fun x hx => h x (List.mem_cons_of_mem _ hx))]
    ring

/-- With pairwise-distinct identities, the mass of a valid section's
identity in the normalized pool is exactly that section's size. -/
theorem poolMass_normalize (sections : List Section) (s : Section)
    (hnd : (sections.map identOf).Nodup) (hs : s ∈ sections)
    (hv : validSection s = true) :
    poolMass (identOf s) (normalizeSections sections) = s.students := by
  unfold normalizeSections
  rw [poolMass_perm (identOf s) _ _
    (sortDescBy_perm (fun q : Section => q.students) (sections.filter validSection))]
  induction sections with
  | nil => simp at hs
  | cons a rest ih =>
    have hnd' := (List.nodup_cons.mp hnd).2
    rcases List.mem_cons.mp hs with h | h
    · subst h
      rw [List.filter_cons, if_pos hv, poolMass_cons, if_pos rfl]
      have hz : poolMass (identOf s) (rest.filter validSection) = 0 := by
        refine poolMass_eq_zero _ _ ?_
        intro x hx hc
        have h1 : identOf s ∈ rest.map identOf := by
          rw [← hc]
          exact List.mem_map_of_mem _ (List.mem_of_mem_filter hx)
        exact (List.nodup_cons.mp hnd).1 h1
      rw [hz]
      ring
    · have hne : identOf a ≠ identOf s := by
        intro hc
        have h1 : identOf s ∈ rest.map identOf := List.mem_map_of_mem identOf h
        rw [← hc] at h1
        exact (List.nodup_cons.mp hnd).1 h1
      rw [List.filter_cons]
      by_cases hva : validSection a = true
      · rw [if_pos hva, poolMass_cons, if_neg hne, ih hnd' h]
        ring
      · rw [if_neg hva]
        exact ih hnd' h

/-- A non-error record referencing `no` makes `roomSum no` positive, given
positive students on the non-error records. -/
theorem roomSum_pos (no : String) (l : List Allocation)
    (hpos : ∀ a ∈ l, a.error = false → 0 < a.students)
    (a : Allocation) (ha : a ∈ l) (he : a.error = false) (hno : a.roomNo = no) :
    0 < roomSum no l := by
  unfold roomSum
  refine sumStudents_pos _ ?_ ?_
  · intro x hx
    obtain ⟨hx1, hx2⟩ := List.mem_filter.mp hx
    have hx3 : x.error = false ∧ x.roomNo = no := by simpa using hx2
    exact hpos x hx1 hx3.1
  · intro hc
    have : a ∈ l.filter (fun x => x.error == false && x.roomNo == no) := by
      rw [List.mem_filter]
      exact ⟨ha, by simp [he, hno]⟩
    rw [hc] at this
    simp at this

/-- `identSum` over the error records built from a leftover pool is the
pool's mass. -/
theorem identSum_map_mkError (i : String × String) (pool : List Section) :
    identSum i (pool.map (fun s => mkError s s.students)) = poolMass i pool := by
  induction pool with
  | nil => rfl
  | cons a rest ih =>
    rw [List.map_cons, identSum_cons, ih, poolMass_cons]
    have hrid : recIdent (mkError a a.students) = identOf a := rfl
    rw [hrid]
    by_cases hi : identOf a = i
    · rw [if_pos hi, if_pos hi, mkError_students]
    · rw [if_neg hi, if_neg hi]

/-! ## The min-chunk discipline relative to a starting usage -/

/-- Min-chunk discipline of a record list relative to the usage `u` the run
had when the list started: each non-error record is at least `minChunk`, or
tops off a room already holding seats, or was placed while no room of
`allRooms` held any seats, or starts an empty room and fills its whole
catalog capacity. -/
def MCFrom (minChunk : Int) (roomBlocks : List RoomBlock)
    (allRooms : List (Room × String)) (u : Usage) (recs : List Allocation) : Prop :=
  ∀ k (h : k < recs.length), (recs.get ⟨k, h⟩).error = false →
    minChunk ≤ (recs.get ⟨k, h⟩).students ∨
    0 < u.get (recs.get ⟨k, h⟩).roomNo
        + roomSum (recs.get ⟨k, h⟩).roomNo (recs.take k) ∨
    (∀ rb ∈ allRooms, u.get rb.1.no + roomSum rb.1.no (recs.take k) ≤ 0) ∨
    (u.get (recs.get ⟨k, h⟩).roomNo
        + roomSum (recs.get ⟨k, h⟩).roomNo (recs.take k) = 0 ∧
      (recs.get ⟨k, h⟩).students = capacityOf roomBlocks (recs.get ⟨k, h⟩).roomNo)

theorem mcFrom_nil (mc : Int) (roomBlocks : List RoomBlock)
    (allRooms : List (Room × String)) (u : Usage) :
    MCFrom mc roomBlocks allRooms u [] := by
  intro k h
  simp at h

theorem mcFrom_all_error (mc : Int) (roomBlocks : List RoomBlock)
    (allRooms : List (Room × String)) (u : Usage) (l : List Allocation)
    (h : ∀ a ∈ l, a.error = true) : MCFrom mc roomBlocks allRooms u l := by
  intro k hk hc
  have := h (l.get ⟨k, hk⟩) (List.get_mem l _ _)
  rw [this] at hc
  simp at hc

theorem mcFrom_singleton (mc : Int) (roomBlocks : List RoomBlock)
    (allRooms : List (Room × String)) (u : Usage) (a : Allocation)
    (hd : a.error = false →
      mc ≤ a.students ∨ 0 < u.get a.roomNo ∨
      (∀ rb ∈ allRooms, u.get rb.1.no ≤ 0) ∨
      (u.get a.roomNo = 0 ∧ a.students = capacityOf roomBlocks a.roomNo)) :
    MCFrom mc roomBlocks allRooms u [a] := by
  intro k h
  have hk : k = 0 := by simp at h; omega
  subst hk
  intro he
  simp only [List.get, List.take, roomSum_nil] at he ⊢
  rcases hd he with h1 | h2 | h3 | h4
  · exact Or.inl h1
  · exact Or.inr (Or.inl (by omega))
  · refine Or.inr (Or.inr (Or.inl ?_))
    intro rb hrb
    have := h3 rb hrb
    omega
  · exact Or.inr (Or.inr (Or.inr ⟨by omega, h4.2⟩))

theorem mcFrom_append (mc : Int) (roomBlocks : List RoomBlock)
    (allRooms : List (Room × String)) (u u' : Usage) (l₁ l₂ : List Allocation)
    (h₁ : MCFrom mc roomBlocks allRooms u l₁)
    (h₂ : MCFrom mc roomBlocks allRooms u' l₂)
    (hu : ∀ no, u'.get no = u.get no + roomSum no l₁) :
    MCFrom mc roomBlocks allRooms u (l₁ ++ l₂) := by
  intro k h he
  by_cases hk : k < l₁.length
  · have hget : (l₁ ++ l₂).get ⟨k, h⟩ = l₁.get ⟨k, hk⟩ := by
      rw [List.get_append _ hk]
    have htake : (l₁ ++ l₂).take k = l₁.take k := by
      rw [List.take_append_eq_append_take, show k - l₁.length = 0 by omega]
      simp
    rw [hget] at he ⊢
    rw [htake]
    exact h₁ k hk he
  · have hk2 : k - l₁.length < l₂.length := by
      have := List.length_append l₁ l₂ ▸ h
      omega
    have hget : (l₁ ++ l₂).get ⟨k, h⟩ = l₂.get ⟨k - l₁.length, hk2⟩ := by
      rw [List.get_append_right] <;> omega
    have htake : (l₁ ++ l₂).take k = l₁ ++ l₂.take (k - l₁.length) := by
      rw [List.take_append_eq_append_take, List.take_of_length_le (by omega)]
    rw [hget] at he ⊢
    rw [htake]
    rcases h₂ (k - l₁.length) hk2 he with h1 | h2 | h3 | h4
    · exact Or.inl h1
    · refine Or.inr (Or.inl ?_)
      rw [roomSum_append]
      have := hu (l₂.get ⟨k - l₁.length, hk2⟩).roomNo
      omega
    · refine Or.inr (Or.inr (Or.inl ?_))
      intro rb hrb
      have ha := h3 rb hrb
      have hb := hu rb.1.no
      rw [roomSum_append]
      omega
    · refine Or.inr (Or.inr (Or.inr ⟨?_, h4.2⟩))
      rw [roomSum_append]
      have := hu (l₂.get ⟨k - l₁.length, hk2⟩).roomNo
      omega

/-- From the relative discipline at the empty usage plus the record shape
facts, the amended claim-level property follows. -/
theorem minChunkAmended_of_mcFrom (mc : Int) (roomBlocks : List RoomBlock)
    (allRooms : List (Room × String)) (recs : List Allocation)
    (hmc : MCFrom mc roomBlocks allRooms [] recs)
    (hrec : ∀ a ∈ recs, a.error = false →
      0 < a.students ∧ ∃ rb ∈ allRooms, a.roomNo = rb.1.no) :
    minChunkAmended mc roomBlocks recs := by
  intro k h he
  have hget0 : ∀ no, Usage.get [] no = 0 := fun no => rfl
  rcases hmc k h he with h1 | h2 | h3 | h4
  · exact Or.inl h1
  · refine Or.inr (Or.inl ?_)
    rw [hget0] at h2
    unfold seatsBefore
    omega
  · refine Or.inr (Or.inr (Or.inl ?_))
    intro a ha
    by_contra hne
    have hae : a.error = false := by
      cases hb : a.error
      · rfl
      · exact absurd hb hne
    obtain ⟨hpos, rb, hrb, hno⟩ := hrec a (List.take_subset k recs ha) hae
    have hsum : 0 < roomSum a.roomNo (recs.take k) :=
      roomSum_pos a.roomNo (recs.take k)
        (fun x hx hxe => (hrec x (List.take_subset k recs hx) hxe).1) a ha hae rfl
    have h3' := h3 rb hrb
    rw [hget0, ← hno] at h3'
    omega
  · refine Or.inr (Or.inr (Or.inr ⟨?_, h4.2⟩))
    rw [hget0] at h4
    unfold seatsBefore
    omega

/-- The greedy room loop satisfies the relative min-chunk discipline. -/
theorem greedyRooms_mc (mc : Int) (s : Section) (allRooms : List (Room × String))
    (roomBlocks : List RoomBlock)
    (hcapAll : ∀ rb ∈ allRooms, capacityOf roomBlocks rb.1.no = rb.1.capacity) :
    ∀ (rooms : List (Room × String)) (u : Usage) (rem : Int), 0 ≤ rem →
    (∀ rb ∈ rooms, rb ∈ allRooms) →
    (∀ no, 0 ≤ u.get no) →
    MCFrom mc roomBlocks allRooms u (greedyRooms mc s allRooms rooms u rem).1 := by
  intro rooms
  induction rooms with
  | nil =>
    intro u rem h0 hsub hunn
    exact mcFrom_nil mc roomBlocks allRooms u
  | cons rb rest ih =>
    intro u rem h0 hsub hunn
    obtain ⟨room, bn⟩ := rb
    have hsub' : ∀ x ∈ rest, x ∈ allRooms := fun x hx => hsub x (List.mem_cons_of_mem _ hx)
    by_cases hz : rem = 0
    · subst hz
      rw [greedyRooms_zero mc s allRooms room bn rest u]
      exact mcFrom_nil mc roomBlocks allRooms u
    · by_cases hav : room.capacity - u.get room.no ≤ 0
      · rw [greedyRooms_skip_full mc s allRooms room bn rest u rem hz hav]
        exact ih u rem h0 hsub' hunn
      · have hcapthis : capacityOf roomBlocks room.no = room.capacity :=
          hcapAll (room, bn) (hsub _ (List.mem_cons_self _ _))
        have hrem : 0 < rem := lt_of_le_of_ne h0 (Ne.symm hz)
        have htpos : 0 < min (room.capacity - u.get room.no) rem :=
          lt_min (by omega) hrem
        have hunn' : ∀ no, 0 ≤ Usage.get (u.set room.no
              (u.get room.no + min (room.capacity - u.get room.no) rem)) no := by
          intro no
          by_cases hno : no = room.no
          · subst hno
            rw [Usage.get_set_self]
            have h1 := hunn room.no
            omega
          · rw [Usage.get_set_ne _ _ _ _ (fun hh => hno hh.symm)]
            exact hunn no
        have ihmc :=
          ih (u.set room.no (u.get room.no + min (room.capacity - u.get room.no) rem))
            (rem - min (room.capacity - u.get room.no) rem) (by omega) hsub' hunn'
        have hu1 : ∀ no, Usage.get (u.set room.no
              (u.get room.no + min (room.capacity - u.get room.no) rem)) no
            = u.get no + roomSum no [mkPlacement s room.no
                (min (room.capacity - u.get room.no) rem) (u.get room.no)
                (min (room.capacity - u.get room.no) rem != s.students) bn] := by
          intro no
          rw [roomSum_cons, roomSum_nil]
          by_cases hno : no = room.no
          · subst hno
            rw [Usage.get_set_self,
              if_pos ⟨mkPlacement_error s room.no _ _ _ bn,
                mkPlacement_roomNo s room.no _ _ _ bn⟩,
              mkPlacement_students]
            ring
          · rw [Usage.get_set_ne _ _ _ _ (fun hh => hno hh.symm),
              if_neg (fun hh =>
                hno ((mkPlacement_roomNo s room.no _ _ _ bn) ▸ hh.2).symm)]
            ring
        by_cases hg1 : u.get room.no = 0 ∧ min (room.capacity - u.get room.no) rem < mc ∧
            rem = min (room.capacity - u.get room.no) rem
        · by_cases hany : anyRoomHasStudents allRooms u = true
          · rw [greedyRooms_skip_guard1 mc s allRooms room bn rest u rem hz hav hg1 hany]
            exact ih u rem h0 hsub' hunn
          · rw [greedyRooms_place_guard1 mc s allRooms room bn rest u rem hz hav hg1 hany]
            have hall : ∀ rb ∈ allRooms, u.get rb.1.no ≤ 0 := by
              unfold anyRoomHasStudents at hany
              simp at hany
              intro rb hrb
              have := hany rb.1 rb.2 hrb
              omega
            have hsing := mcFrom_singleton mc roomBlocks allRooms u
              (mkPlacement s room.no (min (room.capacity - u.get room.no) rem)
                (u.get room.no)
                (min (room.capacity - u.get room.no) rem != s.students) bn)
              (fun _ => Or.inr (Or.inr (Or.inl hall)))
            have happ := mcFrom_append mc roomBlocks allRooms u
              (u.set room.no (u.get room.no + min (room.capacity - u.get room.no) rem))
              _ _ hsing ihmc hu1
            simpa using happ
        · by_cases hg2 : min (room.capacity - u.get room.no) rem < mc ∧ mc < rem
          · rw [greedyRooms_skip_guard2 mc s allRooms room bn rest u rem hz hav hg1 hg2]
            exact ih u rem h0 hsub' hunn
          · rw [greedyRooms_place mc s allRooms room bn rest u rem hz hav hg1 hg2]
            have hd : mc ≤ min (room.capacity - u.get room.no) rem ∨
                0 < u.get room.no ∨
                (u.get room.no = 0 ∧ min (room.capacity - u.get room.no) rem
                  = capacityOf roomBlocks room.no) := by
              by_cases hmc' : mc ≤ min (room.capacity - u.get room.no) rem
              · exact Or.inl hmc'
              · by_cases husd : u.get room.no = 0
                · have hrt : rem ≠ min (room.capacity - u.get room.no) rem :=
                    fun hc => hg1 ⟨husd, by omega, hc⟩
                  have hmin : min (room.capacity - u.get room.no) rem
                      = room.capacity - u.get room.no := by
                    rcases min_choice (room.capacity - u.get room.no) rem with h | h
                    · exact h
                    · exact absurd h.symm hrt
                  refine Or.inr (Or.inr ⟨husd, ?_⟩)
                  rw [hmin, hcapthis, husd]
                  ring
                · have := hunn room.no
                  exact Or.inr (Or.inl (by omega))
            have hsing := mcFrom_singleton mc roomBlocks allRooms u
              (mkPlacement s room.no (min (room.capacity - u.get room.no) rem)
                (u.get room.no)
                (min (room.capacity - u.get room.no) rem != s.students) bn)
              (fun _ => by
                rw [mkPlacement_students, mkPlacement_roomNo]
                rcases hd with h1 | h2 | h3
                · exact Or.inl h1
                · exact Or.inr (Or.inl h2)
                · exact Or.inr (Or.inr (Or.inr h3)))
            have happ := mcFrom_append mc roomBlocks allRooms u
              (u.set room.no (u.get room.no + min (room.capacity - u.get room.no) rem))
              _ _ hsing ihmc hu1
            simpa using happ

/-- The greedy outer loop satisfies the relative min-chunk discipline. -/
theorem greedySections_mc (mc : Int) (allRooms : List (Room × String))
    (roomBlocks : List RoomBlock)
    (hcapAll : ∀ rb ∈ allRooms, capacityOf roomBlocks rb.1.no = rb.1.capacity) :
    ∀ (secs : List Section) (u : Usage),
    (∀ s ∈ secs, 0 < s.students) →
    (∀ no, 0 ≤ u.get no) →
    MCFrom mc roomBlocks allRooms u (greedySections mc allRooms secs u).1 := by
  intro secs
  induction secs with
  | nil =>
    intro u _ _
    exact mcFrom_nil mc roomBlocks allRooms u
  | cons s rest ih =>
    intro u hpos hunn
    have hspos : 0 < s.students := hpos s (List.mem_cons_self _ _)
    have hrest : ∀ x ∈ rest, 0 < x.students :=
      fun x hx => hpos x (List.mem_cons_of_mem _ hx)
    obtain ⟨ga, gb, gc, gd, ge⟩ :=
      greedyRooms_spec mc s allRooms allRooms u s.students (le_of_lt hspos)
        (fun rb h => h)
    have hbmc := greedyRooms_mc mc s allRooms roomBlocks hcapAll allRooms u s.students
      (le_of_lt hspos) (fun rb h => h) hunn
    have hunn2 : ∀ no, 0 ≤ Usage.get
        (greedyRooms mc s allRooms allRooms u s.students).2.1 no := by
      intro no
      rw [gd no]
      have h1 := hunn no
      have h2 : 0 ≤ roomSum no (greedyRooms mc s allRooms allRooms u s.students).1 := by
        unfold roomSum
        refine sumStudents_nonneg _ ?_
        intro x hx
        exact (ga x (List.mem_filter.mp hx).1).2.2.2.1
      omega
    have hnmc := ih (greedyRooms mc s allRooms allRooms u s.students).2.1 hrest hunn2
    have heq : greedySections mc allRooms (s :: rest) u
        = ((greedyRooms mc s allRooms allRooms u s.students).1
            ++ (if 0 < (greedyRooms mc s allRooms allRooms u s.students).2.2
                then [mkError s (greedyRooms mc s allRooms allRooms u s.students).2.2]
                else [])
            ++ (greedySections mc allRooms rest
                (greedyRooms mc s allRooms allRooms u s.students).2.1).1,
          (greedySections mc allRooms rest
            (greedyRooms mc s allRooms allRooms u s.students).2.1).2) := rfl
    rw [heq]
    set batch := (greedyRooms mc s allRooms allRooms u s.students).1 with hbatch
    set rem' := (greedyRooms mc s allRooms allRooms u s.students).2.2 with hrem'
    set u' := (greedyRooms mc s allRooms allRooms u s.students).2.1 with hu'
    set errs := (if 0 < rem' then [mkError s rem'] else []) with herrs
    have herrsAllError : ∀ a ∈ errs, a.error = true := by
      intro a ha
      rw [herrs] at ha
      by_cases hr : 0 < rem'
      · rw [if_pos hr] at ha
        simp at ha
        rw [ha]; rfl
      · rw [if_neg hr] at ha; simp at ha
    have herrsRoomZero : ∀ no, roomSum no errs = 0 := by
      intro no
      rw [herrs]
      by_cases hr : 0 < rem'
      · simp [if_pos hr, roomSum, sumStudents]
      · simp [if_neg hr, roomSum, sumStudents]
    refine mcFrom_append mc roomBlocks allRooms u u' (batch ++ errs) _
      (mcFrom_append mc roomBlocks allRooms u u' batch errs hbmc
        (mcFrom_all_error mc roomBlocks allRooms u' errs herrsAllError) gd)
      hnmc ?_
    intro no
    rw [roomSum_append, herrsRoomZero no, add_zero]
    exact gd no

/-- The guard facts established by a successful first-fit scan: the returned
room either went through the first guard arm's run-empty exception, or
passed both min-chunk guard arms. -/
theorem firstFitScan_guard (mc : Int) (s : Section) (obs : List (List String))
    (allRooms : List (Room × String)) (mi : Nat) (u : Usage) (rem : Int) :
    ∀ (rooms : List (Room × String)) (rb : Room × String) (t : Int),
    firstFitScan mc s obs allRooms mi u rem rooms = some (rb, t) →
    (u.get rb.1.no = 0 ∧ t < mc ∧ rem = t ∧
      anyRoomHasStudents allRooms u = false) ∨
    (¬(u.get rb.1.no = 0 ∧ t < mc ∧ rem = t) ∧ ¬(t < mc ∧ mc < rem)) := by
  intro rooms
  induction rooms with
  | nil => intro rb t h; simp [firstFitScan] at h
  | cons rb0 rest ih =>
    intro rb t h
    simp only [firstFitScan] at h
    split at h
    · exact ih rb t h
    · split at h
      · exact ih rb t h
      · split at h
        · split at h
          · exact ih rb t h
          · rename_i hg1 hany
            simp at h
            obtain ⟨hrb, ht⟩ := h
            subst hrb
            rw [← ht]
            exact Or.inl ⟨hg1.1, hg1.2.1, hg1.2.2, by simpa using hany⟩
        · split at h
          · exact ih rb t h
          · rename_i hg1 hg2
            simp at h
            obtain ⟨hrb, ht⟩ := h
            subst hrb
            rw [← ht]
            exact Or.inr ⟨hg1, hg2⟩

/-- The per-section FFD loop satisfies the relative min-chunk discipline. -/
theorem ffdLoop_mc (mc : Int) (obs : List (List String))
    (allRooms : List (Room × String)) (s : Section) (roomBlocks : List RoomBlock)
    (hcapAll : ∀ rb ∈ allRooms, capacityOf roomBlocks rb.1.no = rb.1.capacity)
    (u : Usage) (mi : Nat) (rem : Int) :
    (∀ no, 0 ≤ u.get no) →
    MCFrom mc roomBlocks allRooms u (ffdLoop mc obs allRooms s u mi rem).1 := by
  induction u, mi, rem using ffdLoop.induct mc obs allRooms s with
  | case1 u mi rem h0 =>
    intro hunn
    rw [ffdLoop_stop mc obs allRooms s u mi rem h0]
    exact mcFrom_nil mc roomBlocks allRooms u
  | case2 u mi rem h0 rb av hbest used hg1 hao =>
    intro hunn
    rw [ffdLoop_best_break1 mc obs allRooms s u mi rem av rb h0 hbest hg1 hao]
    exact mcFrom_nil mc roomBlocks allRooms u
  | case3 u mi rem h0 rb av hbest used hg1 hao =>
    intro hunn
    rw [ffdLoop_best_place_exc mc obs allRooms s u mi rem av rb h0 hbest hg1 hao]
    have hall : ∀ x ∈ allRooms, u.get x.1.no ≤ 0 := by
      unfold anyRoomHasStudents at hao
      simp at hao
      intro x hx
      have := hao x.1 x.2 hx
      omega
    exact mcFrom_singleton mc roomBlocks allRooms u _
      (fun _ => Or.inr (Or.inr (Or.inl hall)))
  | case4 u mi rem h0 rb av hbest used hg1 hg2 =>
    intro hunn
    rw [ffdLoop_best_break2 mc obs allRooms s u mi rem av rb h0 hbest hg1 hg2]
    exact mcFrom_nil mc roomBlocks allRooms u
  | case5 u mi rem h0 rb av hbest used hg1 hg2 =>
    intro hunn
    rw [ffdLoop_best_place mc obs allRooms s u mi rem av rb h0 hbest hg1 hg2]
    refine mcFrom_singleton mc roomBlocks allRooms u _ (fun _ => ?_)
    rw [mkPlacement_students, mkPlacement_roomNo]
    by_cases hmc' : mc ≤ rem
    · exact Or.inl hmc'
    · have hss : rem = s.students := by
        by_contra hne
        exact hg2 ⟨by omega, hne⟩
      have husd : ¬u.get rb.1.no = 0 := fun hc => hg1 ⟨hc, by omega, hss⟩
      have := hunn rb.1.no
      exact Or.inr (Or.inl (by omega))
  | case6 u mi rem h0 hbest rb t hscan used usage' maxIdx' ih =>
    intro hunn
    obtain ⟨hmem, hav, ht⟩ :=
      firstFitScan_mem mc s obs allRooms mi u rem allRooms rb t hscan
    have hguard := firstFitScan_guard mc s obs allRooms mi u rem allRooms rb t hscan
    have htpos : 0 < t := by rw [ht]; exact lt_min hav (by omega)
    have hcapthis : capacityOf roomBlocks rb.1.no = rb.1.capacity := hcapAll rb hmem
    have hunn' : ∀ no, 0 ≤ Usage.get (u.set rb.1.no (u.get rb.1.no + t)) no := by
      intro no
      by_cases hno : no = rb.1.no
      · subst hno
        rw [Usage.get_set_self]
        have := hunn rb.1.no
        omega
      · rw [Usage.get_set_ne _ _ _ _ (fun hh => hno hh.symm)]
        exact hunn no
    have ihmc := ih hunn'
    rw [ffdLoop_firstfit mc obs allRooms s u mi rem t rb h0 hbest hscan]
    have hu1 : ∀ no, Usage.get (u.set rb.1.no (u.get rb.1.no + t)) no
        = u.get no + roomSum no [mkPlacement s rb.1.no t (u.get rb.1.no)
            (t != s.students) rb.2] := by
      intro no
      rw [roomSum_cons, roomSum_nil]
      by_cases hno : no = rb.1.no
      · subst hno
        rw [Usage.get_set_self,
          if_pos ⟨mkPlacement_error s rb.1.no _ _ _ rb.2,
            mkPlacement_roomNo s rb.1.no _ _ _ rb.2⟩,
          mkPlacement_students]
        ring
      · rw [Usage.get_set_ne _ _ _ _ (fun hh => hno hh.symm),
          if_neg (fun hh =>
            hno ((mkPlacement_roomNo s rb.1.no _ _ _ rb.2) ▸ hh.2).symm)]
        ring
    have hsing := mcFrom_singleton mc roomBlocks allRooms u
      (mkPlacement s rb.1.no t (u.get rb.1.no) (t != s.students) rb.2)
      (fun _ => by
        rw [mkPlacement_students, mkPlacement_roomNo]
        rcases hguard with ⟨husd, hlt, hre, hany⟩ | ⟨hg1, hg2⟩
        · refine Or.inr (Or.inr (Or.inl ?_))
          unfold anyRoomHasStudents at hany
          simp at hany
          intro x hx
          have := hany x.1 x.2 hx
          omega
        · by_cases hmc' : mc ≤ t
          · exact Or.inl hmc'
          · by_cases husd : u.get rb.1.no = 0
            · have hrt : rem ≠ t := fun hc => hg1 ⟨husd, by omega, hc⟩
              have hmin : t = rb.1.capacity - u.get rb.1.no := by
                rw [ht]
                rcases min_choice (rb.1.capacity - u.get rb.1.no) rem with h | h
                · exact h
                · rw [ht] at hrt
                  exact absurd h.symm hrt
              refine Or.inr (Or.inr (Or.inr ⟨husd, ?_⟩))
              rw [hmin, hcapthis, husd]
              ring
            · have := hunn rb.1.no
              exact Or.inr (Or.inl (by omega)))
    have happ := mcFrom_append mc roomBlocks allRooms u
      (u.set rb.1.no (u.get rb.1.no + t)) _ _ hsing ihmc hu1
    simpa using happ
  | case7 u mi rem h0 hbest hscan =>
    intro hunn
    rw [ffdLoop_nofit mc obs allRooms s u mi rem h0 hbest hscan]
    exact mcFrom_nil mc roomBlocks allRooms u

/-- The outer FFD loop satisfies the relative min-chunk discipline. -/
theorem ffdSections_mc (mc : Int) (obs : List (List String))
    (allRooms : List (Room × String)) (roomBlocks : List RoomBlock)
    (hcapAll : ∀ rb ∈ allRooms, capacityOf roomBlocks rb.1.no = rb.1.capacity) :
    ∀ (secs : List Section) (u : Usage) (mi : Nat),
    (∀ s ∈ secs, 0 < s.students) →
    (∀ no, u.hasKey no = true → u.get no ≤ capacityOf roomBlocks no) →
    (∀ no, 0 ≤ u.get no) →
    MCFrom mc roomBlocks allRooms u (ffdSections mc obs allRooms secs u mi).1 := by
  intro secs
  induction secs with
  | nil =>
    intro u mi _ _ _
    exact mcFrom_nil mc roomBlocks allRooms u
  | cons s rest ih =>
    intro u mi hpos hucap hunn
    have hspos : 0 < s.students := hpos s (List.mem_cons_self _ _)
    have hrest : ∀ x ∈ rest, 0 < x.students :=
      fun x hx => hpos x (List.mem_cons_of_mem _ hx)
    obtain ⟨fa, fb, fc, fd, fe, ff2, fg, fh, fi⟩ :=
      ffdLoop_spec mc obs allRooms s roomBlocks hcapAll u mi s.students hucap hunn
    have hbmc := ffdLoop_mc mc obs allRooms s roomBlocks hcapAll u mi s.students hunn
    have hnmc := ih (ffdLoop mc obs allRooms s u mi s.students).2.1
      (ffdLoop mc obs allRooms s u mi s.students).2.2.1 hrest fh fi
    have heq : ffdSections mc obs allRooms (s :: rest) u mi
        = ((ffdLoop mc obs allRooms s u mi s.students).1
            ++ (if 0 < (ffdLoop mc obs allRooms s u mi s.students).2.2.2
                then [mkError s (ffdLoop mc obs allRooms s u mi s.students).2.2.2]
                else [])
            ++ (ffdSections mc obs allRooms rest
                (ffdLoop mc obs allRooms s u mi s.students).2.1
                (ffdLoop mc obs allRooms s u mi s.students).2.2.1).1,
          (ffdSections mc obs allRooms rest
            (ffdLoop mc obs allRooms s u mi s.students).2.1
            (ffdLoop mc obs allRooms s u mi s.students).2.2.1).2) := rfl
    rw [heq]
    set batch := (ffdLoop mc obs allRooms s u mi s.students).1 with hbatch
    set rem' := (ffdLoop mc obs allRooms s u mi s.students).2.2.2 with hrem'
    set u' := (ffdLoop mc obs allRooms s u mi s.students).2.1 with hu'
    set mi' := (ffdLoop mc obs allRooms s u mi s.students).2.2.1 with hmi'
    set errs := (if 0 < rem' then [mkError s rem'] else []) with herrs
    have herrsAllError : ∀ a ∈ errs, a.error = true := by
      intro a ha
      rw [herrs] at ha
      by_cases hr : 0 < rem'
      · rw [if_pos hr] at ha
        simp at ha
        rw [ha]; rfl
      · rw [if_neg hr] at ha; simp at ha
    have herrsRoomZero : ∀ no, roomSum no errs = 0 := by
      intro no
      rw [herrs]
      by_cases hr : 0 < rem'
      · simp [if_pos hr, roomSum, sumStudents]
      · simp [if_neg hr, roomSum, sumStudents]
    refine mcFrom_append mc roomBlocks allRooms u u' (batch ++ errs) _
      (mcFrom_append mc roomBlocks allRooms u u' batch errs hbmc
        (mcFrom_all_error mc roomBlocks allRooms u' errs herrsAllError) fd)
      hnmc ?_
    intro no
    rw [roomSum_append, herrsRoomZero no, add_zero]
    exact fd no

/-- The lookahead fill loop satisfies the relative min-chunk discipline,
given that `u`'s entry for this room reflects the seats already taken and
`ao` reflects occupancy at the start of the room (only used when false). -/
theorem fillLoop_mc (mc : Int) (room : Room) (bn : String) (ao : Bool)
    (allRooms : List (Room × String)) (roomBlocks : List RoomBlock)
    (hcapthis : capacityOf roomBlocks room.no = room.capacity) :
    ∀ (pool : List Section) (seatsLeft : Int), ∀ (u : Usage),
    (∀ x ∈ pool, 0 < x.students) →
    seatsLeft ≤ room.capacity →
    u.get room.no = room.capacity - seatsLeft →
    (ao = false → seatsLeft = room.capacity → ∀ rb ∈ allRooms, u.get rb.1.no ≤ 0) →
    MCFrom mc roomBlocks allRooms u (fillLoop mc room bn ao pool seatsLeft).1 := by
  intro pool seatsLeft
  induction pool, seatsLeft using fillLoop.induct mc room bn ao with
  | case1 pool seatsLeft h0 =>
    intro u hpos hsl hu0 hao2
    rw [fillLoop_stop mc room bn ao pool seatsLeft h0]
    exact mcFrom_nil mc roomBlocks allRooms u
  | case2 seatsLeft h0 =>
    intro u hpos hsl hu0 hao2
    rw [fillLoop_nil mc room bn ao seatsLeft h0]
    exact mcFrom_nil mc roomBlocks allRooms u
  | case3 pool seatsLeft h0 hp m hm s pool' hext hA hao =>
    intro u hpos hsl hu0 hao2
    rw [hao, fillLoop_whole_break mc room bn pool pool' s seatsLeft h0 hp hm hext hA]
    exact mcFrom_nil mc roomBlocks allRooms u
  | case4 pool seatsLeft h0 hp m hm s pool' hext hA hao ih =>
    intro u hpos hsl hu0 hao2
    have hperm := extractBySize_perm _ pool pool' s hext
    have hpos' : ∀ x ∈ s :: pool', 0 < x.students :=
      fun x hx => hpos x (hperm.symm.subset hx)
    have hspos : 0 < s.students := hpos' s (List.mem_cons_self _ _)
    have hsfit : s.students ≤ seatsLeft := by
      rw [extractBySize_students _ pool pool' s hext]
      exact maxFit_le seatsLeft pool (by omega)
    have hao' : ao = false := by
      cases ao
      · rfl
      · exact absurd rfl hao
    rw [hao'] at ih hao2 ⊢
    rw [fillLoop_whole_place_exc mc room bn pool pool' s seatsLeft h0 hp hm hext hA]
    have hslcap : seatsLeft = room.capacity := by
      have := hA.1
      omega
    have hall := hao2 rfl hslcap
    have hu0' : Usage.get (u.set room.no (u.get room.no + s.students)) room.no
        = room.capacity - (seatsLeft - s.students) := by
      rw [Usage.get_set_self, hu0]
      ring
    have ihmc := ih (u.set room.no (u.get room.no + s.students))
      (fun x hx => hpos' x (List.mem_cons_of_mem _ hx))
      (by omega) hu0'
      (fun _ h2 => absurd h2 (by omega))
    have hu1 : ∀ no, Usage.get (u.set room.no (u.get room.no + s.students)) no
        = u.get no + roomSum no [mkPlacement s room.no s.students
            (room.capacity - seatsLeft) false bn] := by
      intro no
      rw [roomSum_cons, roomSum_nil]
      by_cases hno : no = room.no
      · subst hno
        rw [Usage.get_set_self,
          if_pos ⟨mkPlacement_error s room.no _ _ _ bn,
            mkPlacement_roomNo s room.no _ _ _ bn⟩,
          mkPlacement_students]
        ring
      · rw [Usage.get_set_ne _ _ _ _ (fun hh => hno hh.symm),
          if_neg (fun hh =>
            hno ((mkPlacement_roomNo s room.no _ _ _ bn) ▸ hh.2).symm)]
        ring
    have hsing := mcFrom_singleton mc roomBlocks allRooms u
      (mkPlacement s room.no s.students (room.capacity - seatsLeft) false bn)
      (fun _ => Or.inr (Or.inr (Or.inl hall)))
    have happ := mcFrom_append mc roomBlocks allRooms u
      (u.set room.no (u.get room.no + s.students)) _ _ hsing ihmc hu1
    simpa using happ
  | case5 pool seatsLeft h0 hp m hm s pool' hext hA ih =>
    intro u hpos hsl hu0 hao2
    have hperm := extractBySize_perm _ pool pool' s hext
    have hpos' : ∀ x ∈ s :: pool', 0 < x.students :=
      fun x hx => hpos x (hperm.symm.subset hx)
    have hspos : 0 < s.students := hpos' s (List.mem_cons_self _ _)
    have hsfit : s.students ≤ seatsLeft := by
      rw [extractBySize_students _ pool pool' s hext]
      exact maxFit_le seatsLeft pool (by omega)
    rw [fillLoop_whole_place mc room bn ao pool pool' s seatsLeft h0 hp hm hext hA]
    have hu0' : Usage.get (u.set room.no (u.get room.no + s.students)) room.no
        = room.capacity - (seatsLeft - s.students) := by
      rw [Usage.get_set_self, hu0]
      ring
    have ihmc := ih (u.set room.no (u.get room.no + s.students))
      (fun x hx => hpos' x (List.mem_cons_of_mem _ hx))
      (by omega) hu0'
      (fun _ h2 => absurd h2 (by omega))
    have hu1 : ∀ no, Usage.get (u.set room.no (u.get room.no + s.students)) no
        = u.get no + roomSum no [mkPlacement s room.no s.students
            (room.capacity - seatsLeft) false bn] := by
      intro no
      rw [roomSum_cons, roomSum_nil]
      by_cases hno : no = room.no
      · subst hno
        rw [Usage.get_set_self,
          if_pos ⟨mkPlacement_error s room.no _ _ _ bn,
            mkPlacement_roomNo s room.no _ _ _ bn⟩,
          mkPlacement_students]
        ring
      · rw [Usage.get_set_ne _ _ _ _ (fun hh => hno hh.symm),
          if_neg (fun hh =>
            hno ((mkPlacement_roomNo s room.no _ _ _ bn) ▸ hh.2).symm)]
        ring
    have hsing := mcFrom_singleton mc roomBlocks allRooms u
      (mkPlacement s room.no s.students (room.capacity - seatsLeft) false bn)
      (fun _ => by
        rw [mkPlacement_students, mkPlacement_roomNo]
        by_cases hmc' : mc ≤ s.students
        · exact Or.inl hmc'
        · have hused : ¬room.capacity - seatsLeft = 0 :=
            fun hc => hA ⟨hc, by omega⟩
          refine Or.inr (Or.inl ?_)
          rw [hu0]
          omega)
    have happ := mcFrom_append mc roomBlocks allRooms u
      (u.set room.no (u.get room.no + s.students)) _ _ hsing ihmc hu1
    simpa using happ
  | case6 pool seatsLeft h0 hp m hm hext =>
    intro u hpos hsl hu0 hao2
    obtain ⟨s, hs, hval⟩ := maxFit_attained seatsLeft pool (by omega)
    obtain ⟨s', pool', hsome⟩ := extractBySize_isSome_of_mem _ pool ⟨s, hs, hval⟩
    rw [hext] at hsome
    simp at hsome
  | case7 pool seatsLeft h0 hp m hm hsort =>
    intro u hpos hsl hu0 hao2
    have := sortDescBy_length (fun s : Section => s.students) pool
    rw [hsort] at this
    simp at this
    exact absurd (List.length_eq_zero.mp this.symm) hp
  | case8 pool seatsLeft h0 hp m hm s rest hsort hG1 =>
    intro u hpos hsl hu0 hao2
    rw [fillLoop_split_break1 mc room bn ao pool rest s seatsLeft h0 hp hm hsort hG1]
    exact mcFrom_nil mc roomBlocks allRooms u
  | case9 pool seatsLeft h0 hp m hm s rest hsort hG1 chunk hAA =>
    intro u hpos hsl hu0 hao2
    rw [hAA.2, fillLoop_split_break2 mc room bn pool rest s seatsLeft h0 hp hm hsort
      hG1 hAA.1]
    exact mcFrom_nil mc roomBlocks allRooms u
  | case10 pool seatsLeft h0 hp m hm s rest hsort hG1 chunk hAo hG3 =>
    intro u hpos hsl hu0 hao2
    rw [fillLoop_split_break3 mc room bn ao pool rest s seatsLeft h0 hp hm hsort hG1
      hAo hG3]
    exact mcFrom_nil mc roomBlocks allRooms u
  | case11 pool seatsLeft h0 hp m hm s rest hsort hG1 chunk hAo hG3 ih =>
    intro u hpos hsl hu0 hao2
    have hperm : List.Perm pool (s :: rest) := hsort ▸ (sortDescBy_perm _ pool).symm
    have hsmem : s ∈ pool := hperm.symm.subset (List.mem_cons_self _ _)
    have hbig : seatsLeft < s.students := by
      by_contra hle
      have := maxFit_ge_mem seatsLeft pool s hsmem (by omega)
      have hspos := hpos s hsmem
      omega
    have hchunk : min seatsLeft s.students = seatsLeft := by omega
    have hz : ¬(s.students - min seatsLeft s.students = 0) := by omega
    rw [fillLoop_split_place mc room bn ao pool rest s seatsLeft h0 hp hm hsort hG1
      hAo hG3]
    rw [if_neg hz]
    rw [fillLoop_stop mc room bn ao _ _ (by omega)]
    refine mcFrom_singleton mc roomBlocks allRooms u _ (fun _ => ?_)
    rw [mkPlacement_students, mkPlacement_roomNo]
    by_cases hmc' : mc ≤ min seatsLeft s.students
    · exact Or.inl hmc'
    · by_cases husd : room.capacity - seatsLeft = 0
      · refine Or.inr (Or.inr (Or.inr ⟨?_, ?_⟩))
        · rw [hu0]
          omega
        · rw [hchunk, hcapthis]
          omega
      · refine Or.inr (Or.inl ?_)
        rw [hu0]
        omega

/-- Per-room processing of the lookahead strategy satisfies the relative
min-chunk discipline (the perfect-fit fast path fills the room's whole
capacity from empty, the fill loop is covered by `fillLoop_mc`). -/
theorem fillRoom_mc (mc : Int) (room : Room) (bn : String) (ao : Bool)
    (allRooms : List (Room × String)) (roomBlocks : List RoomBlock)
    (hcapthis : capacityOf roomBlocks room.no = room.capacity)
    (pool : List Section) (u : Usage)
    (hpos : ∀ x ∈ pool, 0 < x.students)
    (hu0 : u.get room.no = 0)
    (hao2 : ao = false → ∀ rb ∈ allRooms, u.get rb.1.no ≤ 0) :
    MCFrom mc roomBlocks allRooms u (fillRoom mc room bn ao pool).1 := by
  cases hext : extractBySize room.capacity pool with
  | some p =>
    obtain ⟨s, pool'⟩ := p
    have heq : fillRoom mc room bn ao pool
        = ([mkPlacement s room.no room.capacity 0 false bn], pool', 0) := by
      unfold fillRoom; rw [hext]
    rw [heq]
    refine mcFrom_singleton mc roomBlocks allRooms u _ (fun _ => ?_)
    rw [mkPlacement_students, mkPlacement_roomNo]
    exact Or.inr (Or.inr (Or.inr ⟨hu0, hcapthis.symm⟩))
  | none =>
    have heq : fillRoom mc room bn ao pool
        = fillLoop mc room bn ao pool room.capacity := by
      unfold fillRoom; rw [hext]
    rw [heq]
    exact fillLoop_mc mc room bn ao allRooms roomBlocks hcapthis pool room.capacity u
      hpos (le_refl _) (by omega) (fun h1 _ => hao2 h1)

/-- The lookahead room loop satisfies the relative min-chunk discipline. -/
theorem lookaheadRooms_mc (mc : Int) (allRooms : List (Room × String))
    (roomBlocks : List RoomBlock)
    (hcapAll : ∀ rb ∈ allRooms, capacityOf roomBlocks rb.1.no = rb.1.capacity) :
    ∀ (rooms : List (Room × String)) (pool : List Section) (u : Usage),
    (∀ s ∈ pool, 0 < s.students) →
    (rooms.map (fun rb => rb.1.no)).Nodup →
    (∀ rb ∈ rooms, u.hasKey rb.1.no = false) →
    (∀ rb ∈ rooms, rb ∈ allRooms) →
    MCFrom mc roomBlocks allRooms u (lookaheadRooms mc allRooms rooms pool u).1 := by
  intro rooms
  induction rooms with
  | nil =>
    intro pool u _ _ _ _
    exact mcFrom_nil mc roomBlocks allRooms u
  | cons rb rest ih =>
    intro pool u hpos hnd hkeys hsub
    obtain ⟨room, bn⟩ := rb
    obtain ⟨fa, fb, fb', fc, fd, ff⟩ :=
      fillRoom_spec mc room bn (anyRoomHasStudents allRooms u) pool hpos
    set batch := (fillRoom mc room bn (anyRoomHasStudents allRooms u) pool).1 with hbatch
    set pool1 := (fillRoom mc room bn (anyRoomHasStudents allRooms u) pool).2.1 with hpool1
    set left' := (fillRoom mc room bn (anyRoomHasStudents allRooms u) pool).2.2 with hleft
    set u' := (if batch = [] then u else u.set room.no (room.capacity - left')) with hu'
    have heq : lookaheadRooms mc allRooms ((room, bn) :: rest) pool u
        = (batch ++ (lookaheadRooms mc allRooms rest pool1 u').1,
          (lookaheadRooms mc allRooms rest pool1 u').2) := rfl
    rw [heq]
    have hndrest : (rest.map (fun rb => rb.1.no)).Nodup := by
      simpa using hnd.of_cons
    have hroomnotin : room.no ∉ rest.map (fun rb => rb.1.no) := by
      have h := hnd
      simp only [List.map_cons, List.nodup_cons] at h
      exact h.1
    have hbatchUniform : ∀ a ∈ batch, a.roomNo = room.no ∧ a.error = false :=
      fun a ha => ⟨(fa a ha).1, (fa a ha).2.1⟩
    have hbatchSum : ∀ no, roomSum no batch
        = if room.no = no then sumStudents batch else 0 :=
      fun no => roomSum_of_uniform no room.no batch hbatchUniform
    have hukey0 : u.get room.no = 0 :=
      Usage.get_eq_zero_of_not_hasKey u room.no
        (hkeys (room, bn) (List.mem_cons_self _ _))
    have hu'get : ∀ no, u'.get no = u.get no + roomSum no batch := by
      intro no
      rw [hu']
      by_cases hb : batch = []
      · rw [if_pos hb, hb, roomSum_nil]
        omega
      · rw [if_neg hb]
        by_cases hno : no = room.no
        · subst hno
          rw [Usage.get_set_self, hbatchSum, if_pos rfl, hukey0, fb]
          omega
        · rw [Usage.get_set_ne _ _ _ _ (fun hh => hno hh.symm), hbatchSum,
            if_neg (fun hh => hno hh.symm)]
          omega
    have hu'hasKey : ∀ no, u'.hasKey no = true ↔
        (u.hasKey no = true ∨ ∃ a ∈ batch, a.roomNo = no) := by
      intro no
      rw [hu']
      by_cases hb : batch = []
      · rw [if_pos hb, hb]
        simp
      · rw [if_neg hb]
        by_cases hno : no = room.no
        · subst hno
          rw [Usage.hasKey_set_self]
          simp only [true_iff]
          refine Or.inr ?_
          obtain ⟨a, ha⟩ := List.exists_mem_of_ne_nil batch hb
          exact ⟨a, ha, (hbatchUniform a ha).1⟩
        · rw [Usage.hasKey_set_ne _ _ _ _ (fun hh => hno hh.symm)]
          constructor
          · intro h; exact Or.inl h
          · rintro (h | ⟨a, ha, hano⟩)
            · exact h
            · have hcontra : no = room.no := by
                rw [← hano, (hbatchUniform a ha).1]
              exact absurd hcontra hno
    have hkeysrest : ∀ x ∈ rest, u'.hasKey x.1.no = false := by
      intro x hx
      rw [Bool.eq_false_iff]
      intro hk
      rcases (hu'hasKey x.1.no).mp hk with h | ⟨a, ha, hano⟩
      · rw [hkeys x (List.mem_cons_of_mem _ hx)] at h
        exact Bool.false_ne_true h
      · have hthis := (hbatchUniform a ha).1
        rw [hthis] at hano
        exact hroomnotin (by rw [hano]; exact List.mem_map_of_mem _ hx)
    have hcapmem : capacityOf roomBlocks room.no = room.capacity :=
      hcapAll (room, bn) (hsub (room, bn) (List.mem_cons_self _ _))
    have hbmc := fillRoom_mc mc room bn (anyRoomHasStudents allRooms u) allRooms
      roomBlocks hcapmem pool u hpos hukey0
      (fun hfalse => by
        unfold anyRoomHasStudents at hfalse
        simp at hfalse
        intro x hx
        have := hfalse x.1 x.2 hx
        omega)
    have hnmc := ih pool1 u' fd hndrest hkeysrest
      (fun x hx => hsub x (List.mem_cons_of_mem _ hx))
    exact mcFrom_append mc roomBlocks allRooms u u' batch _ hbmc hnmc hu'get

/-! ## Strategy-level assembly -/

theorem Usage.get_nil (no : String) : Usage.get [] no = 0 := rfl

theorem Usage.hasKey_nil (no : String) : Usage.hasKey [] no = false := rfl

theorem map_mkError_error (pool : List Section) :
    ∀ a ∈ pool.map (fun s => mkError s s.students), a.error = true := by
  intro a ha
  rw [List.mem_map] at ha
  obtain ⟨s, _, hs⟩ := ha
  rw [← hs]
  rfl

/-- With every leftover-pool entry positive, the truthiness filter of
`allocateGreedyLookahead` keeps the whole leftover pool. -/
theorem lookahead_result (mc : Int) (roomBlocks : List RoomBlock)
    (sections : List Section)
    (hpos : ∀ x ∈ (lookaheadRooms mc (flattenRooms roomBlocks)
        (flattenRooms roomBlocks) (normalizeSections sections) []).2.1,
      0 < x.students) :
    allocateGreedyLookahead mc roomBlocks sections
      = ((lookaheadRooms mc (flattenRooms roomBlocks) (flattenRooms roomBlocks)
            (normalizeSections sections) []).1
          ++ ((lookaheadRooms mc (flattenRooms roomBlocks) (flattenRooms roomBlocks)
            (normalizeSections sections) []).2.1.map (fun s => mkError s s.students)),
        (lookaheadRooms mc (flattenRooms roomBlocks) (flattenRooms roomBlocks)
            (normalizeSections sections) []).2.2) := by
  have heq : allocateGreedyLookahead mc roomBlocks sections
      = ((lookaheadRooms mc (flattenRooms roomBlocks) (flattenRooms roomBlocks)
            (normalizeSections sections) []).1
          ++ (((lookaheadRooms mc (flattenRooms roomBlocks) (flattenRooms roomBlocks)
              (normalizeSections sections) []).2.1.filter
                (fun s => decide (0 < s.students))).map
            (fun s => mkError s s.students)),
        (lookaheadRooms mc (flattenRooms roomBlocks) (flattenRooms roomBlocks)
            (normalizeSections sections) []).2.2) := rfl
  rw [heq, List.filter_eq_self.mpr (fun a ha => by simpa using hpos a ha)]

/-- The greedy strategies satisfy the amended min-chunk discipline. -/
theorem greedyCore_amended (mc : Int) (roomBlocks : List RoomBlock)
    (sections : List Section) (hnd : (catalogIds roomBlocks).Nodup) :
    minChunkAmended mc roomBlocks (greedyCore mc roomBlocks sections).1 := by
  obtain ⟨_, _, _, gd, _⟩ :=
    greedySections_spec mc (flattenRooms roomBlocks) (normalizeSections sections) []
      (normalizeSections_pos sections)
  exact minChunkAmended_of_mcFrom mc roomBlocks (flattenRooms roomBlocks) _
    (greedySections_mc mc (flattenRooms roomBlocks) roomBlocks
      (flattenRooms_cap roomBlocks hnd) (normalizeSections sections) []
      (normalizeSections_pos sections) (fun no => le_refl 0))
    (fun a ha he => gd a ha he)

/-- The lookahead strategy satisfies the amended min-chunk discipline. -/
theorem lookahead_amended (mc : Int) (roomBlocks : List RoomBlock)
    (sections : List Section) (hnd : (catalogIds roomBlocks).Nodup) :
    minChunkAmended mc roomBlocks (allocateGreedyLookahead mc roomBlocks sections).1 := by
  obtain ⟨la, lb, lc, ld, le', lf, lg, lh⟩ :=
    lookaheadRooms_spec mc (flattenRooms roomBlocks) roomBlocks
      (flattenRooms_cap roomBlocks hnd) (flattenRooms roomBlocks)
      (normalizeSections sections) [] (normalizeSections_pos sections)
      (flattenRooms_ids_nodup roomBlocks hnd)
      (fun rb _ => rfl) (fun rb h => h)
      (fun no h => absurd h (by rw [Usage.hasKey_nil]; simp))
      (fun no => le_refl 0)
  have hmcOut := lookaheadRooms_mc mc (flattenRooms roomBlocks) roomBlocks
    (flattenRooms_cap roomBlocks hnd) (flattenRooms roomBlocks)
    (normalizeSections sections) [] (normalizeSections_pos sections)
    (flattenRooms_ids_nodup roomBlocks hnd) (fun rb _ => rfl) (fun rb h => h)
  rw [lookahead_result mc roomBlocks sections ld]
  refine minChunkAmended_of_mcFrom mc roomBlocks (flattenRooms roomBlocks) _ ?_ ?_
  · refine mcFrom_append mc roomBlocks (flattenRooms roomBlocks) []
      (lookaheadRooms mc (flattenRooms roomBlocks) (flattenRooms roomBlocks)
        (normalizeSections sections) []).2.2 _ _ hmcOut
      (mcFrom_all_error mc roomBlocks (flattenRooms roomBlocks) _ _
        (map_mkError_error _)) lb
  · intro a ha he
    rcases List.mem_append.mp ha with h1 | h1
    · obtain ⟨_, hpos', rb, hrb, hno, _⟩ := le' a h1
      exact ⟨hpos', rb, hrb, hno⟩
    · exact absurd (map_mkError_error _ a h1) (by rw [he]; simp)

/-- The best-fit/FFD strategy satisfies the amended min-chunk discipline. -/
theorem ffd_amended (mc : Int) (obs : List (List String))
    (roomBlocks : List RoomBlock) (sections : List Section)
    (hnd : (catalogIds roomBlocks).Nodup) :
    minChunkAmended mc roomBlocks (allocateBestFitFFD mc obs roomBlocks sections).1 := by
  obtain ⟨_, _, _, fd4, _, _, _, _⟩ :=
    ffdSections_spec mc obs (resolveRooms obs roomBlocks) roomBlocks
      (resolveRooms_cap obs roomBlocks hnd) (normalizeSections sections) [] 0
      (normalizeSections_pos sections)
      (fun no h => absurd h (by rw [Usage.hasKey_nil]; simp))
      (fun no => le_refl 0)
  exact minChunkAmended_of_mcFrom mc roomBlocks (resolveRooms obs roomBlocks) _
    (ffdSections_mc mc obs (resolveRooms obs roomBlocks) roomBlocks
      (resolveRooms_cap obs roomBlocks hnd) (normalizeSections sections) [] 0
      (normalizeSections_pos sections)
      (fun no h => absurd h (by rw [Usage.hasKey_nil]; simp))
      (fun no => le_refl 0))
    (fun a ha he => (fd4 a ha he).imp_right (fun h => h.1))

theorem roomSum_eq_zero (no : String) (l : List Allocation)
    (h : ∀ a ∈ l, a.error = false → a.roomNo ≠ no) : roomSum no l = 0 := by
  unfold roomSum
  rw [List.filter_eq_nil.mpr]
  · rfl
  · intro a ha
    intro hc
    simp at hc
    exact h a ha hc.1 hc.2

/-- C1.  Conservation: for every input group with non-empty identity and
positive size, and for each of the four strategies, the total `students`
over the records carrying that group's identity (error and non-error alike)
equals the group's input size.  The catalog ids and the group identities
are assumed duplicate-free, and every ordered-block id of the FFD strategy
is assumed to resolve in the catalog (the source asserts this with
`roomObj!`). -/
theorem C1_conservation (mc : Int) (obs : List (List String))
    (roomBlocks : List RoomBlock) (sections : List Section) (s : Section)
    (hnd : (catalogIds roomBlocks).Nodup)
    (hres : obsResolvable obs roomBlocks)
    (hident : (sections.map identOf).Nodup)
    (hs : s ∈ sections) (hv : validSection s = true) :
    identSum (identOf s) (allocateSimpleGreedy mc roomBlocks sections).1 = s.students ∧
    identSum (identOf s) (allocateGreedyMinChunk mc roomBlocks sections).1 = s.students ∧
    identSum (identOf s) (allocateGreedyLookahead mc roomBlocks sections).1 = s.students ∧
    identSum (identOf s) (allocateBestFitFFD mc obs roomBlocks sections).1 = s.students := by
  have hpm := poolMass_normalize sections s hident hs hv
  have hgreedy : identSum (identOf s) (greedyCore mc roomBlocks sections).1 = s.students := by
    obtain ⟨g1, _, _, _, _⟩ := greedySections_spec mc (flattenRooms roomBlocks)
      (normalizeSections sections) [] (normalizeSections_pos sections)
    rw [show (greedyCore mc roomBlocks sections).1
      = (greedySections mc (flattenRooms roomBlocks)
          (normalizeSections sections) []).1 from rfl, g1 (identOf s), hpm]
  refine ⟨hgreedy, hgreedy, ?_, ?_⟩
  · obtain ⟨la, lb, lc, ld, le', lf, lg, lh⟩ :=
      lookaheadRooms_spec mc (flattenRooms roomBlocks) roomBlocks
        (flattenRooms_cap roomBlocks hnd) (flattenRooms roomBlocks)
        (normalizeSections sections) [] (normalizeSections_pos sections)
        (flattenRooms_ids_nodup roomBlocks hnd)
        (fun rb _ => rfl) (fun rb h => h)
        (fun no h => absurd h (by rw [Usage.hasKey_nil]; simp))
        (fun no => le_refl 0)
    rw [lookahead_result mc roomBlocks sections ld, identSum_append,
      identSum_map_mkError]
    have hla := la (identOf s)
    rw [hpm] at hla
    omega
  · obtain ⟨f1, _, _, _, _, _, _, _⟩ :=
      ffdSections_spec mc obs (resolveRooms obs roomBlocks) roomBlocks
        (resolveRooms_cap obs roomBlocks hnd) (normalizeSections sections) [] 0
        (normalizeSections_pos sections)
        (fun no h => absurd h (by rw [Usage.hasKey_nil]; simp))
        (fun no => le_refl 0)
    rw [show (allocateBestFitFFD mc obs roomBlocks sections).1
      = (ffdSections mc obs (resolveRooms obs roomBlocks)
          (normalizeSections sections) [] 0).1 from rfl, f1 (identOf s), hpm]

theorem C1_conservation_witness :
    ((catalogIds [RoomBlock.mk "BlockA" [Room.mk "R1" 10]]).Nodup ∧
      obsResolvable [["R1"]] [RoomBlock.mk "BlockA" [Room.mk "R1" 10]] ∧
      (([Section.mk 1 "CSE" "A" 5].map identOf).Nodup) ∧
      Section.mk 1 "CSE" "A" 5 ∈ [Section.mk 1 "CSE" "A" 5] ∧
      validSection (Section.mk 1 "CSE" "A" 5) = true) ∧
    (identSum (identOf (Section.mk 1 "CSE" "A" 5))
        (allocateSimpleGreedy 10 [RoomBlock.mk "BlockA" [Room.mk "R1" 10]]
          [Section.mk 1 "CSE" "A" 5]).1 = 5 ∧
      identSum (identOf (Section.mk 1 "CSE" "A" 5))
        (allocateGreedyMinChunk 10 [RoomBlock.mk "BlockA" [Room.mk "R1" 10]]
          [Section.mk 1 "CSE" "A" 5]).1 = 5 ∧
      identSum (identOf (Section.mk 1 "CSE" "A" 5))
        (allocateGreedyLookahead 10 [RoomBlock.mk "BlockA" [Room.mk "R1" 10]]
          [Section.mk 1 "CSE" "A" 5]).1 = 5 ∧
      identSum (identOf (Section.mk 1 "CSE" "A" 5))
        (allocateBestFitFFD 10 [["R1"]] [RoomBlock.mk "BlockA" [Room.mk "R1" 10]]
          [Section.mk 1 "CSE" "A" 5]).1 = 5) :=
  ⟨⟨by decide, by decide, by decide, by decide, by decide⟩,
    C1_conservation 10 [["R1"]] [RoomBlock.mk "BlockA" [Room.mk "R1" 10]]
      [Section.mk 1 "CSE" "A" 5] (Section.mk 1 "CSE" "A" 5)
      (by decide) (by decide) (by decide) (by decide) (by decide)⟩

/-- C3 (counterexample).  With rooms `R1`(50), `R2`(3), groups `X/A`(50) and
`Y/B`(8) and `minChunk = 10`, Simple Greedy places a 3-student chunk of
`Y/B` into the empty room `R2` (the chunk equals `R2`'s whole capacity and
`remaining = 8 ≤ minChunk`, so both guard arms pass) although `R1` is
already occupied: the record is below `minChunk`, does not top off an
occupied room, and is not the sole record of an otherwise-empty run. -/
theorem C3_counterexample :
    ¬ minChunkRespect 10 (allocateSimpleGreedy 10
      [RoomBlock.mk "B" [Room.mk "R1" 50, Room.mk "R2" 3]]
      [Section.mk 1 "X" "A" 50, Section.mk 2 "Y" "B" 8]).1 := by
  intro h
  have h1 := h 1 (by decide) (by decide)
  rcases h1 with h1 | h1 | h1
  · exact absurd h1 (by decide)
  · exact absurd h1 (by decide)
  · exact absurd h1 (by decide)

/-- C3 (amended).  For each of the four strategies (with duplicate-free
catalog ids, and for FFD every ordered-block id resolving in the catalog),
every non-error record is at least `minChunk`, or tops off an
already-occupied room, or was placed while no room held any seats, or
starts an empty room and fills that room's entire catalog capacity. -/
theorem C3_amended (mc : Int) (obs : List (List String))
    (roomBlocks : List RoomBlock) (sections : List Section)
    (hnd : (catalogIds roomBlocks).Nodup)
    (hres : obsResolvable obs roomBlocks) :
    minChunkAmended mc roomBlocks (allocateSimpleGreedy mc roomBlocks sections).1 ∧
    minChunkAmended mc roomBlocks (allocateGreedyMinChunk mc roomBlocks sections).1 ∧
    minChunkAmended mc roomBlocks (allocateGreedyLookahead mc roomBlocks sections).1 ∧
    minChunkAmended mc roomBlocks (allocateBestFitFFD mc obs roomBlocks sections).1 :=
  ⟨greedyCore_amended mc roomBlocks sections hnd,
    greedyCore_amended mc roomBlocks sections hnd,
    lookahead_amended mc roomBlocks sections hnd,
    ffd_amended mc obs roomBlocks sections hnd⟩

theorem C3_amended_witness :
    ((catalogIds [RoomBlock.mk "B" [Room.mk "R1" 50, Room.mk "R2" 3]]).Nodup ∧
      obsResolvable [] [RoomBlock.mk "B" [Room.mk "R1" 50, Room.mk "R2" 3]]) ∧
    minChunkAmended 10 [RoomBlock.mk "B" [Room.mk "R1" 50, Room.mk "R2" 3]]
      (allocateSimpleGreedy 10 [RoomBlock.mk "B" [Room.mk "R1" 50, Room.mk "R2" 3]]
        [Section.mk 1 "X" "A" 50, Section.mk 2 "Y" "B" 8]).1 :=
  ⟨⟨by decide, by decide⟩,
    (C3_amended 10 [] [RoomBlock.mk "B" [Room.mk "R1" 50, Room.mk "R2" 3]]
      [Section.mk 1 "X" "A" 50, Section.mk 2 "Y" "B" 8] (by decide) (by decide)).1⟩

/-- C4 (counterexample).  In the Simple Greedy room scan, room `R1` has 25
of 30 seats filled (occupied, positive spare capacity) and the group has
20 students remaining, yet no chunk is placed in `R1`: the second guard arm
(`toAllocate < minChunk && remaining > minChunk`) skips an already-occupied
room. -/
theorem C4_counterexample :
    0 < Usage.get [("R1", 25)] "R1" ∧
    0 < (30 : Int) - Usage.get [("R1", 25)] "R1" ∧
    0 < (20 : Int) ∧
    (∀ a ∈ (greedyRooms 10 (Section.mk 2 "Y" "B" 20)
        (flattenRooms [RoomBlock.mk "B" [Room.mk "R1" 30, Room.mk "R2" 12]])
        (flattenRooms [RoomBlock.mk "B" [Room.mk "R1" 30, Room.mk "R2" 12]])
        [("R1", 25)] 20).1, a.roomNo ≠ "R1") := by
  decide

/-- C4 (amended).  For an occupied room with positive spare capacity and a
positive remainder, the Simple Greedy scan places `min(spare, remaining)`
there exactly when `minChunk ≤ min(spare, remaining)` or
`remaining ≤ minChunk`; when `min(spare, remaining) < minChunk < remaining`
the room is skipped even though it is already occupied. -/
theorem C4_amended (mc : Int) (s : Section) (allRooms : List (Room × String))
    (room : Room) (bn : String) (rest : List (Room × String)) (u : Usage)
    (rem : Int) (hocc : 0 < u.get room.no)
    (hspare : 0 < room.capacity - u.get room.no) (hrem : 0 < rem) :
    (mc ≤ min (room.capacity - u.get room.no) rem ∨ rem ≤ mc →
      greedyRooms mc s allRooms ((room, bn) :: rest) u rem
        = (mkPlacement s room.no (min (room.capacity - u.get room.no) rem)
            (u.get room.no)
            (min (room.capacity - u.get room.no) rem != s.students) bn
            :: (greedyRooms mc s allRooms rest
              (u.set room.no (u.get room.no
                + min (room.capacity - u.get room.no) rem))
              (rem - min (room.capacity - u.get room.no) rem)).1,
          (greedyRooms mc s allRooms rest
              (u.set room.no (u.get room.no
                + min (room.capacity - u.get room.no) rem))
              (rem - min (room.capacity - u.get room.no) rem)).2)) ∧
    (min (room.capacity - u.get room.no) rem < mc ∧ mc < rem →
      greedyRooms mc s allRooms ((room, bn) :: rest) u rem
        = greedyRooms mc s allRooms rest u rem) := by
  have hz : rem ≠ 0 := by omega
  have hav : ¬room.capacity - u.get room.no ≤ 0 := by omega
  have hg1 : ¬(u.get room.no = 0 ∧ min (room.capacity - u.get room.no) rem < mc ∧
      rem = min (room.capacity - u.get room.no) rem) := fun hc => by omega
  constructor
  · intro hcase
    have hg2 : ¬(min (room.capacity - u.get room.no) rem < mc ∧ mc < rem) := by
      omega
    exact greedyRooms_place mc s allRooms room bn rest u rem hz hav hg1 hg2
  · intro hcase
    exact greedyRooms_skip_guard2 mc s allRooms room bn rest u rem hz hav hg1 hcase

theorem C4_amended_witness :
    (0 < Usage.get [("R1", 25)] (Room.mk "R1" 30).no ∧
      0 < (Room.mk "R1" 30).capacity - Usage.get [("R1", 25)] (Room.mk "R1" 30).no ∧
      0 < (20 : Int)) ∧
    (min ((Room.mk "R1" 30).capacity
        - Usage.get [("R1", 25)] (Room.mk "R1" 30).no) 20 < 10 ∧ (10 : Int) < 20 →
      greedyRooms 10 (Section.mk 2 "Y" "B" 20)
        (flattenRooms [RoomBlock.mk "B" [Room.mk "R1" 30, Room.mk "R2" 12]])
        ((Room.mk "R1" 30, "B") :: [(Room.mk "R2" 12, "B")]) [("R1", 25)] 20
        = greedyRooms 10 (Section.mk 2 "Y" "B" 20)
          (flattenRooms [RoomBlock.mk "B" [Room.mk "R1" 30, Room.mk "R2" 12]])
          [(Room.mk "R2" 12, "B")] [("R1", 25)] 20) :=
  ⟨⟨by decide, by decide, by decide⟩,
    (C4_amended 10 (Section.mk 2 "Y" "B" 20)
      (flattenRooms [RoomBlock.mk "B" [Room.mk "R1" 30, Room.mk "R2" 12]])
      (Room.mk "R1" 30) "B" [(Room.mk "R2" 12, "B")] [("R1", 25)] 20
      (by decide) (by decide) (by decide)).2⟩

/-- C5 (counterexample).  With rooms `A`(50) and `B`(5), groups `X/A`(50)
and `Y/B`(5) and `minChunk = 10`, the lookahead strategy's perfect-fit fast
path places the whole 5-student group `Y/B` into the still-empty room `B`
although room `A` is already fully occupied and `5 < minChunk`: no
min-chunk guard runs before the perfect-fit placement. -/
theorem C5_counterexample :
    ¬ minChunkRespect 10 (allocateGreedyLookahead 10
      [RoomBlock.mk "B" [Room.mk "A" 50, Room.mk "B" 5]]
      [Section.mk 1 "X" "A" 50, Section.mk 2 "Y" "B" 5]).1 := by
  intro h
  have h1 := h 1 (by decide) (by decide)
  rcases h1 with h1 | h1 | h1
  · exact absurd h1 (by decide)
  · exact absurd h1 (by decide)
  · exact absurd h1 (by decide)

/-- C5 (amended).  The lookahead strategy's records satisfy the amended
min-chunk discipline (a perfect-fit placement starts an empty room and
fills its whole capacity), and the perfect-fit fast path places
unconditionally: whenever a pool group exactly matches the room's
capacity, the room's batch is that single whole-room record, for any
`minChunk` and any occupancy state. -/
theorem C5_amended (mc : Int) (roomBlocks : List RoomBlock)
    (sections : List Section) (hnd : (catalogIds roomBlocks).Nodup) :
    minChunkAmended mc roomBlocks (allocateGreedyLookahead mc roomBlocks sections).1 ∧
    (∀ (room : Room) (bn : String) (ao : Bool) (pool : List Section)
      (s : Section) (pool' : List Section),
      extractBySize room.capacity pool = some (s, pool') →
      (fillRoom mc room bn ao pool).1
        = [mkPlacement s room.no room.capacity 0 false bn]) := by
  refine ⟨lookahead_amended mc roomBlocks sections hnd, ?_⟩
  intro room bn ao pool s pool' hext
  unfold fillRoom
  rw [hext]

theorem C5_amended_witness :
    (catalogIds [RoomBlock.mk "B" [Room.mk "A" 50, Room.mk "B" 5]]).Nodup ∧
    minChunkAmended 10 [RoomBlock.mk "B" [Room.mk "A" 50, Room.mk "B" 5]]
      (allocateGreedyLookahead 10 [RoomBlock.mk "B" [Room.mk "A" 50, Room.mk "B" 5]]
        [Section.mk 1 "X" "A" 50, Section.mk 2 "Y" "B" 5]).1 :=
  ⟨by decide,
    (C5_amended 10 [RoomBlock.mk "B" [Room.mk "A" 50, Room.mk "B" 5]]
      [Section.mk 1 "X" "A" 50, Section.mk 2 "Y" "B" 5] (by decide)).1⟩

/-- C6 (counterexample).  In the claimed scenario (rooms `A`(50), `B`(30),
`C`(20); groups `X`(40), `Y`(60); `minChunk = 10`) the normalization step
sorts groups by size descending, so `Y`(60) is seated first: `X` receives
no seats in room `A` at all, and the run's first record is `Y`'s 50-seat
chunk in `A` — not the claimed `X` fully in `A` at seats 1–40. -/
theorem C6_counterexample :
    (∀ a ∈ (allocateSimpleGreedy 10
        [RoomBlock.mk "Main" [Room.mk "A" 50, Room.mk "B" 30, Room.mk "C" 20]]
        [Section.mk 1 "X" "A" 40, Section.mk 2 "Y" "B" 60]).1,
      ¬(a.branch = "X" ∧ a.roomNo = "A")) ∧
    ((allocateSimpleGreedy 10
        [RoomBlock.mk "Main" [Room.mk "A" 50, Room.mk "B" 30, Room.mk "C" 20]]
        [Section.mk 1 "X" "A" 40, Section.mk 2 "Y" "B" 60]).1.head?.map
      (fun a => (a.branch, a.roomNo, a.students))) = some ("Y", "A", 50) := by
  decide

/-- C6 (amended).  In the scenario, Simple Greedy seats the larger group
`Y`(60) first — 50 in `A` and 10 in `B` — then `X`(40) as 20 in `B` and 20
in `C`; there are no error records, all 100 students are seated and the
used capacity is exactly 100 (efficiency 100%). -/
theorem C6_amended :
    (allocateSimpleGreedy 10
        [RoomBlock.mk "Main" [Room.mk "A" 50, Room.mk "B" 30, Room.mk "C" 20]]
        [Section.mk 1 "X" "A" 40, Section.mk 2 "Y" "B" 60]).1
      = [Allocation.mk "Y" "B" "A" 50 (some 1) (some 50) true false (some "Main"),
        Allocation.mk "Y" "B" "B" 10 (some 1) (some 10) true false (some "Main"),
        Allocation.mk "X" "A" "B" 20 (some 11) (some 30) true false (some "Main"),
        Allocation.mk "X" "A" "C" 20 (some 1) (some 20) true false (some "Main")] ∧
    (∀ a ∈ (allocateSimpleGreedy 10
        [RoomBlock.mk "Main" [Room.mk "A" 50, Room.mk "B" 30, Room.mk "C" 20]]
        [Section.mk 1 "X" "A" 40, Section.mk 2 "Y" "B" 60]).1, a.error = false) ∧
    allocatedStudents (allocateSimpleGreedy 10
        [RoomBlock.mk "Main" [Room.mk "A" 50, Room.mk "B" 30, Room.mk "C" 20]]
        [Section.mk 1 "X" "A" 40, Section.mk 2 "Y" "B" 60]).1 = 100 ∧
    totalCapacityUsed
        [RoomBlock.mk "Main" [Room.mk "A" 50, Room.mk "B" 30, Room.mk "C" 20]]
        (allocateSimpleGreedy 10
          [RoomBlock.mk "Main" [Room.mk "A" 50, Room.mk "B" 30, Room.mk "C" 20]]
          [Section.mk 1 "X" "A" 40, Section.mk 2 "Y" "B" 60]).2 = 100 := by
  decide

/-- C7.  Seat-range contiguity: for each of the four strategies (with
duplicate-free catalog ids, and for FFD every ordered-block id resolving
in the catalog), the non-error records of every room occupy seat ranges
`[1..k1], [k1+1..k2], ...` in emission order, with no gaps or
overlaps. -/
theorem C7_contiguity (mc : Int) (obs : List (List String))
    (roomBlocks : List RoomBlock) (sections : List Section)
    (hnd : (catalogIds roomBlocks).Nodup)
    (hres : obsResolvable obs roomBlocks) :
    seatContiguous (allocateSimpleGreedy mc roomBlocks sections).1 ∧
    seatContiguous (allocateGreedyMinChunk mc roomBlocks sections).1 ∧
    seatContiguous (allocateGreedyLookahead mc roomBlocks sections).1 ∧
    seatContiguous (allocateBestFitFFD mc obs roomBlocks sections).1 := by
  have hgreedy : seatContiguous (greedyCore mc roomBlocks sections).1 := by
    obtain ⟨p1, _, _, _⟩ :=
      greedySections_spec2 mc (flattenRooms roomBlocks) roomBlocks
        (flattenRooms_cap roomBlocks hnd) (normalizeSections sections) []
        (normalizeSections_pos sections)
        (fun no h => absurd h (by rw [Usage.hasKey_nil]; simp))
        (fun no => le_refl 0)
    exact seatContiguous_of_contigFrom _ p1
  refine ⟨hgreedy, hgreedy, ?_, ?_⟩
  · obtain ⟨la, lb, lc, ld, le', lf, lg, lh⟩ :=
      lookaheadRooms_spec mc (flattenRooms roomBlocks) roomBlocks
        (flattenRooms_cap roomBlocks hnd) (flattenRooms roomBlocks)
        (normalizeSections sections) [] (normalizeSections_pos sections)
        (flattenRooms_ids_nodup roomBlocks hnd)
        (fun rb _ => rfl) (fun rb h => h)
        (fun no h => absurd h (by rw [Usage.hasKey_nil]; simp))
        (fun no => le_refl 0)
    rw [lookahead_result mc roomBlocks sections ld]
    exact seatContiguous_of_contigFrom _
      (contigFrom_append []
        (lookaheadRooms mc (flattenRooms roomBlocks) (flattenRooms roomBlocks)
          (normalizeSections sections) []).2.2 _ _ lf
        (contigFrom_all_error _ _ (map_mkError_error _)) lb)
  · obtain ⟨_, _, _, _, _, f6, _, _⟩ :=
      ffdSections_spec mc obs (resolveRooms obs roomBlocks) roomBlocks
        (resolveRooms_cap obs roomBlocks hnd) (normalizeSections sections) [] 0
        (normalizeSections_pos sections)
        (fun no h => absurd h (by rw [Usage.hasKey_nil]; simp))
        (fun no => le_refl 0)
    exact seatContiguous_of_contigFrom _ f6

theorem C7_contiguity_witness :
    ((catalogIds [RoomBlock.mk "BlockA" [Room.mk "R1" 10]]).Nodup ∧
      obsResolvable [["R1"]] [RoomBlock.mk "BlockA" [Room.mk "R1" 10]]) ∧
    (seatContiguous (allocateSimpleGreedy 10
        [RoomBlock.mk "BlockA" [Room.mk "R1" 10]] [Section.mk 1 "CSE" "A" 5]).1 ∧
      seatContiguous (allocateGreedyMinChunk 10
        [RoomBlock.mk "BlockA" [Room.mk "R1" 10]] [Section.mk 1 "CSE" "A" 5]).1 ∧
      seatContiguous (allocateGreedyLookahead 10
        [RoomBlock.mk "BlockA" [Room.mk "R1" 10]] [Section.mk 1 "CSE" "A" 5]).1 ∧
      seatContiguous (allocateBestFitFFD 10 [["R1"]]
        [RoomBlock.mk "BlockA" [Room.mk "R1" 10]] [Section.mk 1 "CSE" "A" 5]).1) :=
  ⟨⟨by decide, by decide⟩,
    C7_contiguity 10 [["R1"]] [RoomBlock.mk "BlockA" [Room.mk "R1" 10]]
      [Section.mk 1 "CSE" "A" 5] (by decide) (by decide)⟩

/-- C8.  Block-unlock monotonicity of the best-fit/FFD strategy: the cursor
never decreases over a run (so the eligible blocks seen by a later group
are a superset of those seen by an earlier group, the suffix of a run
starting from the prefix's final state), and after a placement the cursor
advances by one exactly when every room of the block at the cursor has
nonzero usage and the cursor is not at the last block — otherwise it is
unchanged. -/
theorem C8_block_unlock (mc : Int) (obs : List (List String))
    (roomBlocks : List RoomBlock) :
    (∀ (secs : List Section) (u : Usage) (mi : Nat),
      mi ≤ (ffdSections mc obs (resolveRooms obs roomBlocks) secs u mi).2.2) ∧
    (∀ (l₁ l₂ : List Section) (u : Usage) (mi : Nat),
      ffdSections mc obs (resolveRooms obs roomBlocks) (l₁ ++ l₂) u mi
        = ((ffdSections mc obs (resolveRooms obs roomBlocks) l₁ u mi).1
            ++ (ffdSections mc obs (resolveRooms obs roomBlocks) l₂
                (ffdSections mc obs (resolveRooms obs roomBlocks) l₁ u mi).2.1
                (ffdSections mc obs (resolveRooms obs roomBlocks) l₁ u mi).2.2).1,
          (ffdSections mc obs (resolveRooms obs roomBlocks) l₂
              (ffdSections mc obs (resolveRooms obs roomBlocks) l₁ u mi).2.1
              (ffdSections mc obs (resolveRooms obs roomBlocks) l₁ u mi).2.2).2)) ∧
    (∀ (u : Usage) (mi : Nat) (blk : List String), obs.get? mi = some blk →
      (unlockStep obs u mi = mi + 1 ↔
        ((∀ rn ∈ blk, 0 < u.get rn) ∧ mi < obs.length - 1)) ∧
      (unlockStep obs u mi = mi ∨ unlockStep obs u mi = mi + 1)) := by
  refine ⟨ffdSections_cursor_mono mc obs (resolveRooms obs roomBlocks),
    ffdSections_append mc obs (resolveRooms obs roomBlocks), ?_⟩
  intro u mi blk hblk
  constructor
  · simp only [unlockStep, hblk]
    by_cases hc : (blk.all fun rn => decide (0 < u.get rn)) = true ∧
        mi < obs.length - 1
    · rw [if_pos hc]
      constructor
      · intro _
        obtain ⟨h1, h2⟩ := hc
        rw [List.all_eq_true] at h1
        exact ⟨fun rn hrn => by simpa using h1 rn hrn, h2⟩
      · intro _
        rfl
    · rw [if_neg hc]
      constructor
      · intro hcon
        omega
      · rintro ⟨h1, h2⟩
        exact absurd ⟨List.all_eq_true.mpr
          (fun rn hrn => by simpa using h1 rn hrn), h2⟩ hc
  · rcases unlockStep_ge obs u mi with ⟨ha, hb⟩
    omega

theorem C8_block_unlock_witness :
    ([["R1"], ["R2"]].get? 0 = some ["R1"]) ∧
    ((unlockStep [["R1"], ["R2"]] [("R1", 5)] 0 = 0 + 1 ↔
        ((∀ rn ∈ ["R1"], 0 < Usage.get [("R1", 5)] rn) ∧
          0 < [["R1"], ["R2"]].length - 1)) ∧
      (unlockStep [["R1"], ["R2"]] [("R1", 5)] 0 = 0 ∨
        unlockStep [["R1"], ["R2"]] [("R1", 5)] 0 = 0 + 1)) :=
  ⟨by decide,
    (C8_block_unlock 10 [["R1"], ["R2"]] []).2.2 [("R1", 5)] 0 ["R1"] (by decide)⟩

/-- C10.  RoomUsage consistency: for each of the four strategies (with
duplicate-free catalog ids, and for FFD every ordered-block id resolving
in the catalog), the returned usage map holds exactly the room ids
referenced by at least one non-error record, and each stored value equals
the (strictly positive) sum of `students` over the non-error records of
that room. -/
theorem C10_roomUsage (mc : Int) (obs : List (List String))
    (roomBlocks : List RoomBlock) (sections : List Section)
    (hnd : (catalogIds roomBlocks).Nodup)
    (hres : obsResolvable obs roomBlocks) (no : String) :
    ((Usage.hasKey (allocateSimpleGreedy mc roomBlocks sections).2 no = true ↔
        ∃ a ∈ (allocateSimpleGreedy mc roomBlocks sections).1,
          a.error = false ∧ a.roomNo = no) ∧
      (Usage.hasKey (allocateSimpleGreedy mc roomBlocks sections).2 no = true →
        Usage.get (allocateSimpleGreedy mc roomBlocks sections).2 no
          = roomSum no (allocateSimpleGreedy mc roomBlocks sections).1 ∧
        0 < Usage.get (allocateSimpleGreedy mc roomBlocks sections).2 no)) ∧
    ((Usage.hasKey (allocateGreedyMinChunk mc roomBlocks sections).2 no = true ↔
        ∃ a ∈ (allocateGreedyMinChunk mc roomBlocks sections).1,
          a.error = false ∧ a.roomNo = no) ∧
      (Usage.hasKey (allocateGreedyMinChunk mc roomBlocks sections).2 no = true →
        Usage.get (allocateGreedyMinChunk mc roomBlocks sections).2 no
          = roomSum no (allocateGreedyMinChunk mc roomBlocks sections).1 ∧
        0 < Usage.get (allocateGreedyMinChunk mc roomBlocks sections).2 no)) ∧
    ((Usage.hasKey (allocateGreedyLookahead mc roomBlocks sections).2 no = true ↔
        ∃ a ∈ (allocateGreedyLookahead mc roomBlocks sections).1,
          a.error = false ∧ a.roomNo = no) ∧
      (Usage.hasKey (allocateGreedyLookahead mc roomBlocks sections).2 no = true →
        Usage.get (allocateGreedyLookahead mc roomBlocks sections).2 no
          = roomSum no (allocateGreedyLookahead mc roomBlocks sections).1 ∧
        0 < Usage.get (allocateGreedyLookahead mc roomBlocks sections).2 no)) ∧
    ((Usage.hasKey (allocateBestFitFFD mc obs roomBlocks sections).2 no = true ↔
        ∃ a ∈ (allocateBestFitFFD mc obs roomBlocks sections).1,
          a.error = false ∧ a.roomNo = no) ∧
      (Usage.hasKey (allocateBestFitFFD mc obs roomBlocks sections).2 no = true →
        Usage.get (allocateBestFitFFD mc obs roomBlocks sections).2 no
          = roomSum no (allocateBestFitFFD mc obs roomBlocks sections).1 ∧
        0 < Usage.get (allocateBestFitFFD mc obs roomBlocks sections).2 no)) := by
  have hgreedy :
      (Usage.hasKey (greedyCore mc roomBlocks sections).2 no = true ↔
        ∃ a ∈ (greedyCore mc roomBlocks sections).1,
          a.error = false ∧ a.roomNo = no) ∧
      (Usage.hasKey (greedyCore mc roomBlocks sections).2 no = true →
        Usage.get (greedyCore mc roomBlocks sections).2 no
          = roomSum no (greedyCore mc roomBlocks sections).1 ∧
        0 < Usage.get (greedyCore mc roomBlocks sections).2 no) := by
    obtain ⟨_, g2, g3, g4, _⟩ := greedySections_spec mc (flattenRooms roomBlocks)
      (normalizeSections sections) [] (normalizeSections_pos sections)
    have hiff : Usage.hasKey (greedyCore mc roomBlocks sections).2 no = true ↔
        ∃ a ∈ (greedyCore mc roomBlocks sections).1,
          a.error = false ∧ a.roomNo = no := by
      rw [show (greedyCore mc roomBlocks sections).2
        = (greedySections mc (flattenRooms roomBlocks)
            (normalizeSections sections) []).2 from rfl, g3 no]
      constructor
      · rintro (h | h)
        · rw [Usage.hasKey_nil] at h
          exact absurd h Bool.false_ne_true
        · exact h
      · exact Or.inr
    refine ⟨hiff, ?_⟩
    intro hk
    have hget := g2 no
    rw [Usage.get_nil] at hget
    obtain ⟨a, ha, hae, hano⟩ := hiff.mp hk
    have hpos := roomSum_pos no _ (fun x hx hxe => (g4 x hx hxe).1) a ha hae hano
    constructor
    · rw [show (greedyCore mc roomBlocks sections).2
        = (greedySections mc (flattenRooms roomBlocks)
            (normalizeSections sections) []).2 from rfl,
        show (greedyCore mc roomBlocks sections).1
        = (greedySections mc (flattenRooms roomBlocks)
            (normalizeSections sections) []).1 from rfl, hget]
      omega
    · rw [show (greedyCore mc roomBlocks sections).2
        = (greedySections mc (flattenRooms roomBlocks)
            (normalizeSections sections) []).2 from rfl, hget]
      omega
  refine ⟨hgreedy, hgreedy, ?_, ?_⟩
  · obtain ⟨la, lb, lc, ld, le', lf, lg, lh⟩ :=
      lookaheadRooms_spec mc (flattenRooms roomBlocks) roomBlocks
        (flattenRooms_cap roomBlocks hnd) (flattenRooms roomBlocks)
        (normalizeSections sections) [] (normalizeSections_pos sections)
        (flattenRooms_ids_nodup roomBlocks hnd)
        (fun rb _ => rfl) (fun rb h => h)
        (fun no h => absurd h (by rw [Usage.hasKey_nil]; simp))
        (fun no => le_refl 0)
    rw [lookahead_result mc roomBlocks sections ld]
    have hiff : Usage.hasKey (lookaheadRooms mc (flattenRooms roomBlocks)
        (flattenRooms roomBlocks) (normalizeSections sections) []).2.2 no = true ↔
        ∃ a ∈ (lookaheadRooms mc (flattenRooms roomBlocks)
            (flattenRooms roomBlocks) (normalizeSections sections) []).1
          ++ ((lookaheadRooms mc (flattenRooms roomBlocks) (flattenRooms roomBlocks)
            (normalizeSections sections) []).2.1.map
              (fun s => mkError s s.students)),
          a.error = false ∧ a.roomNo = no := by
      rw [lc no]
      constructor
      · rintro (h | ⟨a, ha, hano⟩)
        · rw [Usage.hasKey_nil] at h
          exact absurd h Bool.false_ne_true
        · exact ⟨a, List.mem_append_left _ ha, (le' a ha).1, hano⟩
      · rintro ⟨a, ha, hae, hano⟩
        rcases List.mem_append.mp ha with h1 | h1
        · exact Or.inr ⟨a, h1, hano⟩
        · exact absurd (map_mkError_error _ a h1) (by rw [hae]; simp)
    refine ⟨hiff, ?_⟩
    intro hk
    have hget := lb no
    rw [Usage.get_nil] at hget
    rcases (lc no).mp hk with h | ⟨a, ha, hano⟩
    · rw [Usage.hasKey_nil] at h
      exact absurd h Bool.false_ne_true
    · have hpos := roomSum_pos no _ (fun x hx _ => (le' x hx).2.1) a ha (le' a ha).1 hano
      have hfin : Usage.get (lookaheadRooms mc (flattenRooms roomBlocks)
          (flattenRooms roomBlocks) (normalizeSections sections) []).2.2 no
          = roomSum no ((lookaheadRooms mc (flattenRooms roomBlocks)
              (flattenRooms roomBlocks) (normalizeSections sections) []).1
            ++ ((lookaheadRooms mc (flattenRooms roomBlocks)
              (flattenRooms roomBlocks) (normalizeSections sections) []).2.1.map
                (fun s => mkError s s.students))) ∧
          0 < Usage.get (lookaheadRooms mc (flattenRooms roomBlocks)
            (flattenRooms roomBlocks) (normalizeSections sections) []).2.2 no := by
        constructor
        · rw [roomSum_append, roomSum_eq_zero no _ (fun x hx hxe _ =>
            absurd (map_mkError_error _ x hx) (by rw [hxe]; simp)), add_zero, hget]
          omega
        · rw [hget]
          omega
      exact hfin
  · obtain ⟨_, f2, f3, f4, _, _, _, _⟩ :=
      ffdSections_spec mc obs (resolveRooms obs roomBlocks) roomBlocks
        (resolveRooms_cap obs roomBlocks hnd) (normalizeSections sections) [] 0
        (normalizeSections_pos sections)
        (fun no h => absurd h (by rw [Usage.hasKey_nil]; simp))
        (fun no => le_refl 0)
    have hiff : Usage.hasKey (allocateBestFitFFD mc obs roomBlocks sections).2 no
        = true ↔
        ∃ a ∈ (allocateBestFitFFD mc obs roomBlocks sections).1,
          a.error = false ∧ a.roomNo = no := by
      rw [show (allocateBestFitFFD mc obs roomBlocks sections).2
        = (ffdSections mc obs (resolveRooms obs roomBlocks)
            (normalizeSections sections) [] 0).2.1 from rfl, f3 no]
      constructor
      · rintro (h | h)
        · rw [Usage.hasKey_nil] at h
          exact absurd h Bool.false_ne_true
        · exact h
      · exact Or.inr
    refine ⟨hiff, ?_⟩
    intro hk
    have hget := f2 no
    rw [Usage.get_nil] at hget
    obtain ⟨a, ha, hae, hano⟩ := hiff.mp hk
    have hpos := roomSum_pos no _ (fun x hx hxe => (f4 x hx hxe).1) a ha hae hano
    constructor
    · rw [show (allocateBestFitFFD mc obs roomBlocks sections).2
        = (ffdSections mc obs (resolveRooms obs roomBlocks)
            (normalizeSections sections) [] 0).2.1 from rfl,
        show (allocateBestFitFFD mc obs roomBlocks sections).1
        = (ffdSections mc obs (resolveRooms obs roomBlocks)
            (normalizeSections sections) [] 0).1 from rfl, hget]
      omega
    · rw [show (allocateBestFitFFD mc obs roomBlocks sections).2
        = (ffdSections mc obs (resolveRooms obs roomBlocks)
            (normalizeSections sections) [] 0).2.1 from rfl, hget]
      omega

theorem C10_roomUsage_witness :
    ((catalogIds [RoomBlock.mk "BlockA" [Room.mk "R1" 10]]).Nodup ∧
      obsResolvable [["R1"]] [RoomBlock.mk "BlockA" [Room.mk "R1" 10]]) ∧
    ((Usage.hasKey (allocateSimpleGreedy 10
        [RoomBlock.mk "BlockA" [Room.mk "R1" 10]]
        [Section.mk 1 "CSE" "A" 5]).2 "R1" = true ↔
      ∃ a ∈ (allocateSimpleGreedy 10 [RoomBlock.mk "BlockA" [Room.mk "R1" 10]]
          [Section.mk 1 "CSE" "A" 5]).1, a.error = false ∧ a.roomNo = "R1") ∧
      (Usage.hasKey (allocateSimpleGreedy 10
          [RoomBlock.mk "BlockA" [Room.mk "R1" 10]]
          [Section.mk 1 "CSE" "A" 5]).2 "R1" = true →
        Usage.get (allocateSimpleGreedy 10
            [RoomBlock.mk "BlockA" [Room.mk "R1" 10]]
            [Section.mk 1 "CSE" "A" 5]).2 "R1"
          = roomSum "R1" (allocateSimpleGreedy 10
              [RoomBlock.mk "BlockA" [Room.mk "R1" 10]]
              [Section.mk 1 "CSE" "A" 5]).1 ∧
        0 < Usage.get (allocateSimpleGreedy 10
            [RoomBlock.mk "BlockA" [Room.mk "R1" 10]]
            [Section.mk 1 "CSE" "A" 5]).2 "R1")) :=
  ⟨⟨by decide, by decide⟩,
    (C10_roomUsage 10 [["R1"]] [RoomBlock.mk "BlockA" [Room.mk "R1" 10]]
      [Section.mk 1 "CSE" "A" 5] (by decide) (by decide) "R1").1⟩

end Alloc
